import Mathlib

/-!
GraphLib: an undirected graph over an adjacency store

Shallow embedding of `src/graphlib.hpp` (class `Graph<Vertex, Hash>`).

The single data member `adj` is a `std::unordered_map<Vertex, std::unordered_set<Vertex>>`.
It is embedded as an association list `List (V × List V)`: one entry per key, the
second component being the neighbor set of the key, itself a list.

* Hash containers do not fix an iteration order.  The embedding fixes one: an entry
  (or an element of a set) that is newly created goes to the back, an existing one
  keeps its place.  Every function below walks the lists in that order wherever the
  source iterates over the container.
* Lookups (`find`, `contains`, `operator[]`, `erase`) act on the first entry with the
  given key.  A list whose keys are pairwise distinct is what a real
  `unordered_map` state looks like; the functions are defined on every list and the
  theorems say where distinctness is needed.
* `size_t` counters and the `int` depth of `distance` are natural numbers.
* One call hands a size chosen by the caller to the standard library:
  `result.reserve(maxv)` in `bfs`.  Its exception is an outcome of `bfs`
  (`BfsOutcome`); what `reserve` grants is a parameter of the embedding.
-/

set_option linter.unusedSectionVars false

namespace GraphLib

variable {V : Type} [DecidableEq V]

/-! ## The two containers -/

namespace USet

/-- Insertion `s.insert(x)` of `std::unordered_set`: nothing happens when `x` is
already an element, otherwise `x` joins the set. -/
def insert (s : List V) (x : V) : List V :=
  if x ∈ s then s else s ++ [x]

/-- Removal `s.erase(x)` of `std::unordered_set`: the element equal to `x` leaves. -/
def erase (s : List V) (x : V) : List V :=
  s.filter (fun y => decide (y ≠ x))

end USet

namespace UMap

/-- Lookup `adj.find(k)`: the neighbor set stored under `k`, `none` standing for
`adj.end()`. -/
def find : List (V × List V) → V → Option (List V)
  | [], _ => none
  | (k, s) :: m, x => if k = x then some s else find m x

/-- Membership `adj.contains(k)`. -/
def contains (m : List (V × List V)) (k : V) : Bool :=
  (find m k).isSome

/-- Insertion `adj.try_emplace(k)`: a key that is absent enters with an empty
neighbor set, a key that is present is left alone. -/
def tryEmplace : List (V × List V) → V → List (V × List V)
  | [], x => [(x, [])]
  | (k, s) :: m, x => if k = x then (k, s) :: m else (k, s) :: tryEmplace m x

/-- Access-and-mutate `adj[k].op(..)`: `operator[]` creates the key with an empty
set when it is absent, then `f` (an insert or an erase) is applied to the set
stored under `k`. -/
def index : List (V × List V) → V → (List V → List V) → List (V × List V)
  | [], x, f => [(x, f [])]
  | (k, s) :: m, x, f => if k = x then (k, f s) :: m else (k, s) :: index m x f

/-- Guarded mutation `it = adj.find(k); if (it != adj.end()) it->second.op(..)`:
the set stored under `k` is mutated when the key is present, and nothing is
created when it is not. -/
def modify : List (V × List V) → V → (List V → List V) → List (V × List V)
  | [], _, _ => []
  | (k, s) :: m, x, f => if k = x then (k, f s) :: m else (k, s) :: modify m x f

/-- Removal `adj.erase(it)` of the entry that `find` returned for key `k`. -/
def erase : List (V × List V) → V → List (V × List V)
  | [], _ => []
  | (k, s) :: m, x => if k = x then m else (k, s) :: erase m x

end UMap

/-! ## The graph -/

/-- The class `Graph`: its only member is the adjacency store `adj`. -/
structure Graph (V : Type) where
  adj : List (V × List V)
deriving DecidableEq, Repr

namespace Graph

/-- The default constructor `Graph()`: an empty adjacency store. -/
def empty : Graph V := ⟨[]⟩

/-- Source `addVertex`: `adj.try_emplace(v)`. -/
def addVertex (g : Graph V) (v : V) : Graph V :=
  ⟨UMap.tryEmplace g.adj v⟩

/-- Source `addEdge`: returns at once when `u == v`, otherwise
`adj[u].insert(v); adj[v].insert(u);`. -/
def addEdge (g : Graph V) (u v : V) : Graph V :=
  if u = v then g
  else
    let adj1 := UMap.index g.adj u (fun s => USet.insert s v)
    ⟨UMap.index adj1 v (fun s => USet.insert s u)⟩

/-- Source `containsVertex`: `adj.contains(v)`. -/
def containsVertex (g : Graph V) (v : V) : Bool :=
  UMap.contains g.adj v

/-- Source `containsEdge`: false when `u == v`; otherwise `u` is looked up and the
answer is whether the lookup succeeded and `v` is in the set found. -/
def containsEdge (g : Graph V) (u v : V) : Bool :=
  if u = v then false
  else
    match UMap.find g.adj u with
    | none => false
    | some s => decide (v ∈ s)

/-- Source `degree`: the size of the set found under `v`, or 0. -/
def degree (g : Graph V) (v : V) : Nat :=
  match UMap.find g.adj v with
  | none => 0
  | some s => s.length

/-- Source `countVertices`: `adj.size()`. -/
def countVertices (g : Graph V) : Nat :=
  g.adj.length

/-- Source `countEdges`: the loop adds up the sizes of all neighbor sets, the
result is that total divided by two. -/
def countEdges (g : Graph V) : Nat :=
  (g.adj.foldl (fun total entry => total + entry.2.length) 0) / 2

/-- Source `removeEdge`: returns at once when `u == v`; otherwise `v` is erased
from the set of `u` if `u` is found, then `u` from the set of `v` if `v` is found. -/
def removeEdge (g : Graph V) (u v : V) : Graph V :=
  if u = v then g
  else
    let adj1 := UMap.modify g.adj u (fun s => USet.erase s v)
    ⟨UMap.modify adj1 v (fun s => USet.erase s u)⟩

/-- The loop `for (neighbor : it->second) adj[neighbor].erase(v)` of `removeVertex`,
over the set `nbrs` of `v` as it stands when the loop starts. -/
def removeVertexLoop (v : V) (nbrs : List V) (m : List (V × List V)) : List (V × List V) :=
  nbrs.foldl (fun m neighbor => UMap.index m neighbor (fun s => USet.erase s v)) m

/-- Source `removeVertex`: returns at once when `v` is not found; otherwise the
loop erases `v` from the set of each of its neighbors, and then the entry of `v`
is erased. -/
def removeVertex (g : Graph V) (v : V) : Graph V :=
  match UMap.find g.adj v with
  | none => g
  | some nbrs => ⟨UMap.erase (removeVertexLoop v nbrs g.adj) v⟩

/-- Source `clear`: `adj.clear()`. -/
def clear (_g : Graph V) : Graph V := ⟨[]⟩

/-- Source `vertices`: every key of `adj` is inserted into a fresh set. -/
def vertices (g : Graph V) : List V :=
  g.adj.foldl (fun res entry => USet.insert res entry.1) []

/-- Source `neighbors`: the set found under `v`, or the static empty set. -/
def neighbors (g : Graph V) (v : V) : List V :=
  match UMap.find g.adj v with
  | none => []
  | some s => s

/-! ### Shortest-path distance -/

/-- The innermost loop of `distance`, over the neighbor set of the vertex just
popped: `none` is `return depth` (the target was met), otherwise the seen set and
the queue after the loop. -/
def scanNeighbors (v : V) : List V → List V → List V → Option (List V × List V)
  | [], seen, queue => some (seen, queue)
  | neighbor :: rest, seen, queue =>
    if neighbor = v then none
    else if neighbor ∈ seen then scanNeighbors v rest seen queue
    else scanNeighbors v rest (seen ++ [neighbor]) (queue ++ [neighbor])

/-- The loop `for (i = 0; i < level_size; i++)` of `distance`: the first argument
counts the iterations left.  Each one pops the front of the queue, looks the
vertex up (`continue` when it is not found) and scans its neighbors.  `none` is
`return depth`.  The queue cannot be empty while iterations are left, since
`level_size` was its length; that case stops the loop. -/
def processLevel (adj : List (V × List V)) (v : V) :
    Nat → List V → List V → Option (List V × List V)
  | 0, seen, queue => some (seen, queue)
  | _ + 1, seen, [] => some (seen, [])
  | i + 1, seen, current :: queue =>
    match UMap.find adj current with
    | none => processLevel adj v i seen queue
    | some nbrs =>
      match scanNeighbors v nbrs seen queue with
      | none => none
      | some (seen1, queue1) => processLevel adj v i seen1 queue1

/-- The loop `while (!level.empty())` of `distance`.  The first argument bounds the
number of iterations: the outer `none` says that the bound was reached before
the loop ended.  Otherwise the value is what `distance` returns, `some depth` or
`none` for `std::nullopt`. -/
def distanceLoop (adj : List (V × List V)) (v : V) :
    Nat → List V → List V → Nat → Option (Option Nat)
  | _, _, [], _ => some none
  | 0, _, _ :: _, _ => none
  | fuel + 1, seen, current :: queue, depth =>
    match processLevel adj v (current :: queue).length seen (current :: queue) with
    | none => some (some (depth + 1))
    | some (seen1, level1) => distanceLoop adj v fuel seen1 level1 (depth + 1)

/-- Source `distance`, with a bound on the iterations of the outer loop:
`std::nullopt` when `u` or `v` is absent, 0 when `u == v`, otherwise the
level-by-level search from `u`. -/
def distanceWithin (fuel : Nat) (g : Graph V) (u v : V) : Option (Option Nat) :=
  if !g.containsVertex u || !g.containsVertex v then some none
  else if u = v then some (some 0)
  else distanceLoop g.adj v fuel [u] [u] 0

/-- Source `distance`.  The outer loop is given as many iterations as the graph
has vertices, which is enough in every state the public operations produce
(`distanceLoop_total`). -/
def distance (g : Graph V) (u v : V) : Option (Option Nat) :=
  distanceWithin g.countVertices g u v

/-! ### Breadth-first search -/

/-- The loop `for (next : it->second)` of `bfs`: a neighbor that `seen.insert`
really inserts is pushed on the queue.  The value is the seen set and the queue
after the loop. -/
def bfsScan : List V → List V → List V → List V × List V
  | [], seen, pending => (seen, pending)
  | next :: rest, seen, pending =>
    if next ∈ seen then bfsScan rest seen pending
    else bfsScan rest (seen ++ [next]) (pending ++ [next])

/-- The loop `while (!pending.empty())` of `bfs`, with the limit `maxv`.  The
first numeric argument bounds the number of times the body is entered: `none`
says that the bound was reached before the loop ended.  The body first tests
`maxv > 0 && result.size() >= maxv` (`break`), then pops the front of the queue,
appends it to the result, looks it up (`continue` when it is not found) and scans
its neighbors. -/
def bfsLoop (adj : List (V × List V)) (maxv : Nat) :
    Nat → List V → List V → List V → Option (List V)
  | _, _, [], result => some result
  | 0, _, _ :: _, _ => none
  | fuel + 1, seen, current :: pending, result =>
    if 0 < maxv ∧ maxv ≤ result.length then some result
    else
      match UMap.find adj current with
      | none => bfsLoop adj maxv fuel seen pending (result ++ [current])
      | some nbrs =>
        bfsLoop adj maxv fuel (bfsScan nbrs seen pending).1 (bfsScan nbrs seen pending).2
          (result ++ [current])

/-- Ways in which a call of `bfs` ends: with the returned vector, or with the
exception that `result.reserve(maxv)` throws when it is asked for more storage
than it can give. -/
inductive BfsOutcome (V : Type) where
  | reserveThrew : BfsOutcome V
  | value (result : List V) : BfsOutcome V
  deriving DecidableEq, Repr

/-- Source `bfs`, with a bound on the number of times the body of its loop is
entered.  The statements are taken in the order of the source: the empty sequence
when `v` is absent; then `if (maxv > 0) result.reserve(maxv)`; then the traversal
from `v` with queue and seen set both holding `v`.  The limit `maxv` is 0 for no
limit.

`reserveMax` is the largest capacity that `result.reserve` grants.  The source
does not fix it: it is at most `std::vector<Vertex>::max_size()`, a constant of
the standard library that is smaller than the largest `size_t`, and a request
above it leaves `bfs` by an exception (`std::length_error`, or `std::bad_alloc`
when the storage cannot be obtained).  A granted `reserve` changes the capacity of
the vector only, not its contents.  The other containers grow with the graph and
their allocations are taken to succeed. -/
def bfsWithin (reserveMax fuel : Nat) (g : Graph V) (v : V) (maxv : Nat) :
    Option (BfsOutcome V) :=
  if !g.containsVertex v then some (.value [])
  else if 0 < maxv ∧ reserveMax < maxv then some .reserveThrew
  else (bfsLoop g.adj maxv fuel [v] [v] []).map .value

/-- Source `bfs`.  The loop is given as many entries into its body as the graph
has vertices, which is enough in every state the public operations produce
(`bfsLoop_total`). -/
def bfs (g : Graph V) (reserveMax : Nat) (v : V) (maxv : Nat) : Option (BfsOutcome V) :=
  bfsWithin reserveMax g.countVertices g v maxv

/-! ### Statistics and collections -/

/-- Source `maxDegree`: the loop keeps in `max_d`, which starts at 0, the largest
size met among the neighbor sets. -/
def maxDegree (g : Graph V) : Nat :=
  g.adj.foldl
    (fun max_d entry => if entry.2.length > max_d then entry.2.length else max_d) 0

/-- Source `edges`: for every key `u` and every `v` in its neighbor set, the pair
`(u, v)` is emplaced into the result set when `u < v`. -/
def edges [LT V] [DecidableRel (fun a b : V => a < b)] (g : Graph V) : List (V × V) :=
  g.adj.foldl
    (fun res entry =>
      entry.2.foldl
        (fun res v => if entry.1 < v then USet.insert res (entry.1, v) else res) res)
    []

/-- Source `closedNeighbors`: the empty set when `v` is not found, otherwise a copy
of the set found under `v` into which `v` is inserted. -/
def closedNeighbors (g : Graph V) (v : V) : List V :=
  match UMap.find g.adj v with
  | none => []
  | some s => USet.insert s v

/-! ### Iteration -/

/-- The nested class `iterator`: it wraps a `const_iterator` of `adj`, a position in
the store, given here by the entries from that position on. -/
structure Iterator (V : Type) where
  rest : List (V × List V)
deriving DecidableEq, Repr

/-- Source `iterator::operator*`: the key at the position; there is none at the end
of the store, where the source must not be dereferenced. -/
def Iterator.deref (it : Iterator V) : Option V :=
  match it.rest with
  | [] => none
  | entry :: _ => some entry.1

/-- Source `iterator::operator++` (prefix): the position moves to the next entry. -/
def Iterator.next (it : Iterator V) : Iterator V :=
  ⟨it.rest.tail⟩

/-- Source `begin`: the position of the first entry of `adj`. -/
def begin (g : Graph V) : Iterator V := ⟨g.adj⟩

/-- Source `end` (a reserved word here, hence the underscore): the position past the
last entry of `adj`. -/
def end_ (_g : Graph V) : Iterator V := ⟨[]⟩

/-- The loop `for (it = g.begin(); it != g.end(); ++it) out.push_back(*it)` that the
tests run over a graph, `last` being `g.end()`.  The numeric argument bounds the
number of rounds: `none` says that the bound was reached before `it == last`, or
that the end of the store was dereferenced. -/
def iterateLoop (last : Iterator V) : Nat → Iterator V → List V → Option (List V)
  | fuel, it, out =>
    if it = last then some out
    else
      match fuel with
      | 0 => none
      | fuel + 1 =>
        match it.deref with
        | none => none
        | some v => iterateLoop last fuel it.next (out ++ [v])

/-- The sequence of vertices that the iteration from `begin()` to `end()` yields,
the loop being given as many rounds as the graph has vertices. -/
def iterate (g : Graph V) : Option (List V) :=
  iterateLoop g.end_ g.countVertices g.begin []

end Graph

/-! ## Auxiliary notions used by the proofs -/

namespace UMap

/-- The keys of the store, in iteration order. -/
def keys (m : List (V × List V)) : List V :=
  m.map Prod.fst

/-- The sum of the sizes of all neighbor sets, the value of `total` when the loop
of `countEdges` ends. -/
def total (m : List (V × List V)) : Nat :=
  (m.map (fun entry => entry.2.length)).sum

/-- Every stored pair `(u, v)` with `v` in the neighbor set of the key `u`, in the
order in which the two nested loops of `edges` meet them. -/
def pairs : List (V × List V) → List (V × V)
  | [] => []
  | (k, s) :: m => s.map (fun v => (k, v)) ++ pairs m

end UMap

/-! ## Sequences of public mutations -/

/-- A call of one of the five mutating member functions. -/
inductive Op (V : Type) where
  | addVertex (v : V)
  | addEdge (u v : V)
  | removeEdge (u v : V)
  | removeVertex (v : V)
  | clear
deriving DecidableEq, Repr

namespace Graph

/-- The effect of one call on a graph. -/
def step (g : Graph V) : Op V → Graph V
  | .addVertex v => g.addVertex v
  | .addEdge u v => g.addEdge u v
  | .removeEdge u v => g.removeEdge u v
  | .removeVertex v => g.removeVertex v
  | .clear => g.clear

/-- The effect of a sequence of calls, first call first. -/
def run (g : Graph V) (ops : List (Op V)) : Graph V :=
  ops.foldl step g

/-- The state obtained from the empty graph by a sequence of calls. -/
def build (ops : List (Op V)) : Graph V :=
  run empty ops

/-- The graph of `tests/test5.cpp` after its second step: the complete graph on
0..4 without the edges joining two vertices of the same parity. -/
def k32 : Graph Nat :=
  build
    [.addEdge 0 1, .addEdge 0 2, .addEdge 0 3, .addEdge 0 4, .addEdge 1 2, .addEdge 1 3,
     .addEdge 1 4, .addEdge 2 3, .addEdge 2 4, .addEdge 3 4,
     .removeEdge 0 2, .removeEdge 0 4, .removeEdge 1 3, .removeEdge 2 4]

/-- The grid of `tests/test3.cpp`: vertices `10 * x + y` for `x` in 1..4 and `y` in
1..3, each joined to the next one in its row and in its column, the edges added
in the order of the two nested loops of the test. -/
def grid43 : Graph Nat :=
  build
    [.addEdge 11 21, .addEdge 11 12, .addEdge 12 22, .addEdge 12 13, .addEdge 13 23,
     .addEdge 21 31, .addEdge 21 22, .addEdge 22 32, .addEdge 22 23, .addEdge 23 33,
     .addEdge 31 41, .addEdge 31 32, .addEdge 32 42, .addEdge 32 33, .addEdge 33 43,
     .addEdge 41 42, .addEdge 42 43]

/-- The calls of the two nested loops that build the complete graph on `0 .. n - 1` in
`tests/boosttests.cpp`: `addEdge(i, j)` for every `i` and every `j` other than `i`. -/
def completeOps (n : Nat) : List (Op Nat) :=
  (List.range n).flatMap
    (fun i => (List.range n).flatMap (fun j => if i ≠ j then [Op.addEdge i j] else []))

/-- The calls of the loop that follows in the same test: `removeVertex(i)` for every
even `i` below `n`. -/
def evenRemovals (n : Nat) : List (Op Nat) :=
  ((List.range n).filter (fun i => i % 2 = 0)).map Op.removeVertex

/-- Two stores hold the same state when they have the same vertices and every
vertex has the same neighbors in both: the mapping from vertex to neighbor set is
the same, whatever the order in which the containers hand out their elements. -/
def SameState (g h : Graph V) : Prop :=
  (∀ x : V, g.containsVertex x = h.containsVertex x) ∧
  ∀ x w : V, w ∈ g.neighbors x ↔ w ∈ h.neighbors x

/-- A sequence `xs` of vertices in which each one is joined to the next by an edge. -/
def IsPath (g : Graph V) : List V → Prop
  | [] => True
  | [_] => True
  | a :: b :: rest => g.containsEdge a b = true ∧ IsPath g (b :: rest)

/-- A path from `u` to `v` with `n` edges: `n + 1` vertices, first `u`, last `v`. -/
def PathOfLength (g : Graph V) (u v : V) (n : Nat) : Prop :=
  ∃ xs : List V, xs.length = n + 1 ∧ xs.head? = some u ∧ xs.getLast? = some v ∧ g.IsPath xs

/-- What every state produced by the public operations satisfies: the keys are
pairwise distinct, the neighbor sets have no repeated element, adjacency is
symmetric and irreflexive, and the total of the set sizes is even. -/
structure Inv (g : Graph V) : Prop where
  keys_nodup : (UMap.keys g.adj).Nodup
  sets_nodup : ∀ k, (g.neighbors k).Nodup
  symm : ∀ u v, v ∈ g.neighbors u → u ∈ g.neighbors v
  irrefl : ∀ u, u ∉ g.neighbors u
  even_total : UMap.total g.adj % 2 = 0

/-- The elements that one scan of `nbrs` adds to the seen set (and to the queue):
those not yet seen, each taken the first time it is met. -/
def fresh : List V → List V → List V
  | [], _ => []
  | n :: ns, seen => if n ∈ seen then fresh ns seen else n :: fresh ns (seen ++ [n])

/-- The elements that the processing of the level `cur` adds to the seen set (and
to the queue), in the order in which they are pushed. -/
def levelFresh (g : Graph V) : List V → List V → List V
  | [], _ => []
  | c :: cur, seen =>
    fresh (g.neighbors c) seen ++ levelFresh g cur (seen ++ fresh (g.neighbors c) seen)

/-- A walk from `u` with `n` edges, grown at its far end: `Walk g u x n` says that
`x` is reached from `u` by `n` successive edges. -/
inductive Walk (g : Graph V) (u : V) : V → Nat → Prop where
  | refl : Walk g u u 0
  | step {y x : V} {n : Nat} : Walk g u y n → g.containsEdge y x = true → Walk g u x (n + 1)

/-- The state of the search of `distance` from `u` for `v` when the outer loop is
about to run with `depth = d`: the seen set holds the vertices within `d` edges of
`u`, the queue holds those at exactly `d` edges, and `v` has not been seen. -/
structure BfsInv (g : Graph V) (u v : V) (seen level : List V) (d : Nat) : Prop where
  seen_iff : ∀ x, x ∈ seen ↔ ∃ n, n ≤ d ∧ Walk g u x n
  level_walk : ∀ x, x ∈ level → Walk g u x d
  walk_level : ∀ x, Walk g u x d → x ∈ level ∨ ∃ n, n < d ∧ Walk g u x n
  target_unseen : v ∉ seen

/-- The length `d` of a shortest path from `u` to `x`: some path has `d` edges and
none has fewer. -/
def ShortestLength (g : Graph V) (u x : V) (d : Nat) : Prop :=
  g.PathOfLength u x d ∧ ∀ n : Nat, g.PathOfLength u x n → d ≤ n

/-- A graph is connected when a path joins any two of its vertices. -/
def Connected (g : Graph V) : Prop :=
  ∀ a b : V, g.containsVertex a = true → g.containsVertex b = true →
    ∃ n : Nat, g.PathOfLength a b n

/-- The order of discovery: `a` may come before `b` when `a` is at most as far from
`u` as `b` is, that is, every walk to `b` is at least as long as some walk to `a`. -/
def NotFarther (g : Graph V) (u a b : V) : Prop :=
  ∀ n : Nat, Walk g u b n → ∃ m : Nat, m ≤ n ∧ Walk g u a m

/-- The state of a level-by-level traversal from `u` when the vertices at `d`
edges of `u` have just been found: `seen` holds the vertices within `d` edges, in
an order of discovery and without repetition, and `level` those at exactly `d`. -/
structure LevelInv (g : Graph V) (u : V) (seen level : List V) (d : Nat) : Prop where
  seen_iff : ∀ x, x ∈ seen ↔ ∃ n, n ≤ d ∧ Walk g u x n
  level_walk : ∀ x, x ∈ level → Walk g u x d
  walk_level : ∀ x, Walk g u x d → x ∈ level ∨ ∃ n, n < d ∧ Walk g u x n
  level_min : ∀ x, x ∈ level → ∀ n, Walk g u x n → d ≤ n
  sorted : seen.Pairwise (NotFarther g u)
  nodup : seen.Nodup

/-- The state of the loop of `bfs` read level by level: the vertices seen when
level `d` was complete are `res0 ++ done ++ rest`, the level being `done ++ rest`;
the vertices of `done` have been popped, those of `rest` are still at the front of
the queue, followed by what the popped ones have added. -/
def QueueInv (g : Graph V) (u : V) (seen pending result : List V) : Prop :=
  ∃ (d : Nat) (res0 done rest : List V),
    LevelInv g u (res0 ++ (done ++ rest)) (done ++ rest) d ∧
    result = res0 ++ done ∧
    pending = rest ++ levelFresh g done (res0 ++ (done ++ rest)) ∧
    seen = (res0 ++ (done ++ rest)) ++ levelFresh g done (res0 ++ (done ++ rest))

end Graph

/-! ## Facts about the containers -/

namespace USet

theorem mem_insert (s : List V) (x y : V) : y ∈ insert s x ↔ y = x ∨ y ∈ s := by
  unfold insert
  split
  · constructor
    · intro h; exact Or.inr h
    · rintro (rfl | h)
      · assumption
      · exact h
  · simp [or_comm]

theorem mem_erase (s : List V) (x y : V) : y ∈ erase s x ↔ y ∈ s ∧ y ≠ x := by
  simp [erase]

theorem nodup_insert {s : List V} (h : s.Nodup) (x : V) : (insert s x).Nodup := by
  unfold insert
  split
  · exact h
  · rename_i hx
    rw [List.nodup_append]
    refine ⟨h, List.nodup_singleton x, ?_⟩
    intro a ha hb
    simp at hb
    subst hb
    exact hx ha

theorem nodup_erase {s : List V} (h : s.Nodup) (x : V) : (erase s x).Nodup :=
  h.filter _

theorem length_insert (s : List V) (x : V) :
    (insert s x).length = s.length + (if x ∈ s then 0 else 1) := by
  unfold insert
  split <;> simp

theorem erase_of_not_mem {s : List V} {x : V} (h : x ∉ s) : erase s x = s := by
  unfold erase
  rw [List.filter_eq_self]
  intro a ha
  simp only [ne_eq, decide_eq_true_eq]
  rintro rfl
  exact h ha

theorem length_erase {s : List V} (h : s.Nodup) (x : V) :
    (erase s x).length + (if x ∈ s then 1 else 0) = s.length := by
  induction s with
  | nil => simp [erase]
  | cons a s ih =>
    have hs := (List.nodup_cons.mp h).2
    have ha := (List.nodup_cons.mp h).1
    have ih1 := ih hs
    by_cases hax : a = x
    · subst hax
      have e : erase (a :: s) a = s := by
        have h1 : erase (a :: s) a = erase s a := by simp [erase, List.filter_cons]
        rw [h1, erase_of_not_mem ha]
      rw [e]; simp
    · have e : erase (a :: s) x = a :: erase s x := by
        simp [erase, List.filter_cons, hax]
      rw [e]
      have hm : (x ∈ a :: s) ↔ x ∈ s := by
        simp [List.mem_cons, Ne.symm hax]
      simp only [hm, List.length_cons]
      omega

theorem erase_erase (s : List V) (x : V) : erase (erase s x) x = erase s x := by
  simp [erase, List.filter_filter]

end USet

namespace UMap

theorem find_eq_none_iff (m : List (V × List V)) (k : V) :
    find m k = none ↔ k ∉ keys m := by
  induction m with
  | nil => simp [find, keys]
  | cons e m ih =>
    obtain ⟨a, s⟩ := e
    by_cases h : a = k
    · simp [find, keys, h]
    · simp only [find, h, if_false, ih, keys, List.map_cons, List.mem_cons]
      constructor
      · intro hk; rintro (rfl | h2)
        · exact h rfl
        · exact hk h2
      · intro hk h2; exact hk (Or.inr h2)

theorem contains_iff (m : List (V × List V)) (k : V) :
    contains m k = true ↔ k ∈ keys m := by
  unfold contains
  cases hf : find m k with
  | none => simpa using (find_eq_none_iff m k).mp hf
  | some s =>
    simp only [Option.isSome_some, true_iff]
    by_contra hk
    rw [(find_eq_none_iff m k).mpr hk] at hf
    cases hf

theorem find_index (m : List (V × List V)) (k : V) (f : List V → List V) (x : V) :
    find (index m k f) x = if x = k then some (f ((find m k).getD [])) else find m x := by
  induction m with
  | nil =>
    by_cases h : x = k
    · simp [index, find, h]
    · simp [index, find, h, Ne.symm h]
  | cons e m ih =>
    obtain ⟨a, s⟩ := e
    by_cases hak : a = k
    · subst hak
      by_cases h : x = a
      · simp [index, find, h]
      · simp [index, find, h, Ne.symm h]
    · by_cases h : x = k
      · subst h
        simp [index, find, hak, ih]
      · by_cases hax : a = x
        · simp [index, find, hak, hax, h]
        · simp [index, find, hak, hax, h, ih]

theorem find_modify (m : List (V × List V)) (k : V) (f : List V → List V) (x : V) :
    find (modify m k f) x = if x = k then (find m k).map f else find m x := by
  induction m with
  | nil => simp [modify, find]
  | cons e m ih =>
    obtain ⟨a, s⟩ := e
    by_cases hak : a = k
    · subst hak
      by_cases h : x = a
      · simp [modify, find, h]
      · simp [modify, find, h, Ne.symm h]
    · by_cases h : x = k
      · subst h
        simp [modify, find, hak, ih]
      · by_cases hax : a = x
        · simp [modify, find, hak, hax, h]
        · simp [modify, find, hak, hax, h, ih]

theorem find_tryEmplace (m : List (V × List V)) (k x : V) :
    find (tryEmplace m k) x = if x = k then some ((find m k).getD []) else find m x := by
  induction m with
  | nil =>
    by_cases h : x = k
    · simp [tryEmplace, find, h]
    · simp [tryEmplace, find, h, Ne.symm h]
  | cons e m ih =>
    obtain ⟨a, s⟩ := e
    by_cases hak : a = k
    · subst hak
      by_cases h : x = a
      · simp [tryEmplace, find, h]
      · simp [tryEmplace, find, h, Ne.symm h]
    · by_cases h : x = k
      · subst h
        simp [tryEmplace, find, hak, ih]
      · by_cases hax : a = x
        · simp [tryEmplace, find, hak, hax, h]
        · simp [tryEmplace, find, hak, hax, h, ih]

theorem find_erase_ne (m : List (V × List V)) {k x : V} (h : x ≠ k) :
    find (erase m k) x = find m x := by
  induction m with
  | nil => simp [erase, find]
  | cons e m ih =>
    obtain ⟨a, s⟩ := e
    by_cases hak : a = k
    · subst hak
      simp [erase, find, Ne.symm h]
    · by_cases hax : a = x
      · subst hax
        simp [erase, find, hak]
      · simp [erase, find, hak, hax, ih]

theorem keys_erase (m : List (V × List V)) (k : V) :
    keys (erase m k) = (keys m).erase k := by
  induction m with
  | nil => simp [erase, keys]
  | cons e m ih =>
    obtain ⟨a, s⟩ := e
    by_cases hak : a = k
    · subst hak
      simp [erase, keys]
    · have : keys (erase m k) = (keys m).erase k := ih
      simp only [keys] at this
      simp [erase, keys, hak, List.erase_cons_tail, this]

theorem find_erase_self {m : List (V × List V)} (h : (keys m).Nodup) (k : V) :
    find (erase m k) k = none := by
  rw [find_eq_none_iff, keys_erase]
  exact fun hk => (List.Nodup.mem_erase_iff h).mp hk |>.1 rfl

theorem keys_modify (m : List (V × List V)) (k : V) (f : List V → List V) :
    keys (modify m k f) = keys m := by
  induction m with
  | nil => simp [modify, keys]
  | cons e m ih =>
    obtain ⟨a, s⟩ := e
    have : keys (modify m k f) = keys m := ih
    simp only [keys] at this
    by_cases hak : a = k
    · simp [modify, keys, hak]
    · simp [modify, keys, hak, this]

theorem keys_index (m : List (V × List V)) (k : V) (f : List V → List V) :
    keys (index m k f) = if k ∈ keys m then keys m else keys m ++ [k] := by
  induction m with
  | nil => simp [index, keys]
  | cons e m ih =>
    obtain ⟨a, s⟩ := e
    have ih1 : keys (index m k f) = if k ∈ keys m then keys m else keys m ++ [k] := ih
    simp only [keys] at ih1
    by_cases hak : a = k
    · simp [index, keys, hak]
    · simp only [index, hak, if_false, keys, List.map_cons, List.mem_cons, ih1]
      have : (k = a ∨ k ∈ List.map Prod.fst m) ↔ k ∈ List.map Prod.fst m := by
        constructor
        · rintro (h | h)
          · exact absurd h.symm hak
          · exact h
        · exact Or.inr
      simp only [this]
      split <;> simp

theorem keys_tryEmplace (m : List (V × List V)) (k : V) :
    keys (tryEmplace m k) = if k ∈ keys m then keys m else keys m ++ [k] := by
  induction m with
  | nil => simp [tryEmplace, keys]
  | cons e m ih =>
    obtain ⟨a, s⟩ := e
    have ih1 : keys (tryEmplace m k) = if k ∈ keys m then keys m else keys m ++ [k] := ih
    simp only [keys] at ih1
    by_cases hak : a = k
    · simp [tryEmplace, keys, hak]
    · simp only [tryEmplace, hak, if_false, keys, List.map_cons, List.mem_cons, ih1]
      have : (k = a ∨ k ∈ List.map Prod.fst m) ↔ k ∈ List.map Prod.fst m := by
        constructor
        · rintro (h | h)
          · exact absurd h.symm hak
          · exact h
        · exact Or.inr
      simp only [this]
      split <;> simp

theorem tryEmplace_of_mem {m : List (V × List V)} {k : V} (h : k ∈ keys m) :
    tryEmplace m k = m := by
  induction m with
  | nil => simp [keys] at h
  | cons e m ih =>
    obtain ⟨a, s⟩ := e
    by_cases hak : a = k
    · simp [tryEmplace, hak]
    · have hk : k ∈ keys m := by
        simp only [keys, List.map_cons, List.mem_cons] at h
        rcases h with h | h
        · exact absurd h.symm hak
        · exact h
      simp [tryEmplace, hak, ih hk]

theorem tryEmplace_of_not_mem {m : List (V × List V)} {k : V} (h : k ∉ keys m) :
    tryEmplace m k = m ++ [(k, [])] := by
  induction m with
  | nil => simp [tryEmplace]
  | cons e m ih =>
    obtain ⟨a, s⟩ := e
    simp only [keys, List.map_cons, List.mem_cons, not_or] at h
    have hak : ¬ a = k := fun e => h.1 e.symm
    simp [tryEmplace, hak, ih h.2]

theorem nodup_keys_index {m : List (V × List V)} (h : (keys m).Nodup) (k : V)
    (f : List V → List V) : (keys (index m k f)).Nodup := by
  rw [keys_index]
  split
  · exact h
  · rename_i hk
    rw [List.nodup_append]
    refine ⟨h, List.nodup_singleton k, ?_⟩
    intro a ha hb
    simp at hb
    subst hb
    exact hk ha

theorem total_index (m : List (V × List V)) (k : V) (f : List V → List V) :
    total (index m k f) + ((find m k).getD []).length
      = total m + (f ((find m k).getD [])).length := by
  induction m with
  | nil => simp [index, find, total]
  | cons e m ih =>
    obtain ⟨a, s⟩ := e
    by_cases hak : a = k
    · simp only [index, hak, if_true, find, total, List.map_cons, List.sum_cons, Option.getD_some]
      omega
    · simp only [index, hak, if_false, find, total, List.map_cons, List.sum_cons]
      simp only [total] at ih
      omega

theorem total_modify (m : List (V × List V)) (k : V) (f : List V → List V) :
    total (modify m k f) + ((find m k).getD []).length
      = total m + (((find m k).map f).getD []).length := by
  induction m with
  | nil => simp [modify, find, total]
  | cons e m ih =>
    obtain ⟨a, s⟩ := e
    by_cases hak : a = k
    · simp only [modify, hak, if_true, find, total, List.map_cons, List.sum_cons,
        Option.getD_some, Option.map_some']
      omega
    · simp only [modify, hak, if_false, find, total, List.map_cons, List.sum_cons]
      simp only [total] at ih
      omega

theorem total_erase (m : List (V × List V)) (k : V) :
    total (erase m k) + ((find m k).getD []).length = total m := by
  induction m with
  | nil => simp [erase, find, total]
  | cons e m ih =>
    obtain ⟨a, s⟩ := e
    by_cases hak : a = k
    · simp only [erase, hak, if_true, find, total, List.map_cons, List.sum_cons, Option.getD_some]
      omega
    · simp only [erase, hak, if_false, find, total, List.map_cons, List.sum_cons]
      simp only [total] at ih
      omega

theorem total_tryEmplace (m : List (V × List V)) (k : V) :
    total (tryEmplace m k) = total m := by
  induction m with
  | nil => simp [tryEmplace, total]
  | cons e m ih =>
    obtain ⟨a, s⟩ := e
    simp only [total] at ih
    by_cases hak : a = k
    · simp [tryEmplace, hak, total]
    · simp [tryEmplace, hak, total, ih]

theorem foldl_total (m : List (V × List V)) (n : Nat) :
    m.foldl (fun t entry => t + entry.2.length) n = n + total m := by
  induction m generalizing n with
  | nil => simp [total]
  | cons e m ih =>
    simp only [List.foldl_cons, ih, total, List.map_cons, List.sum_cons]
    omega

end UMap

/-! ## What each mutation does to the lookups -/

namespace Graph

theorem neighbors_eq (g : Graph V) (v : V) :
    g.neighbors v = (UMap.find g.adj v).getD [] := by
  unfold neighbors
  cases UMap.find g.adj v <;> rfl

theorem containsVertex_iff (g : Graph V) (v : V) :
    g.containsVertex v = true ↔ v ∈ UMap.keys g.adj :=
  UMap.contains_iff g.adj v

theorem containsVertex_iff_find (g : Graph V) (v : V) :
    g.containsVertex v = true ↔ ∃ s, UMap.find g.adj v = some s := by
  unfold containsVertex UMap.contains
  cases UMap.find g.adj v <;> simp

theorem containsEdge_iff (g : Graph V) (u v : V) :
    g.containsEdge u v = true ↔ u ≠ v ∧ v ∈ g.neighbors u := by
  unfold containsEdge neighbors
  by_cases h : u = v
  · simp [h]
  · cases UMap.find g.adj u <;> simp [h]

theorem mem_neighbors_iff (g : Graph V) (u v : V) :
    v ∈ g.neighbors u ↔ ∃ s, UMap.find g.adj u = some s ∧ v ∈ s := by
  unfold neighbors
  cases UMap.find g.adj u <;> simp

theorem find_addVertex (g : Graph V) (v x : V) :
    UMap.find (g.addVertex v).adj x
      = if x = v then some (g.neighbors v) else UMap.find g.adj x := by
  rw [neighbors_eq]
  exact UMap.find_tryEmplace g.adj v x

theorem find_addEdge (g : Graph V) {u v : V} (h : u ≠ v) (x : V) :
    UMap.find (g.addEdge u v).adj x
      = if x = v then some (USet.insert (g.neighbors v) u)
        else if x = u then some (USet.insert (g.neighbors u) v)
        else UMap.find g.adj x := by
  simp only [addEdge, h, if_false, UMap.find_index, neighbors_eq, Ne.symm h]

theorem find_removeEdge (g : Graph V) {u v : V} (h : u ≠ v) (x : V) :
    UMap.find (g.removeEdge u v).adj x
      = if x = v then (UMap.find g.adj v).map (fun s => USet.erase s u)
        else if x = u then (UMap.find g.adj u).map (fun s => USet.erase s v)
        else UMap.find g.adj x := by
  simp only [removeEdge, h, if_false, UMap.find_modify, Ne.symm h]

theorem find_removeVertexLoop (v : V) (nbrs : List V) (m : List (V × List V)) (x : V) :
    UMap.find (removeVertexLoop v nbrs m) x
      = if x ∈ nbrs then some (USet.erase ((UMap.find m x).getD []) v) else UMap.find m x := by
  induction nbrs generalizing m with
  | nil => simp [removeVertexLoop]
  | cons w nbrs ih =>
    have e : removeVertexLoop v (w :: nbrs) m
        = removeVertexLoop v nbrs (UMap.index m w (fun s => USet.erase s v)) := rfl
    rw [e, ih, UMap.find_index]
    by_cases hxw : x = w
    · subst hxw
      by_cases hx : x ∈ nbrs
      · simp [hx, USet.erase_erase]
      · simp [hx]
    · by_cases hx : x ∈ nbrs
      · simp [hx, hxw]
      · simp [hx, hxw]

theorem keys_removeVertexLoop (v : V) (nbrs : List V) (m : List (V × List V))
    (h : ∀ w ∈ nbrs, w ∈ UMap.keys m) : UMap.keys (removeVertexLoop v nbrs m) = UMap.keys m := by
  induction nbrs generalizing m with
  | nil => simp [removeVertexLoop]
  | cons w nbrs ih =>
    have e : removeVertexLoop v (w :: nbrs) m
        = removeVertexLoop v nbrs (UMap.index m w (fun s => USet.erase s v)) := rfl
    have hw : w ∈ UMap.keys m := h w (List.mem_cons_self _ _)
    have hk : UMap.keys (UMap.index m w (fun s => USet.erase s v)) = UMap.keys m := by
      rw [UMap.keys_index, if_pos hw]
    rw [e, ih, hk]
    intro y hy
    rw [hk]
    exact h y (List.mem_cons_of_mem _ hy)

theorem total_removeVertexLoop (v : V) (nbrs : List V) (m : List (V × List V))
    (hn : nbrs.Nodup)
    (h : ∀ w ∈ nbrs, ∃ t, UMap.find m w = some t ∧ v ∈ t ∧ t.Nodup) :
    UMap.total (removeVertexLoop v nbrs m) + nbrs.length = UMap.total m := by
  induction nbrs generalizing m with
  | nil => simp [removeVertexLoop]
  | cons w nbrs ih =>
    have e : removeVertexLoop v (w :: nbrs) m
        = removeVertexLoop v nbrs (UMap.index m w (fun s => USet.erase s v)) := rfl
    obtain ⟨hw, hn1⟩ := List.nodup_cons.mp hn
    obtain ⟨t, ht, hvt, htn⟩ := h w (List.mem_cons_self _ _)
    have h1 := UMap.total_index m w (fun s => USet.erase s v)
    rw [ht] at h1
    simp only [Option.getD_some] at h1
    have h2 := USet.length_erase htn v
    rw [if_pos hvt] at h2
    have h3 := ih (UMap.index m w (fun s => USet.erase s v)) hn1 (by
      intro y hy
      obtain ⟨t1, ht1, hv1, hn1⟩ := h y (List.mem_cons_of_mem _ hy)
      refine ⟨t1, ?_, hv1, hn1⟩
      rw [UMap.find_index]
      have : y ≠ w := by rintro rfl; exact hw hy
      simp [this, ht1])
    rw [e, List.length_cons]
    omega

theorem removeVertex_of_find_none {g : Graph V} {v : V} (h : UMap.find g.adj v = none) :
    g.removeVertex v = g := by
  simp [removeVertex, h]

theorem removeVertex_of_find_some {g : Graph V} {v : V} {nbrs : List V}
    (h : UMap.find g.adj v = some nbrs) :
    g.removeVertex v = ⟨UMap.erase (removeVertexLoop v nbrs g.adj) v⟩ := by
  simp [removeVertex, h, removeVertexLoop]

end Graph

/-! ## The representation invariant -/

namespace Graph

theorem mem_keys_of_neighbors_ne_nil {g : Graph V} {v x : V} (h : x ∈ g.neighbors v) :
    v ∈ UMap.keys g.adj := by
  by_contra hk
  rw [neighbors_eq, (UMap.find_eq_none_iff g.adj v).mpr hk] at h
  simp at h

theorem Inv.closed {g : Graph V} (hg : Inv g) {u v : V} (h : v ∈ g.neighbors u) :
    v ∈ UMap.keys g.adj :=
  mem_keys_of_neighbors_ne_nil (hg.symm u v h)

theorem neighbors_addVertex (g : Graph V) (v x : V) :
    (g.addVertex v).neighbors x = g.neighbors x := by
  rw [neighbors_eq, find_addVertex]
  by_cases h : x = v
  · simp [h]
  · simp [h, neighbors_eq]

theorem neighbors_addEdge (g : Graph V) {u v : V} (h : u ≠ v) (x : V) :
    (g.addEdge u v).neighbors x
      = if x = v then USet.insert (g.neighbors v) u
        else if x = u then USet.insert (g.neighbors u) v
        else g.neighbors x := by
  rw [neighbors_eq, find_addEdge g h]
  by_cases h1 : x = v
  · simp [h1]
  · by_cases h2 : x = u
    · subst h2
      simp [h1]
    · simp [h1, h2, neighbors_eq]

theorem neighbors_removeEdge (g : Graph V) {u v : V} (h : u ≠ v) (x : V) :
    (g.removeEdge u v).neighbors x
      = if x = v then USet.erase (g.neighbors v) u
        else if x = u then USet.erase (g.neighbors u) v
        else g.neighbors x := by
  rw [neighbors_eq, find_removeEdge g h]
  by_cases h1 : x = v
  · subst h1
    simp only [if_true, neighbors_eq]
    cases UMap.find g.adj x <;> simp [USet.erase]
  · by_cases h2 : x = u
    · subst h2
      simp only [h1, if_false, if_true, neighbors_eq]
      cases UMap.find g.adj x <;> simp [USet.erase]
    · simp [h1, h2, neighbors_eq]

theorem mem_neighbors_addEdge (g : Graph V) {u v : V} (h : u ≠ v) (a b : V) :
    b ∈ (g.addEdge u v).neighbors a
      ↔ (a = v ∧ b = u) ∨ (a = u ∧ b = v) ∨ b ∈ g.neighbors a := by
  rw [neighbors_addEdge g h]
  by_cases h1 : a = v
  · subst h1
    simp only [if_true, USet.mem_insert, true_and]
    constructor
    · rintro (hb | hb)
      · exact Or.inl hb
      · exact Or.inr (Or.inr hb)
    · rintro (hb | ⟨hb, _⟩ | hb)
      · exact Or.inl hb
      · exact absurd hb.symm h
      · exact Or.inr hb
  · by_cases h2 : a = u
    · subst h2
      simp only [h1, if_false, if_true, USet.mem_insert, true_and, false_and, false_or]
    · simp [h1, h2]

theorem mem_neighbors_removeEdge (g : Graph V) {u v : V} (h : u ≠ v) (a b : V) :
    b ∈ (g.removeEdge u v).neighbors a
      ↔ b ∈ g.neighbors a ∧ ¬ (a = v ∧ b = u) ∧ ¬ (a = u ∧ b = v) := by
  rw [neighbors_removeEdge g h]
  by_cases h1 : a = v
  · subst h1
    have : ¬ a = u := fun e => h e.symm
    simp [USet.mem_erase, this]
  · by_cases h2 : a = u
    · subst h2
      simp [h1, USet.mem_erase]
    · simp [h1, h2]

theorem neighbors_removeVertex {g : Graph V} (hg : Inv g) (v x : V) :
    (g.removeVertex v).neighbors x
      = if x = v then [] else USet.erase (g.neighbors x) v := by
  cases hf : UMap.find g.adj v with
  | none =>
    rw [removeVertex_of_find_none hf]
    have hv : g.neighbors v = [] := by rw [neighbors_eq, hf]; rfl
    by_cases h : x = v
    · simp [h, hv]
    · rw [if_neg h, USet.erase_of_not_mem]
      intro hm
      have := hg.symm x v hm
      rw [hv] at this
      simp at this
  | some nbrs =>
    rw [removeVertex_of_find_some hf]
    have hv : g.neighbors v = nbrs := by rw [neighbors_eq, hf]; rfl
    have hk : UMap.keys (removeVertexLoop v nbrs g.adj) = UMap.keys g.adj :=
      keys_removeVertexLoop v nbrs g.adj (fun w hw => hg.closed (hv ▸ hw))
    by_cases h : x = v
    · subst h
      rw [if_pos rfl, neighbors_eq]
      show (UMap.find (UMap.erase (removeVertexLoop x nbrs g.adj) x) x).getD [] = []
      rw [UMap.find_erase_self (hk ▸ hg.keys_nodup)]
      rfl
    · rw [if_neg h, neighbors_eq]
      show (UMap.find (UMap.erase (removeVertexLoop v nbrs g.adj) v) x).getD [] = _
      rw [UMap.find_erase_ne _ h, find_removeVertexLoop]
      by_cases hx : x ∈ nbrs
      · simp [hx, neighbors_eq]
      · rw [if_neg hx, ← neighbors_eq, USet.erase_of_not_mem]
        intro hm
        exact hx (hv ▸ hg.symm x v hm)

theorem mem_neighbors_removeVertex {g : Graph V} (hg : Inv g) (v a b : V) :
    b ∈ (g.removeVertex v).neighbors a ↔ b ∈ g.neighbors a ∧ a ≠ v ∧ b ≠ v := by
  rw [neighbors_removeVertex hg]
  by_cases h : a = v
  · simp [h]
  · simp [h, USet.mem_erase]

theorem keys_removeVertex {g : Graph V} (hg : Inv g) (v : V) :
    UMap.keys (g.removeVertex v).adj = (UMap.keys g.adj).erase v := by
  cases hf : UMap.find g.adj v with
  | none =>
    rw [removeVertex_of_find_none hf, List.erase_of_not_mem]
    exact (UMap.find_eq_none_iff g.adj v).mp hf
  | some nbrs =>
    rw [removeVertex_of_find_some hf]
    have hv : g.neighbors v = nbrs := by rw [neighbors_eq, hf]; rfl
    show UMap.keys (UMap.erase (removeVertexLoop v nbrs g.adj) v) = _
    rw [UMap.keys_erase, keys_removeVertexLoop v nbrs g.adj (fun w hw => hg.closed (hv ▸ hw))]

theorem total_addEdge (g : Graph V) {u v : V} (h : u ≠ v) :
    UMap.total (g.addEdge u v).adj
      = UMap.total g.adj + (if v ∈ g.neighbors u then 0 else 1)
          + (if u ∈ g.neighbors v then 0 else 1) := by
  simp only [addEdge, h, if_false]
  have h1 := UMap.total_index g.adj u (fun s => USet.insert s v)
  have h2 := UMap.total_index (UMap.index g.adj u (fun s => USet.insert s v)) v
    (fun s => USet.insert s u)
  rw [UMap.find_index, if_neg (Ne.symm h)] at h2
  simp only [USet.length_insert, ← neighbors_eq] at h1 h2
  omega

theorem total_removeEdge {g : Graph V} (hg : Inv g) {u v : V} (h : u ≠ v) :
    UMap.total (g.removeEdge u v).adj + (if v ∈ g.neighbors u then 1 else 0)
          + (if u ∈ g.neighbors v then 1 else 0)
      = UMap.total g.adj := by
  simp only [removeEdge, h, if_false]
  have h1 := UMap.total_modify g.adj u (fun s => USet.erase s v)
  have h2 := UMap.total_modify (UMap.modify g.adj u (fun s => USet.erase s v)) v
    (fun s => USet.erase s u)
  rw [UMap.find_modify, if_neg (Ne.symm h)] at h2
  have e : ∀ (o : Option (List V)) (x : V),
      ((o.map (fun s => USet.erase s x)).getD []) = USet.erase (o.getD []) x := by
    intro o x; cases o <;> simp [USet.erase]
  rw [e, ← neighbors_eq] at h1 h2
  have l1 := USet.length_erase (hg.sets_nodup u) v
  have l2 := USet.length_erase (hg.sets_nodup v) u
  omega

theorem total_removeVertex {g : Graph V} (hg : Inv g) (v : V) :
    UMap.total (g.removeVertex v).adj + 2 * g.degree v = UMap.total g.adj := by
  cases hf : UMap.find g.adj v with
  | none =>
    rw [removeVertex_of_find_none hf]
    simp [degree, hf]
  | some nbrs =>
    rw [removeVertex_of_find_some hf]
    have hv : g.neighbors v = nbrs := by rw [neighbors_eq, hf]; rfl
    have hd : g.degree v = nbrs.length := by simp [degree, hf]
    have hnv : v ∉ nbrs := hv ▸ hg.irrefl v
    have h1 := total_removeVertexLoop v nbrs g.adj (hv ▸ hg.sets_nodup v) (by
      intro w hw
      have hvw : v ∈ g.neighbors w := hg.symm v w (hv ▸ hw)
      obtain ⟨t, ht, hvt⟩ := (mem_neighbors_iff g w v).mp hvw
      refine ⟨t, ht, hvt, ?_⟩
      have := hg.sets_nodup w
      rw [neighbors_eq, ht] at this
      exact this)
    have h2 := UMap.total_erase (removeVertexLoop v nbrs g.adj) v
    rw [find_removeVertexLoop, if_neg hnv, hf] at h2
    simp only [Option.getD_some] at h2
    show UMap.total (UMap.erase (removeVertexLoop v nbrs g.adj) v) + _ = _
    omega

theorem inv_empty : Inv (empty : Graph V) where
  keys_nodup := by simp [empty, UMap.keys]
  sets_nodup := by intro k; simp [empty, neighbors, UMap.find]
  symm := by intro u v h; simp [empty, neighbors, UMap.find] at h
  irrefl := by intro u; simp [empty, neighbors, UMap.find]
  even_total := by simp [empty, UMap.total]

theorem inv_clear (g : Graph V) : Inv g.clear := inv_empty

theorem inv_addVertex {g : Graph V} (hg : Inv g) (v : V) : Inv (g.addVertex v) where
  keys_nodup := by
    show (UMap.keys (UMap.tryEmplace g.adj v)).Nodup
    rw [UMap.keys_tryEmplace]
    split
    · exact hg.keys_nodup
    · rename_i hk
      rw [List.nodup_append]
      refine ⟨hg.keys_nodup, List.nodup_singleton v, ?_⟩
      intro a ha hb
      simp at hb
      subst hb
      exact hk ha
  sets_nodup := by intro k; rw [neighbors_addVertex]; exact hg.sets_nodup k
  symm := by intro a b; simp only [neighbors_addVertex]; exact hg.symm a b
  irrefl := by intro a; rw [neighbors_addVertex]; exact hg.irrefl a
  even_total := by
    show UMap.total (UMap.tryEmplace g.adj v) % 2 = 0
    rw [UMap.total_tryEmplace]; exact hg.even_total

theorem inv_addEdge {g : Graph V} (hg : Inv g) (u v : V) : Inv (g.addEdge u v) := by
  by_cases h : u = v
  · simp only [addEdge, h, if_true]; exact hg
  · refine ⟨?_, ?_, ?_, ?_, ?_⟩
    · simp only [addEdge, h, if_false]
      exact UMap.nodup_keys_index (UMap.nodup_keys_index hg.keys_nodup _ _) _ _
    · intro k
      rw [neighbors_addEdge g h]
      split
      · exact USet.nodup_insert (hg.sets_nodup v) u
      · split
        · exact USet.nodup_insert (hg.sets_nodup u) v
        · exact hg.sets_nodup k
    · intro a b
      rw [mem_neighbors_addEdge g h, mem_neighbors_addEdge g h]
      rintro (⟨h1, h2⟩ | ⟨h1, h2⟩ | h3)
      · exact Or.inr (Or.inl ⟨h2, h1⟩)
      · exact Or.inl ⟨h2, h1⟩
      · exact Or.inr (Or.inr (hg.symm a b h3))
    · intro a
      rw [mem_neighbors_addEdge g h]
      rintro (⟨h1, h2⟩ | ⟨h1, h2⟩ | h3)
      · exact h (h2.symm.trans h1)
      · exact h (h1.symm.trans h2)
      · exact hg.irrefl a h3
    · rw [total_addEdge g h]
      have := hg.even_total
      have hs : v ∈ g.neighbors u ↔ u ∈ g.neighbors v := ⟨hg.symm u v, hg.symm v u⟩
      by_cases hm : v ∈ g.neighbors u
      · simp [hm, hs.mp hm, this]
      · have hm2 : u ∉ g.neighbors v := fun x => hm (hs.mpr x)
        simp only [hm, hm2, if_false]
        omega

theorem inv_removeEdge {g : Graph V} (hg : Inv g) (u v : V) : Inv (g.removeEdge u v) := by
  by_cases h : u = v
  · simp only [removeEdge, h, if_true]; exact hg
  · refine ⟨?_, ?_, ?_, ?_, ?_⟩
    · simp only [removeEdge, h, if_false, UMap.keys_modify]
      exact hg.keys_nodup
    · intro k
      rw [neighbors_removeEdge g h]
      split
      · exact USet.nodup_erase (hg.sets_nodup v) u
      · split
        · exact USet.nodup_erase (hg.sets_nodup u) v
        · exact hg.sets_nodup k
    · intro a b
      rw [mem_neighbors_removeEdge g h, mem_neighbors_removeEdge g h]
      rintro ⟨h1, h2, h3⟩
      exact ⟨hg.symm a b h1, fun ⟨x, y⟩ => h3 ⟨y, x⟩, fun ⟨x, y⟩ => h2 ⟨y, x⟩⟩
    · intro a
      rw [mem_neighbors_removeEdge g h]
      rintro ⟨h1, _, _⟩
      exact hg.irrefl a h1
    · have ht := total_removeEdge hg h
      have := hg.even_total
      have hs : v ∈ g.neighbors u ↔ u ∈ g.neighbors v := ⟨hg.symm u v, hg.symm v u⟩
      by_cases hm : v ∈ g.neighbors u
      · simp only [hm, hs.mp hm, if_true] at ht
        omega
      · have hm2 : u ∉ g.neighbors v := fun x => hm (hs.mpr x)
        simp only [hm, hm2, if_false] at ht
        omega

theorem inv_removeVertex {g : Graph V} (hg : Inv g) (v : V) : Inv (g.removeVertex v) := by
  refine ⟨?_, ?_, ?_, ?_, ?_⟩
  · rw [keys_removeVertex hg]
    exact hg.keys_nodup.erase v
  · intro k
    rw [neighbors_removeVertex hg]
    split
    · exact List.nodup_nil
    · exact USet.nodup_erase (hg.sets_nodup k) v
  · intro a b
    rw [mem_neighbors_removeVertex hg, mem_neighbors_removeVertex hg]
    rintro ⟨h1, h2, h3⟩
    exact ⟨hg.symm a b h1, h3, h2⟩
  · intro a
    rw [mem_neighbors_removeVertex hg]
    rintro ⟨h1, _, _⟩
    exact hg.irrefl a h1
  · have := total_removeVertex hg v
    have := hg.even_total
    omega

theorem inv_step {g : Graph V} (hg : Inv g) (op : Op V) : Inv (g.step op) := by
  cases op with
  | addVertex v => exact inv_addVertex hg v
  | addEdge u v => exact inv_addEdge hg u v
  | removeEdge u v => exact inv_removeEdge hg u v
  | removeVertex v => exact inv_removeVertex hg v
  | clear => exact inv_clear g

theorem inv_run {g : Graph V} (hg : Inv g) (ops : List (Op V)) : Inv (g.run ops) := by
  induction ops generalizing g with
  | nil => exact hg
  | cons op ops ih => exact ih (inv_step hg op)

theorem inv_build (ops : List (Op V)) : Inv (build ops) :=
  inv_run inv_empty ops

end Graph

/-! ## Counting -/

namespace UMap

theorem find_cons_of_ne (a : V) (s : List V) (m : List (V × List V)) {k : V} (h : k ≠ a) :
    find ((a, s) :: m) k = find m k := by
  simp [find, Ne.symm h]

theorem sum_degrees (m : List (V × List V)) (h : (keys m).Nodup) :
    ((keys m).map (fun k => ((find m k).getD []).length)).sum = total m := by
  induction m with
  | nil => simp [keys, total]
  | cons e m ih =>
    obtain ⟨a, s⟩ := e
    have hn : a ∉ keys m ∧ (keys m).Nodup := List.nodup_cons.mp h
    have ih1 := ih hn.2
    have hc : (keys m).map (fun k => ((find ((a, s) :: m) k).getD []).length)
        = (keys m).map (fun k => ((find m k).getD []).length) := by
      apply List.map_congr_left
      intro k hk
      have : k ≠ a := by rintro rfl; exact hn.1 hk
      rw [find_cons_of_ne a s m this]
    show (((a :: keys m).map (fun k => ((find ((a, s) :: m) k).getD []).length))).sum = _
    rw [List.map_cons, List.sum_cons, hc, ih1]
    simp [find, total]

theorem foldl_insert_keys (m : List (V × List V)) (acc : List V)
    (h : (acc ++ keys m).Nodup) :
    m.foldl (fun res entry => USet.insert res entry.1) acc = acc ++ keys m := by
  induction m generalizing acc with
  | nil => simp [keys]
  | cons e m ih =>
    obtain ⟨a, s⟩ := e
    have hk : keys ((a, s) :: m) = a :: keys m := rfl
    rw [hk] at h ⊢
    have ha : a ∉ acc := by
      intro hm
      have := List.nodup_append.mp h
      exact this.2.2 hm (List.mem_cons_self _ _)
    have e1 : USet.insert acc a = acc ++ [a] := by simp [USet.insert, ha]
    have h2 : ((acc ++ [a]) ++ keys m).Nodup := by simpa using h
    rw [List.foldl_cons]
    show m.foldl (fun res entry => USet.insert res entry.1) (USet.insert acc a) = _
    rw [e1, ih (acc ++ [a]) h2]
    simp

end UMap

namespace Graph

theorem vertices_eq_keys {g : Graph V} (hg : Inv g) : g.vertices = UMap.keys g.adj := by
  have := UMap.foldl_insert_keys g.adj [] (by simpa using hg.keys_nodup)
  simpa [vertices] using this

theorem degree_eq (g : Graph V) (v : V) : g.degree v = (g.neighbors v).length := by
  unfold degree neighbors
  cases UMap.find g.adj v <;> rfl

theorem countEdges_eq (g : Graph V) : g.countEdges = UMap.total g.adj / 2 := by
  unfold countEdges
  rw [UMap.foldl_total]
  simp

theorem two_mul_countEdges {g : Graph V} (hg : Inv g) :
    g.countEdges * 2 = UMap.total g.adj := by
  rw [countEdges_eq]
  have := hg.even_total
  omega

theorem mem_keys_addEdge (g : Graph V) {u v : V} (h : u ≠ v) (x : V) :
    x ∈ UMap.keys (g.addEdge u v).adj ↔ x = u ∨ x = v ∨ x ∈ UMap.keys g.adj := by
  simp only [addEdge, h, if_false, UMap.keys_index]
  by_cases h1 : u ∈ UMap.keys g.adj
  · by_cases h2 : v ∈ UMap.keys g.adj
    · simp only [h1, h2, if_true]
      constructor
      · intro hx; exact Or.inr (Or.inr hx)
      · rintro (rfl | rfl | hx) <;> assumption
    · simp only [h1, h2, if_true, if_false, List.mem_append, List.mem_singleton]
      constructor
      · rintro (hx | hx)
        · exact Or.inr (Or.inr hx)
        · exact Or.inr (Or.inl hx)
      · rintro (rfl | hx | hx)
        · exact Or.inl h1
        · exact Or.inr hx
        · exact Or.inl hx
  · by_cases h2 : v ∈ UMap.keys g.adj
    · have : v ∈ UMap.keys g.adj ++ [u] := List.mem_append_left _ h2
      simp only [h1, this, if_true, if_false, List.mem_append, List.mem_singleton]
      constructor
      · rintro (hx | hx)
        · exact Or.inr (Or.inr hx)
        · exact Or.inl hx
      · rintro (hx | rfl | hx)
        · exact Or.inr hx
        · exact Or.inl h2
        · exact Or.inl hx
    · have : v ∉ UMap.keys g.adj ++ [u] := by
        simp only [List.mem_append, List.mem_singleton, not_or]
        exact ⟨h2, Ne.symm h⟩
      simp only [h1, this, if_false, List.mem_append, List.mem_singleton]
      constructor
      · rintro ((hx | hx) | hx)
        · exact Or.inr (Or.inr hx)
        · exact Or.inl hx
        · exact Or.inr (Or.inl hx)
      · rintro (hx | hx | hx)
        · exact Or.inl (Or.inr hx)
        · exact Or.inr hx
        · exact Or.inl (Or.inl hx)

end Graph

/-! ## The invariants of the data model -/

/-- C1 (symmetry): in every state built from the empty graph by a sequence of
`addVertex`, `addEdge`, `removeEdge`, `removeVertex` and `clear` calls, `v` is in
the neighbor set of `u` exactly when `u` is in the neighbor set of `v`, and
`containsEdge u v` equals `containsEdge v u`. -/
theorem symmetry_invariant (ops : List (Op V)) (u v : V) :
    (v ∈ (Graph.build ops).neighbors u ↔ u ∈ (Graph.build ops).neighbors v) ∧
    (Graph.build ops).containsEdge u v = (Graph.build ops).containsEdge v u := by
  have hg := Graph.inv_build ops
  have hs : v ∈ (Graph.build ops).neighbors u ↔ u ∈ (Graph.build ops).neighbors v :=
    ⟨hg.symm u v, hg.symm v u⟩
  refine ⟨hs, ?_⟩
  rw [Bool.eq_iff_iff, Graph.containsEdge_iff, Graph.containsEdge_iff, hs]
  constructor
  · rintro ⟨h1, h2⟩; exact ⟨Ne.symm h1, h2⟩
  · rintro ⟨h1, h2⟩; exact ⟨Ne.symm h1, h2⟩

/-- C2 (no self-loops): in every state built from the empty graph by a sequence of
public mutations, no vertex is a member of its own neighbor set, and
`containsEdge v v` is false. -/
theorem no_self_loop_invariant (ops : List (Op V)) (v : V) :
    v ∉ (Graph.build ops).neighbors v ∧ (Graph.build ops).containsEdge v v = false := by
  refine ⟨(Graph.inv_build ops).irrefl v, ?_⟩
  simp [Graph.containsEdge]

/-- C3 (existence consistency of edges): in every state built from the empty graph
by a sequence of public mutations, `containsEdge u v` is false as soon as `u` or
`v` is absent, an edge has both its endpoints in the graph, and every member of a
neighbor set is a key of the adjacency store. -/
theorem edge_endpoints_present (ops : List (Op V)) (u v : V) :
    ((Graph.build ops).containsVertex u = false ∨ (Graph.build ops).containsVertex v = false
        → (Graph.build ops).containsEdge u v = false) ∧
    ((Graph.build ops).containsEdge u v = true
        → (Graph.build ops).containsVertex u = true ∧ (Graph.build ops).containsVertex v = true) ∧
    (∀ w x : V, x ∈ (Graph.build ops).neighbors w → (Graph.build ops).containsVertex x = true) := by
  have hg := Graph.inv_build ops
  have key : (Graph.build ops).containsEdge u v = true
      → (Graph.build ops).containsVertex u = true ∧ (Graph.build ops).containsVertex v = true := by
    intro h
    obtain ⟨_, hm⟩ := (Graph.containsEdge_iff _ u v).mp h
    exact ⟨(Graph.containsVertex_iff _ u).mpr (Graph.mem_keys_of_neighbors_ne_nil hm),
      (Graph.containsVertex_iff _ v).mpr (hg.closed hm)⟩
  refine ⟨?_, key, ?_⟩
  · intro h
    cases he : (Graph.build ops).containsEdge u v with
    | false => rfl
    | true =>
      obtain ⟨h1, h2⟩ := key he
      rcases h with h | h
      · rw [h1] at h; cases h
      · rw [h2] at h; cases h
  · intro w x hx
    exact (Graph.containsVertex_iff _ x).mpr (hg.closed hx)

/-- C4 (handshaking lemma): in every state built from the empty graph by a sequence
of public mutations, twice `countEdges()` is the sum of `degree(v)` over the
vertices `v` of the graph; the division by two in `countEdges` is exact. -/
theorem handshaking_lemma (ops : List (Op V)) :
    (Graph.build ops).countEdges * 2
      = (((Graph.build ops).vertices).map (fun v => (Graph.build ops).degree v)).sum := by
  have hg := Graph.inv_build ops
  rw [Graph.two_mul_countEdges hg, Graph.vertices_eq_keys hg,
    ← UMap.sum_degrees _ hg.keys_nodup]
  congr 1
  apply List.map_congr_left
  intro k _
  rw [Graph.degree_eq, Graph.neighbors_eq]

/-! ## The mutations -/

/-- C5 (postcondition of `addEdge`): for every graph and all `u ≠ v`, after
`addEdge u v` both endpoints are in the graph, `containsEdge u v` and
`containsEdge v u` hold, every vertex that was present is still present, and
`containsEdge a b` is unchanged for every pair other than `(u, v)` and `(v, u)`. -/
theorem addEdge_postcondition (g : Graph V) (u v : V) (h : u ≠ v) :
    (g.addEdge u v).containsVertex u = true ∧
    (g.addEdge u v).containsVertex v = true ∧
    (g.addEdge u v).containsEdge u v = true ∧
    (g.addEdge u v).containsEdge v u = true ∧
    (∀ w : V, g.containsVertex w = true → (g.addEdge u v).containsVertex w = true) ∧
    (∀ a b : V, ¬ (a = u ∧ b = v) → ¬ (a = v ∧ b = u)
        → (g.addEdge u v).containsEdge a b = g.containsEdge a b) := by
  refine ⟨?_, ?_, ?_, ?_, ?_, ?_⟩
  · rw [Graph.containsVertex_iff, Graph.mem_keys_addEdge g h]; exact Or.inl rfl
  · rw [Graph.containsVertex_iff, Graph.mem_keys_addEdge g h]; exact Or.inr (Or.inl rfl)
  · rw [Graph.containsEdge_iff, Graph.mem_neighbors_addEdge g h]
    exact ⟨h, Or.inr (Or.inl ⟨rfl, rfl⟩)⟩
  · rw [Graph.containsEdge_iff, Graph.mem_neighbors_addEdge g h]
    exact ⟨Ne.symm h, Or.inl ⟨rfl, rfl⟩⟩
  · intro w hw
    rw [Graph.containsVertex_iff] at hw
    rw [Graph.containsVertex_iff, Graph.mem_keys_addEdge g h]
    exact Or.inr (Or.inr hw)
  · intro a b h1 h2
    rw [Bool.eq_iff_iff, Graph.containsEdge_iff, Graph.containsEdge_iff,
      Graph.mem_neighbors_addEdge g h]
    constructor
    · rintro ⟨hab, h3 | h3 | h3⟩
      · exact absurd h3 h2
      · exact absurd h3 h1
      · exact ⟨hab, h3⟩
    · rintro ⟨hab, h3⟩
      exact ⟨hab, Or.inr (Or.inr h3)⟩

/-- Instance of C5: on the graph with the single edge 1 - 2, adding the edge 2 - 3. -/
theorem addEdge_postcondition_witness :
    (2 : Nat) ≠ 3 ∧
    (((Graph.build [Op.addEdge 1 2]).addEdge 2 3).containsVertex 2 = true ∧
    ((Graph.build [Op.addEdge 1 2]).addEdge 2 3).containsVertex 3 = true ∧
    ((Graph.build [Op.addEdge 1 2]).addEdge 2 3).containsEdge 2 3 = true ∧
    ((Graph.build [Op.addEdge 1 2]).addEdge 2 3).containsEdge 3 2 = true ∧
    (∀ w : Nat, (Graph.build [Op.addEdge 1 2]).containsVertex w = true
        → ((Graph.build [Op.addEdge 1 2]).addEdge 2 3).containsVertex w = true) ∧
    (∀ a b : Nat, ¬ (a = 2 ∧ b = 3) → ¬ (a = 3 ∧ b = 2)
        → ((Graph.build [Op.addEdge 1 2]).addEdge 2 3).containsEdge a b
            = (Graph.build [Op.addEdge 1 2]).containsEdge a b)) :=
  ⟨by decide, addEdge_postcondition (Graph.build [Op.addEdge 1 2]) 2 3 (by decide)⟩

/-- C6 (self-loop rejection): for every graph and every vertex `v`, `addEdge v v`
returns the graph as it was: `degree v` is unchanged, `containsEdge v v` is false,
and `v` is in the graph afterwards only if it was before. -/
theorem addEdge_self_loop_rejected (g : Graph V) (v : V) :
    g.addEdge v v = g ∧
    (g.addEdge v v).degree v = g.degree v ∧
    (g.addEdge v v).containsEdge v v = false ∧
    (g.addEdge v v).containsVertex v = g.containsVertex v := by
  have h : g.addEdge v v = g := by simp [Graph.addEdge]
  refine ⟨h, by rw [h], ?_, by rw [h]⟩
  simp [Graph.containsEdge]

/-- C7 (cascade of `removeVertex`): in every state built from the empty graph by a
sequence of public mutations, after `removeVertex v` the vertex `v` is absent, no
vertex `w` has `v` in its neighbor set, and `containsEdge w v` and
`containsEdge v w` are false for every `w`. -/
theorem removeVertex_cascade (ops : List (Op V)) (v : V) :
    ((Graph.build ops).removeVertex v).containsVertex v = false ∧
    ∀ w : V, v ∉ ((Graph.build ops).removeVertex v).neighbors w ∧
      ((Graph.build ops).removeVertex v).containsEdge w v = false ∧
      ((Graph.build ops).removeVertex v).containsEdge v w = false := by
  have hg := Graph.inv_build ops
  refine ⟨?_, ?_⟩
  · cases hc : ((Graph.build ops).removeVertex v).containsVertex v with
    | false => rfl
    | true =>
      rw [Graph.containsVertex_iff, Graph.keys_removeVertex hg] at hc
      exact absurd rfl ((List.Nodup.mem_erase_iff hg.keys_nodup).mp hc).1
  · intro w
    have h1 : v ∉ ((Graph.build ops).removeVertex v).neighbors w := by
      rw [Graph.mem_neighbors_removeVertex hg]
      rintro ⟨_, _, h3⟩
      exact h3 rfl
    have h2 : w ∉ ((Graph.build ops).removeVertex v).neighbors v := by
      rw [Graph.mem_neighbors_removeVertex hg]
      rintro ⟨_, h3, _⟩
      exact h3 rfl
    refine ⟨h1, ?_, ?_⟩
    · cases hc : ((Graph.build ops).removeVertex v).containsEdge w v with
      | false => rfl
      | true => exact absurd ((Graph.containsEdge_iff _ w v).mp hc).2 h1
    · cases hc : ((Graph.build ops).removeVertex v).containsEdge v w with
      | false => rfl
      | true => exact absurd ((Graph.containsEdge_iff _ v w).mp hc).2 h2

/-- C8 (vertex count of `removeVertex`): in every state built from the empty graph
by a sequence of public mutations, `removeVertex v` returns the state as it was
when `v` is absent; when `v` is present the loop over its neighbors creates no
key, the vertices afterwards are the previous ones except `v`, and
`countVertices()` drops by exactly one. -/
theorem removeVertex_vertex_count (ops : List (Op V)) (v : V) :
    ((Graph.build ops).containsVertex v = false
        → (Graph.build ops).removeVertex v = Graph.build ops) ∧
    ((Graph.build ops).containsVertex v = true →
      UMap.keys (Graph.removeVertexLoop v ((Graph.build ops).neighbors v) (Graph.build ops).adj)
          = UMap.keys (Graph.build ops).adj ∧
      ((Graph.build ops).removeVertex v).vertices = ((Graph.build ops).vertices).erase v ∧
      (∀ x : V, x ∈ ((Graph.build ops).removeVertex v).vertices
          ↔ x ∈ (Graph.build ops).vertices ∧ x ≠ v) ∧
      ((Graph.build ops).removeVertex v).countVertices + 1 = (Graph.build ops).countVertices) := by
  have hg := Graph.inv_build ops
  have hg1 := Graph.inv_removeVertex hg v
  refine ⟨?_, ?_⟩
  · intro h
    apply Graph.removeVertex_of_find_none
    cases hf : UMap.find (Graph.build ops).adj v with
    | none => rfl
    | some s =>
      have : (Graph.build ops).containsVertex v = true :=
        (Graph.containsVertex_iff_find _ v).mpr ⟨s, hf⟩
      rw [h] at this; cases this
  · intro h
    have hk : v ∈ UMap.keys (Graph.build ops).adj := (Graph.containsVertex_iff _ v).mp h
    have hv : ((Graph.build ops).removeVertex v).vertices
        = ((Graph.build ops).vertices).erase v := by
      rw [Graph.vertices_eq_keys hg1, Graph.vertices_eq_keys hg, Graph.keys_removeVertex hg]
    refine ⟨?_, hv, ?_, ?_⟩
    · exact Graph.keys_removeVertexLoop v _ _ (fun w hw => hg.closed hw)
    · intro x
      rw [hv, Graph.vertices_eq_keys hg, List.Nodup.mem_erase_iff hg.keys_nodup]
      exact ⟨fun ⟨a, b⟩ => ⟨b, a⟩, fun ⟨a, b⟩ => ⟨b, a⟩⟩
    · have e1 : ((Graph.build ops).removeVertex v).countVertices
          = (UMap.keys ((Graph.build ops).removeVertex v).adj).length := by
        simp [Graph.countVertices, UMap.keys]
      have e2 : (Graph.build ops).countVertices = (UMap.keys (Graph.build ops).adj).length := by
        simp [Graph.countVertices, UMap.keys]
      rw [e1, e2, Graph.keys_removeVertex hg, List.length_erase_of_mem hk]
      have : 0 < (UMap.keys (Graph.build ops).adj).length := List.length_pos_of_mem hk
      omega

/-! ## The search of `distance` -/

namespace Graph

theorem mem_fresh (nbrs seen : List V) (x : V) :
    x ∈ fresh nbrs seen ↔ x ∈ nbrs ∧ x ∉ seen := by
  induction nbrs generalizing seen with
  | nil => simp [fresh]
  | cons n ns ih =>
    by_cases hn : n ∈ seen
    · simp only [fresh, hn, if_true, ih, List.mem_cons]
      constructor
      · rintro ⟨h1, h2⟩; exact ⟨Or.inr h1, h2⟩
      · rintro ⟨h1 | h1, h2⟩
        · subst h1; exact absurd hn h2
        · exact ⟨h1, h2⟩
    · simp only [fresh, hn, if_false, List.mem_cons, ih]
      constructor
      · rintro (h1 | ⟨h1, h2⟩)
        · subst h1; exact ⟨Or.inl rfl, hn⟩
        · exact ⟨Or.inr h1, fun h => h2 (List.mem_append_left _ h)⟩
      · rintro ⟨h1 | h1, h2⟩
        · exact Or.inl h1
        · by_cases hx : x = n
          · exact Or.inl hx
          · refine Or.inr ⟨h1, ?_⟩
            intro h
            rcases List.mem_append.mp h with h | h
            · exact h2 h
            · exact hx (List.mem_singleton.mp h)

theorem nodup_fresh (nbrs seen : List V) : (fresh nbrs seen).Nodup := by
  induction nbrs generalizing seen with
  | nil => simp [fresh]
  | cons n ns ih =>
    by_cases hn : n ∈ seen
    · simp only [fresh, hn, if_true]; exact ih seen
    · simp only [fresh, hn, if_false]
      rw [List.nodup_cons]
      refine ⟨?_, ih _⟩
      rw [mem_fresh]
      rintro ⟨_, h2⟩
      exact h2 (List.mem_append_right _ (List.mem_singleton_self n))

theorem scanNeighbors_found {v : V} {nbrs : List V} (h : v ∈ nbrs) (seen queue : List V) :
    scanNeighbors v nbrs seen queue = none := by
  induction nbrs generalizing seen queue with
  | nil => simp at h
  | cons n ns ih =>
    by_cases hn : n = v
    · simp [scanNeighbors, hn]
    · have hv : v ∈ ns := by
        rcases List.mem_cons.mp h with h1 | h1
        · exact absurd h1.symm hn
        · exact h1
      simp only [scanNeighbors, hn, if_false]
      split
      · exact ih hv _ _
      · exact ih hv _ _

theorem scanNeighbors_not_found {v : V} {nbrs : List V} (h : v ∉ nbrs) (seen queue : List V) :
    scanNeighbors v nbrs seen queue
      = some (seen ++ fresh nbrs seen, queue ++ fresh nbrs seen) := by
  induction nbrs generalizing seen queue with
  | nil => simp [scanNeighbors, fresh]
  | cons n ns ih =>
    have hn : ¬ n = v := fun e => h (e ▸ List.mem_cons_self _ _)
    have hv : v ∉ ns := fun e => h (List.mem_cons_of_mem _ e)
    by_cases hs : n ∈ seen
    · simp only [scanNeighbors, hn, hs, if_false, if_true, fresh]
      exact ih hv _ _
    · simp only [scanNeighbors, hn, hs, if_false, fresh]
      rw [ih hv]
      simp

theorem mem_levelFresh (g : Graph V) (cur seen : List V) (x : V) :
    x ∈ levelFresh g cur seen ↔ x ∉ seen ∧ ∃ c, c ∈ cur ∧ x ∈ g.neighbors c := by
  induction cur generalizing seen with
  | nil => simp [levelFresh]
  | cons c cur ih =>
    simp only [levelFresh, List.mem_append, mem_fresh, ih, not_or, not_and, List.mem_cons]
    constructor
    · rintro (⟨h1, h2⟩ | ⟨⟨h1, _⟩, c1, h3, h4⟩)
      · exact ⟨h2, c, Or.inl rfl, h1⟩
      · exact ⟨h1, c1, Or.inr h3, h4⟩
    · rintro ⟨h1, c1, h2 | h2, h3⟩
      · subst h2; exact Or.inl ⟨h3, h1⟩
      · by_cases hx : x ∈ g.neighbors c
        · exact Or.inl ⟨hx, h1⟩
        · exact Or.inr ⟨⟨h1, fun h => absurd h hx⟩, c1, h2, h3⟩

theorem nodup_levelFresh (g : Graph V) (cur seen : List V) :
    (levelFresh g cur seen).Nodup := by
  induction cur generalizing seen with
  | nil => simp [levelFresh]
  | cons c cur ih =>
    simp only [levelFresh]
    rw [List.nodup_append]
    refine ⟨nodup_fresh _ _, ih _, ?_⟩
    intro a ha hb
    rw [mem_levelFresh] at hb
    exact hb.1 (List.mem_append_right _ ha)

theorem processLevel_found (g : Graph V) (v : V) (cur seen next : List V)
    (h : ∃ c, c ∈ cur ∧ v ∈ g.neighbors c) :
    processLevel g.adj v cur.length seen (cur ++ next) = none := by
  induction cur generalizing seen next with
  | nil => obtain ⟨c, hc, _⟩ := h; simp at hc
  | cons c cur ih =>
    show processLevel g.adj v (cur.length + 1) seen (c :: (cur ++ next)) = none
    rw [processLevel]
    cases hf : UMap.find g.adj c with
    | none =>
      simp only
      apply ih
      obtain ⟨c1, hc1, hv⟩ := h
      rcases List.mem_cons.mp hc1 with e | e
      · subst e
        rw [neighbors_eq, hf] at hv
        simp at hv
      · exact ⟨c1, e, hv⟩
    | some nbrs =>
      simp only
      by_cases hv : v ∈ nbrs
      · rw [scanNeighbors_found hv]
      · rw [scanNeighbors_not_found hv]
        simp only
        rw [List.append_assoc]
        apply ih
        obtain ⟨c1, hc1, hv1⟩ := h
        rcases List.mem_cons.mp hc1 with e | e
        · subst e
          rw [neighbors_eq, hf] at hv1
          exact absurd hv1 hv
        · exact ⟨c1, e, hv1⟩

theorem processLevel_not_found (g : Graph V) (v : V) (cur seen next : List V)
    (h : ∀ c, c ∈ cur → v ∉ g.neighbors c) :
    processLevel g.adj v cur.length seen (cur ++ next)
      = some (seen ++ levelFresh g cur seen, next ++ levelFresh g cur seen) := by
  induction cur generalizing seen next with
  | nil => simp [processLevel, levelFresh]
  | cons c cur ih =>
    have hc := h c (List.mem_cons_self _ _)
    have hrest : ∀ c1, c1 ∈ cur → v ∉ g.neighbors c1 :=
      fun c1 h1 => h c1 (List.mem_cons_of_mem _ h1)
    show processLevel g.adj v (cur.length + 1) seen (c :: (cur ++ next)) = _
    rw [processLevel]
    cases hf : UMap.find g.adj c with
    | none =>
      have hn : g.neighbors c = [] := by rw [neighbors_eq, hf]; rfl
      simp only
      rw [ih seen next hrest]
      simp [levelFresh, hn, fresh]
    | some nbrs =>
      have hn : g.neighbors c = nbrs := by rw [neighbors_eq, hf]; rfl
      simp only
      rw [hn] at hc
      rw [scanNeighbors_not_found hc]
      simp only
      rw [List.append_assoc, ih _ _ hrest]
      simp [levelFresh, hn]

theorem distanceLoop_nil (adj : List (V × List V)) (v : V) (fuel : Nat) (seen : List V)
    (d : Nat) : distanceLoop adj v fuel seen [] d = some none := by
  cases fuel <;> rfl

theorem distanceLoop_found (g : Graph V) (v : V) (fuel : Nat) (seen level : List V) (d : Nat)
    (h : ∃ c, c ∈ level ∧ v ∈ g.neighbors c) :
    distanceLoop g.adj v (fuel + 1) seen level d = some (some (d + 1)) := by
  cases level with
  | nil => obtain ⟨c, hc, _⟩ := h; simp at hc
  | cons c q =>
    have := processLevel_found g v (c :: q) seen [] h
    rw [List.append_nil] at this
    simp only [distanceLoop, this]

theorem distanceLoop_not_found (g : Graph V) (v : V) (fuel : Nat) (seen level : List V)
    (d : Nat) (hl : level ≠ []) (h : ∀ c, c ∈ level → v ∉ g.neighbors c) :
    distanceLoop g.adj v (fuel + 1) seen level d
      = distanceLoop g.adj v fuel (seen ++ levelFresh g level seen)
          (levelFresh g level seen) (d + 1) := by
  cases level with
  | nil => exact absurd rfl hl
  | cons c q =>
    have := processLevel_not_found g v (c :: q) seen [] h
    rw [List.append_nil, List.nil_append] at this
    simp only [distanceLoop, this]

end Graph

/-! ## Walks and paths -/

namespace Graph

theorem walk_zero {g : Graph V} {u x : V} (h : Walk g u x 0) : x = u := by
  cases h; rfl

theorem walk_succ {g : Graph V} {u x : V} {n : Nat} (h : Walk g u x (n + 1)) :
    ∃ y, Walk g u y n ∧ g.containsEdge y x = true := by
  cases h with
  | step hw he => exact ⟨_, hw, he⟩

theorem walk_cons {g : Graph V} {u w x : V} {n : Nat} (he : g.containsEdge u w = true)
    (h : Walk g w x n) : Walk g u x (n + 1) := by
  induction h with
  | refl => exact Walk.step Walk.refl he
  | step _ he1 ih => exact Walk.step ih he1

theorem isPath_concat (g : Graph V) (xs : List V) (y x : V) (hp : g.IsPath xs)
    (hl : xs.getLast? = some y) (he : g.containsEdge y x = true) : g.IsPath (xs ++ [x]) := by
  induction xs with
  | nil => simp at hl
  | cons a rest ih =>
    cases rest with
    | nil =>
      simp only [List.getLast?_singleton, Option.some.injEq] at hl
      subst hl
      exact ⟨he, trivial⟩
    | cons b rest =>
      rw [List.getLast?_cons_cons] at hl
      exact ⟨hp.1, ih hp.2 hl⟩

theorem pathOfLength_of_walk {g : Graph V} {u x : V} {n : Nat} (h : Walk g u x n) :
    g.PathOfLength u x n := by
  induction h with
  | refl => exact ⟨[u], rfl, rfl, rfl, trivial⟩
  | step _ he ih =>
    obtain ⟨xs, h1, h2, h3, h4⟩ := ih
    refine ⟨xs ++ [_], ?_, ?_, List.getLast?_concat xs, isPath_concat g xs _ _ h4 h3 he⟩
    · simp [h1]
    · cases xs with
      | nil => simp at h1
      | cons a rest => simpa using h2

theorem walk_of_path (g : Graph V) (xs : List V) (u v : V) (n : Nat)
    (h1 : xs.length = n + 1) (h2 : xs.head? = some u) (h3 : xs.getLast? = some v)
    (h4 : g.IsPath xs) : Walk g u v n := by
  induction xs generalizing u n with
  | nil => simp at h1
  | cons a rest ih =>
    simp only [List.head?_cons, Option.some.injEq] at h2
    subst h2
    cases rest with
    | nil =>
      simp only [List.getLast?_singleton, Option.some.injEq] at h3
      simp only [List.length_singleton] at h1
      have : n = 0 := by omega
      subst this; subst h3
      exact Walk.refl
    | cons b rest =>
      rw [List.getLast?_cons_cons] at h3
      cases n with
      | zero => simp at h1
      | succ k =>
        have hk : (b :: rest).length = k + 1 := by
          simp only [List.length_cons] at h1 ⊢
          omega
        exact walk_cons h4.1 (ih b k hk rfl h3 h4.2)

theorem pathOfLength_iff_walk (g : Graph V) (u v : V) (n : Nat) :
    g.PathOfLength u v n ↔ Walk g u v n :=
  ⟨fun ⟨xs, h1, h2, h3, h4⟩ => walk_of_path g xs u v n h1 h2 h3 h4, pathOfLength_of_walk⟩

/-! ## Correctness of the search -/

theorem bfsInv_init (g : Graph V) {u v : V} (h : u ≠ v) : BfsInv g u v [u] [u] 0 where
  seen_iff := by
    intro x
    constructor
    · intro hx
      rw [List.mem_singleton] at hx
      subst hx
      exact ⟨0, Nat.le_refl 0, Walk.refl⟩
    · rintro ⟨n, hn, hw⟩
      have : n = 0 := by omega
      subst this
      rw [walk_zero hw]
      exact List.mem_singleton_self u
  level_walk := by
    intro x hx
    rw [List.mem_singleton] at hx
    subst hx
    exact Walk.refl
  walk_level := by
    intro x hw
    rw [walk_zero hw]
    exact Or.inl (List.mem_singleton_self u)
  target_unseen := by
    intro hv
    exact h (List.mem_singleton.mp hv).symm

theorem BfsInv.level_seen {g : Graph V} {u v : V} {seen level : List V} {d : Nat}
    (hI : BfsInv g u v seen level d) {c : V} (hc : c ∈ level) : c ∈ seen :=
  (hI.seen_iff c).mpr ⟨d, Nat.le_refl d, hI.level_walk c hc⟩

theorem BfsInv.fresh_walk {g : Graph V} {u v : V} {seen level : List V} {d : Nat}
    (hI : BfsInv g u v seen level d) {x : V} (hx : x ∈ levelFresh g level seen) :
    Walk g u x (d + 1) := by
  obtain ⟨hns, c, hc, hxc⟩ := (mem_levelFresh g level seen x).mp hx
  have hne : c ≠ x := by
    rintro rfl
    exact hns (hI.level_seen hc)
  exact Walk.step (hI.level_walk c hc) ((containsEdge_iff g c x).mpr ⟨hne, hxc⟩)

theorem BfsInv.walk_succ_mem {g : Graph V} {u v : V} {seen level : List V} {d : Nat}
    (hI : BfsInv g u v seen level d) {x : V} (hw : Walk g u x (d + 1)) :
    x ∈ seen ∨ x ∈ levelFresh g level seen := by
  obtain ⟨y, hy, he⟩ := walk_succ hw
  rcases hI.walk_level y hy with hl | ⟨n, hn, hwn⟩
  · by_cases hx : x ∈ seen
    · exact Or.inl hx
    · exact Or.inr ((mem_levelFresh g level seen x).mpr
        ⟨hx, y, hl, ((containsEdge_iff g y x).mp he).2⟩)
  · exact Or.inl ((hI.seen_iff x).mpr ⟨n + 1, by omega, Walk.step hwn he⟩)

theorem bfsInv_next {g : Graph V} {u v : V} {seen level : List V} {d : Nat}
    (hI : BfsInv g u v seen level d) (hnf : ∀ c, c ∈ level → v ∉ g.neighbors c) :
    BfsInv g u v (seen ++ levelFresh g level seen) (levelFresh g level seen) (d + 1) where
  seen_iff := by
    intro x
    constructor
    · intro hx
      rcases List.mem_append.mp hx with h | h
      · obtain ⟨n, hn, hw⟩ := (hI.seen_iff x).mp h
        exact ⟨n, by omega, hw⟩
      · exact ⟨d + 1, Nat.le_refl _, hI.fresh_walk h⟩
    · rintro ⟨n, hn, hw⟩
      by_cases hnd : n ≤ d
      · exact List.mem_append_left _ ((hI.seen_iff x).mpr ⟨n, hnd, hw⟩)
      · have : n = d + 1 := by omega
        subst this
        exact List.mem_append.mpr (hI.walk_succ_mem hw)
  level_walk := fun x hx => hI.fresh_walk hx
  walk_level := by
    intro x hw
    rcases hI.walk_succ_mem hw with h | h
    · obtain ⟨n, hn, hwn⟩ := (hI.seen_iff x).mp h
      exact Or.inr ⟨n, by omega, hwn⟩
    · exact Or.inl h
  target_unseen := by
    intro hv
    rcases List.mem_append.mp hv with h | h
    · exact hI.target_unseen h
    · obtain ⟨_, c, hc, hvc⟩ := (mem_levelFresh g level seen v).mp h
      exact hnf c hc hvc

theorem BfsInv.exhausted {g : Graph V} {u v : V} {seen : List V} {d : Nat}
    (hI : BfsInv g u v seen [] d) (n : Nat) (x : V) (hw : Walk g u x n) :
    ∃ m, m ≤ d ∧ Walk g u x m := by
  induction n generalizing x with
  | zero => exact ⟨0, Nat.zero_le d, hw⟩
  | succ n ih =>
    obtain ⟨y, hy, he⟩ := walk_succ hw
    obtain ⟨m, hm, hwm⟩ := ih y hy
    by_cases hmd : m < d
    · exact ⟨m + 1, by omega, Walk.step hwm he⟩
    · have : m = d := by omega
      subst this
      rcases hI.walk_level y hwm with hl | ⟨k, hk, hwk⟩
      · simp at hl
      · exact ⟨k + 1, by omega, Walk.step hwk he⟩

theorem distanceLoop_correct (g : Graph V) (u v : V) (fuel : Nat) (seen level : List V)
    (d : Nat) (hI : BfsInv g u v seen level d) (r : Option Nat)
    (h : distanceLoop g.adj v fuel seen level d = some r) :
    (∀ k, r = some k → Walk g u v k ∧ ∀ n, Walk g u v n → k ≤ n) ∧
    (r = none → ∀ n, ¬ Walk g u v n) := by
  induction fuel generalizing seen level d with
  | zero =>
    cases level with
    | nil =>
      rw [distanceLoop_nil] at h
      cases h
      refine ⟨fun k hk => (by cases hk), ?_⟩
      intro _ n hw
      obtain ⟨m, hm, hwm⟩ := hI.exhausted n v hw
      exact hI.target_unseen ((hI.seen_iff v).mpr ⟨m, hm, hwm⟩)
    | cons c q => simp [distanceLoop] at h
  | succ fuel ih =>
    by_cases hl : level = []
    · subst hl
      rw [distanceLoop_nil] at h
      cases h
      refine ⟨fun k hk => (by cases hk), ?_⟩
      intro _ n hw
      obtain ⟨m, hm, hwm⟩ := hI.exhausted n v hw
      exact hI.target_unseen ((hI.seen_iff v).mpr ⟨m, hm, hwm⟩)
    · by_cases hf : ∃ c, c ∈ level ∧ v ∈ g.neighbors c
      · rw [distanceLoop_found g v fuel seen level d hf] at h
        cases h
        obtain ⟨c, hc, hvc⟩ := hf
        have hne : c ≠ v := by
          rintro rfl
          exact hI.target_unseen (hI.level_seen hc)
        refine ⟨?_, fun hr => (by cases hr)⟩
        intro k hk
        cases hk
        refine ⟨Walk.step (hI.level_walk c hc) ((containsEdge_iff g c v).mpr ⟨hne, hvc⟩), ?_⟩
        intro n hw
        by_contra hlt
        exact hI.target_unseen ((hI.seen_iff v).mpr ⟨n, by omega, hw⟩)
      · have hnf : ∀ c, c ∈ level → v ∉ g.neighbors c :=
          fun c hc hv => hf ⟨c, hc, hv⟩
        rw [distanceLoop_not_found g v fuel seen level d hl hnf] at h
        exact ih _ _ _ (bfsInv_next hI hnf) h

/-! ## The search ends -/

theorem distanceLoop_mono (g : Graph V) (v : V) (fuel : Nat) (seen level : List V) (d : Nat)
    (r : Option Nat) (h : distanceLoop g.adj v fuel seen level d = some r)
    (fuel1 : Nat) (hle : fuel ≤ fuel1) :
    distanceLoop g.adj v fuel1 seen level d = some r := by
  induction fuel generalizing seen level d fuel1 with
  | zero =>
    cases level with
    | nil => rw [distanceLoop_nil] at h ⊢; exact h
    | cons c q => simp [distanceLoop] at h
  | succ fuel ih =>
    obtain ⟨k, rfl⟩ : ∃ k, fuel1 = k + 1 := ⟨fuel1 - 1, by omega⟩
    by_cases hl : level = []
    · subst hl
      rw [distanceLoop_nil] at h ⊢; exact h
    · by_cases hf : ∃ c, c ∈ level ∧ v ∈ g.neighbors c
      · rw [distanceLoop_found g v fuel seen level d hf] at h
        rw [distanceLoop_found g v k seen level d hf]
        exact h
      · have hnf : ∀ c, c ∈ level → v ∉ g.neighbors c :=
          fun c hc hv => hf ⟨c, hc, hv⟩
        rw [distanceLoop_not_found g v fuel seen level d hl hnf] at h
        rw [distanceLoop_not_found g v k seen level d hl hnf]
        exact ih _ _ _ h k (by omega)

theorem distanceLoop_total {g : Graph V} (hg : Inv g) (v : V) (fuel : Nat)
    (seen level : List V) (d : Nat) (hn : seen.Nodup)
    (hs : ∀ x, x ∈ seen → x ∈ UMap.keys g.adj)
    (hf : level = [] ∨ (UMap.keys g.adj).length < seen.length + fuel) :
    ∃ r, distanceLoop g.adj v fuel seen level d = some r := by
  have hle : ∀ l : List V, l.Nodup → (∀ x, x ∈ l → x ∈ UMap.keys g.adj)
      → l.length ≤ (UMap.keys g.adj).length :=
    fun l h1 h2 => (List.Nodup.subperm h1 h2).length_le
  induction fuel generalizing seen level d with
  | zero =>
    cases level with
    | nil => exact ⟨none, distanceLoop_nil _ _ _ _ _⟩
    | cons c q =>
      rcases hf with hf | hf
      · cases hf
      · have := hle seen hn hs
        omega
  | succ fuel ih =>
    by_cases hl : level = []
    · subst hl
      exact ⟨none, distanceLoop_nil _ _ _ _ _⟩
    · by_cases hfound : ∃ c, c ∈ level ∧ v ∈ g.neighbors c
      · exact ⟨some (d + 1), distanceLoop_found g v fuel seen level d hfound⟩
      · have hnf : ∀ c, c ∈ level → v ∉ g.neighbors c :=
          fun c hc hv => hfound ⟨c, hc, hv⟩
        rw [distanceLoop_not_found g v fuel seen level d hl hnf]
        have hn1 : (seen ++ levelFresh g level seen).Nodup := by
          rw [List.nodup_append]
          refine ⟨hn, nodup_levelFresh g level seen, ?_⟩
          intro a ha hb
          exact ((mem_levelFresh g level seen a).mp hb).1 ha
        have hs1 : ∀ x, x ∈ seen ++ levelFresh g level seen → x ∈ UMap.keys g.adj := by
          intro x hx
          rcases List.mem_append.mp hx with h | h
          · exact hs x h
          · obtain ⟨_, c, _, hxc⟩ := (mem_levelFresh g level seen x).mp h
            exact hg.closed hxc
        apply ih _ _ _ hn1 hs1
        by_cases hL : levelFresh g level seen = []
        · exact Or.inl hL
        · right
          have h1 : 0 < (levelFresh g level seen).length := List.length_pos.mpr hL
          have h2 := hle _ hn1 hs1
          rw [List.length_append] at h2 ⊢
          rcases hf with hf | hf
          · exact absurd hf hl
          · omega

end Graph

namespace Graph

theorem distanceWithin_sound (g : Graph V) (fuel : Nat) (u v : V) (r : Option Nat)
    (h : g.distanceWithin fuel u v = some r) :
    (∀ k, r = some k → Walk g u v k ∧ ∀ n, Walk g u v n → k ≤ n) ∧
    (r = none → g.containsVertex u = true → g.containsVertex v = true
      → ∀ n, ¬ Walk g u v n) := by
  unfold distanceWithin at h
  by_cases hp : (!g.containsVertex u || !g.containsVertex v) = true
  · rw [if_pos hp] at h
    cases h
    refine ⟨fun k hk => (by cases hk), ?_⟩
    intro _ hu hv
    simp [hu, hv] at hp
  · rw [if_neg hp] at h
    by_cases huv : u = v
    · rw [if_pos huv] at h
      cases h
      subst huv
      refine ⟨?_, fun hr => (by cases hr)⟩
      intro k hk
      cases hk
      exact ⟨Walk.refl, fun n _ => Nat.zero_le n⟩
    · rw [if_neg huv] at h
      have := distanceLoop_correct g u v fuel [u] [u] 0 (bfsInv_init g huv) r h
      exact ⟨this.1, fun hr _ _ => this.2 hr⟩

theorem distanceWithin_total {g : Graph V} (hg : Inv g) (u v : V) :
    ∃ r, g.distanceWithin g.countVertices u v = some r ∧
      ∀ fuel, g.countVertices ≤ fuel → g.distanceWithin fuel u v = some r := by
  unfold distanceWithin
  by_cases hp : (!g.containsVertex u || !g.containsVertex v) = true
  · simp only [if_pos hp]
    exact ⟨none, rfl, fun _ _ => rfl⟩
  · simp only [if_neg hp]
    by_cases huv : u = v
    · simp only [if_pos huv]
      exact ⟨some 0, rfl, fun _ _ => rfl⟩
    · simp only [if_neg huv]
      have hu : g.containsVertex u = true := by
        cases hc : g.containsVertex u with
        | true => rfl
        | false => simp [hc] at hp
      have hk : u ∈ UMap.keys g.adj := (containsVertex_iff g u).mp hu
      have hlen : g.countVertices = (UMap.keys g.adj).length := by
        simp [countVertices, UMap.keys]
      obtain ⟨r, hr⟩ := distanceLoop_total hg v g.countVertices [u] [u] 0
        (List.nodup_singleton u)
        (fun x hx => by rw [List.mem_singleton.mp hx]; exact hk)
        (Or.inr (by rw [hlen, List.length_singleton]; omega))
      exact ⟨r, hr, fun fuel hle => distanceLoop_mono g v _ _ _ _ r hr fuel hle⟩

end Graph

/-! ## Shortest-path distance -/

/-- C9 (`distance` is the length of a shortest path): for every graph and all
vertices `u`, `v`, if `distance u v` returns `d` then some path from `u` to `v`
has exactly `d` edges, each one an edge for `containsEdge`, and no path from `u`
to `v` has fewer than `d` edges. -/
theorem distance_is_shortest_path_length (g : Graph V) (u v : V) (d : Nat)
    (h : g.distance u v = some (some d)) :
    g.PathOfLength u v d ∧ ∀ n : Nat, g.PathOfLength u v n → d ≤ n := by
  have hs := (Graph.distanceWithin_sound g g.countVertices u v (some d) h).1 d rfl
  refine ⟨Graph.pathOfLength_of_walk hs.1, ?_⟩
  intro n hp
  exact hs.2 n ((Graph.pathOfLength_iff_walk g u v n).mp hp)

/-- Instance of C9: on the path 1 - 2 - 3 - 4, from 1 to 4. -/
theorem distance_is_shortest_path_length_witness :
    (Graph.build [Op.addEdge (1 : Nat) 2, Op.addEdge 2 3, Op.addEdge 3 4]).distance 1 4
        = some (some 3) ∧
    ((Graph.build [Op.addEdge (1 : Nat) 2, Op.addEdge 2 3, Op.addEdge 3 4]).PathOfLength 1 4 3 ∧
      ∀ n : Nat,
        (Graph.build [Op.addEdge (1 : Nat) 2, Op.addEdge 2 3, Op.addEdge 3 4]).PathOfLength 1 4 n
          → 3 ≤ n) :=
  ⟨by decide,
    distance_is_shortest_path_length
      (Graph.build [Op.addEdge (1 : Nat) 2, Op.addEdge 2 3, Op.addEdge 3 4]) 1 4 3 (by decide)⟩

/-- C10 (`distance` is none exactly for unreachable targets): in every state built
from the empty graph by a sequence of public mutations and for all present `u`,
`v`, the search of `distance u v` ends within `countVertices()` rounds of its
outer loop (more rounds give the same result), and its result is none exactly
when no path of edges leads from `u` to `v`. -/
theorem distance_none_iff_unreachable (ops : List (Op V)) (u v : V)
    (hu : (Graph.build ops).containsVertex u = true)
    (hv : (Graph.build ops).containsVertex v = true) :
    (∃ r, (Graph.build ops).distance u v = some r) ∧
    (∀ fuel : Nat, (Graph.build ops).countVertices ≤ fuel →
        (Graph.build ops).distanceWithin fuel u v = (Graph.build ops).distance u v) ∧
    ((Graph.build ops).distance u v = some none
        ↔ ¬ ∃ n : Nat, (Graph.build ops).PathOfLength u v n) := by
  obtain ⟨r, hr, hall⟩ := Graph.distanceWithin_total (Graph.inv_build ops) u v
  have hd : (Graph.build ops).distance u v = some r := hr
  have hs := Graph.distanceWithin_sound (Graph.build ops) _ u v r hr
  refine ⟨⟨r, hd⟩, ?_, ?_⟩
  · intro fuel hle
    rw [hd]
    exact hall fuel hle
  · rw [hd]
    constructor
    · intro hnone
      have : r = none := by cases hnone; rfl
      rintro ⟨n, hp⟩
      exact hs.2 this hu hv n ((Graph.pathOfLength_iff_walk _ u v n).mp hp)
    · intro hno
      cases r with
      | none => rfl
      | some k =>
        exact absurd ⟨k, Graph.pathOfLength_of_walk (hs.1 k rfl).1⟩ hno

/-- Instance of C10: with the two edges 1 - 2 and 3 - 4, from 1 to 3. -/
theorem distance_none_iff_unreachable_witness :
    (Graph.build [Op.addEdge (1 : Nat) 2, Op.addEdge 3 4]).containsVertex 1 = true ∧
    (Graph.build [Op.addEdge (1 : Nat) 2, Op.addEdge 3 4]).containsVertex 3 = true ∧
    ((∃ r, (Graph.build [Op.addEdge (1 : Nat) 2, Op.addEdge 3 4]).distance 1 3 = some r) ∧
    (∀ fuel : Nat, (Graph.build [Op.addEdge (1 : Nat) 2, Op.addEdge 3 4]).countVertices ≤ fuel →
        (Graph.build [Op.addEdge (1 : Nat) 2, Op.addEdge 3 4]).distanceWithin fuel 1 3
          = (Graph.build [Op.addEdge (1 : Nat) 2, Op.addEdge 3 4]).distance 1 3) ∧
    ((Graph.build [Op.addEdge (1 : Nat) 2, Op.addEdge 3 4]).distance 1 3 = some none
        ↔ ¬ ∃ n : Nat, (Graph.build [Op.addEdge (1 : Nat) 2, Op.addEdge 3 4]).PathOfLength 1 3 n)) :=
  ⟨by decide, by decide,
    distance_none_iff_unreachable [Op.addEdge (1 : Nat) 2, Op.addEdge 3 4] 1 3
      (by decide) (by decide)⟩

namespace Graph

theorem Inv.containsEdge_comm {g : Graph V} (hg : Inv g) (u v : V) :
    g.containsEdge u v = g.containsEdge v u := by
  rw [Bool.eq_iff_iff, containsEdge_iff, containsEdge_iff]
  constructor
  · rintro ⟨h1, h2⟩; exact ⟨Ne.symm h1, hg.symm u v h2⟩
  · rintro ⟨h1, h2⟩; exact ⟨Ne.symm h1, hg.symm v u h2⟩

theorem walk_reverse {g : Graph V} (hg : Inv g) {u x : V} {n : Nat} (h : Walk g u x n) :
    Walk g x u n := by
  induction h with
  | refl => exact Walk.refl
  | step _ he ih => exact walk_cons (by rw [hg.containsEdge_comm]; exact he) ih

theorem distanceWithin_absent (g : Graph V) (fuel : Nat) (u v : V)
    (h : g.containsVertex u = false ∨ g.containsVertex v = false) :
    g.distanceWithin fuel u v = some none := by
  unfold distanceWithin
  rcases h with h | h <;> simp [h]

theorem distanceWithin_self (g : Graph V) (fuel : Nat) (v : V)
    (h : g.containsVertex v = true) : g.distanceWithin fuel v v = some (some 0) := by
  simp [distanceWithin, h]

end Graph

/-- C11 (`distance` is symmetric): in every state built from the empty graph by a
sequence of public mutations, `distance u v` and `distance v u` are the same
result, both none or both the same number. -/
theorem distance_symmetric (ops : List (Op V)) (u v : V) :
    (Graph.build ops).distance u v = (Graph.build ops).distance v u := by
  have hg := Graph.inv_build ops
  cases hu : (Graph.build ops).containsVertex u with
  | false =>
    show Graph.distanceWithin _ _ u v = Graph.distanceWithin _ _ v u
    rw [Graph.distanceWithin_absent _ _ u v (Or.inl hu),
      Graph.distanceWithin_absent _ _ v u (Or.inr hu)]
  | true =>
    cases hv : (Graph.build ops).containsVertex v with
    | false =>
      show Graph.distanceWithin _ _ u v = Graph.distanceWithin _ _ v u
      rw [Graph.distanceWithin_absent _ _ u v (Or.inr hv),
        Graph.distanceWithin_absent _ _ v u (Or.inl hv)]
    | true =>
      obtain ⟨r1, h1, _⟩ := Graph.distanceWithin_total hg u v
      obtain ⟨r2, h2, _⟩ := Graph.distanceWithin_total hg v u
      have s1 := Graph.distanceWithin_sound _ _ u v r1 h1
      have s2 := Graph.distanceWithin_sound _ _ v u r2 h2
      show Graph.distanceWithin _ _ u v = Graph.distanceWithin _ _ v u
      rw [h1, h2]
      cases r1 with
      | none =>
        cases r2 with
        | none => rfl
        | some k2 =>
          exact absurd (Graph.walk_reverse hg (s2.1 k2 rfl).1) (s1.2 rfl hu hv k2)
      | some k1 =>
        cases r2 with
        | none =>
          exact absurd (Graph.walk_reverse hg (s1.1 k1 rfl).1) (s2.2 rfl hv hu k1)
        | some k2 =>
          have a := (s1.1 k1 rfl).2 k2 (Graph.walk_reverse hg (s2.1 k2 rfl).1)
          have b := (s2.1 k2 rfl).2 k1 (Graph.walk_reverse hg (s1.1 k1 rfl).1)
          have : k1 = k2 := by omega
          rw [this]

/-- C17 (`distance` on absent vertices): for every graph and all `u`, `v`, as soon
as `u` or `v` is absent `distance u v` returns none, before any search and also
when `u == v`. -/
theorem distance_absent_is_none (g : Graph V) (u v : V)
    (h : g.containsVertex u = false ∨ g.containsVertex v = false) :
    g.distance u v = some none ∧ ∀ fuel : Nat, g.distanceWithin fuel u v = some none :=
  ⟨Graph.distanceWithin_absent g _ u v h, fun fuel => Graph.distanceWithin_absent g fuel u v h⟩

/-- Instance of C17: on the graph with the single edge 1 - 2, the absent vertex 9
to itself. -/
theorem distance_absent_is_none_witness :
    ((Graph.build [Op.addEdge (1 : Nat) 2]).containsVertex 9 = false
      ∨ (Graph.build [Op.addEdge (1 : Nat) 2]).containsVertex 9 = false) ∧
    ((Graph.build [Op.addEdge (1 : Nat) 2]).distance 9 9 = some none ∧
      ∀ fuel : Nat, (Graph.build [Op.addEdge (1 : Nat) 2]).distanceWithin fuel 9 9 = some none) :=
  ⟨Or.inl (by decide),
    distance_absent_is_none (Graph.build [Op.addEdge (1 : Nat) 2]) 9 9 (Or.inl (by decide))⟩

/-- C18 (`distance` to self): for every graph and every vertex `v` present in it,
`distance v v` returns 0, whatever the neighbor set of `v`, empty included. -/
theorem distance_self_is_zero (g : Graph V) (v : V) (h : g.containsVertex v = true) :
    g.distance v v = some (some 0) :=
  Graph.distanceWithin_self g _ v h

/-- Instance of C18: the isolated vertex 7. -/
theorem distance_self_is_zero_witness :
    (Graph.build [Op.addVertex (7 : Nat)]).containsVertex 7 = true ∧
    (Graph.build [Op.addVertex (7 : Nat)]).degree 7 = 0 ∧
    (Graph.build [Op.addVertex (7 : Nat)]).distance 7 7 = some (some 0) :=
  ⟨by decide, by decide,
    distance_self_is_zero (Graph.build [Op.addVertex (7 : Nat)]) 7 (by decide)⟩

/-! ## Removal of an edge -/

namespace UMap

theorem modify_eq_self (m : List (V × List V)) (k : V) (f : List V → List V)
    (h : ∀ s, find m k = some s → f s = s) : modify m k f = m := by
  induction m with
  | nil => rfl
  | cons e m ih =>
    obtain ⟨a, s⟩ := e
    by_cases hak : a = k
    · have : f s = s := h s (by simp [find, hak])
      simp [modify, hak, this]
    · have h1 : ∀ t, find m k = some t → f t = t := by
        intro t ht
        apply h t
        simp [find, hak, ht]
      simp [modify, hak, ih h1]

end UMap

namespace Graph

theorem removeEdge_eq_self {g : Graph V} (hg : Inv g) {u v : V}
    (h : g.containsEdge u v = false) : g.removeEdge u v = g := by
  by_cases huv : u = v
  · simp [removeEdge, huv]
  · have h1 : v ∉ g.neighbors u := by
      intro hm
      have := (containsEdge_iff g u v).mpr ⟨huv, hm⟩
      rw [h] at this; cases this
    have h2 : u ∉ g.neighbors v := fun hm => h1 (hg.symm v u hm)
    have e1 : UMap.modify g.adj u (fun s => USet.erase s v) = g.adj := by
      apply UMap.modify_eq_self
      intro s hs
      apply USet.erase_of_not_mem
      rw [neighbors_eq, hs] at h1
      exact h1
    have e2 : UMap.modify g.adj v (fun s => USet.erase s u) = g.adj := by
      apply UMap.modify_eq_self
      intro s hs
      apply USet.erase_of_not_mem
      rw [neighbors_eq, hs] at h2
      exact h2
    simp only [removeEdge, huv, if_false, e1, e2]

theorem keys_removeEdge (g : Graph V) (u v : V) :
    UMap.keys (g.removeEdge u v).adj = UMap.keys g.adj := by
  by_cases huv : u = v
  · simp [removeEdge, huv]
  · simp only [removeEdge, huv, if_false, UMap.keys_modify]

theorem containsEdge_of_absent {g : Graph V} (hg : Inv g) {u v : V}
    (h : g.containsVertex u = false ∨ g.containsVertex v = false) :
    g.containsEdge u v = false := by
  cases he : g.containsEdge u v with
  | false => rfl
  | true =>
    obtain ⟨_, hm⟩ := (containsEdge_iff g u v).mp he
    have h1 := (containsVertex_iff g u).mpr (mem_keys_of_neighbors_ne_nil hm)
    have h2 := (containsVertex_iff g v).mpr (hg.closed hm)
    rcases h with h | h
    · rw [h1] at h; cases h
    · rw [h2] at h; cases h

end Graph

/-- C19 (postcondition of `removeEdge`): in every state built from the empty graph
by a sequence of public mutations and for all `u ≠ v`, after `removeEdge u v`
neither `containsEdge u v` nor `containsEdge v u` holds, the vertices are the same
as before, `containsEdge a b` is unchanged for every pair other than `(u, v)` and
`(v, u)`, and `countEdges()` is one less if the edge was there and the same
otherwise. -/
theorem removeEdge_postcondition (ops : List (Op V)) (u v : V) (h : u ≠ v) :
    ((Graph.build ops).removeEdge u v).containsEdge u v = false ∧
    ((Graph.build ops).removeEdge u v).containsEdge v u = false ∧
    ((Graph.build ops).removeEdge u v).vertices = (Graph.build ops).vertices ∧
    (∀ x : V, ((Graph.build ops).removeEdge u v).containsVertex x
        = (Graph.build ops).containsVertex x) ∧
    (∀ a b : V, ¬ (a = u ∧ b = v) → ¬ (a = v ∧ b = u)
        → ((Graph.build ops).removeEdge u v).containsEdge a b
            = (Graph.build ops).containsEdge a b) ∧
    ((Graph.build ops).containsEdge u v = true
        → ((Graph.build ops).removeEdge u v).countEdges + 1 = (Graph.build ops).countEdges) ∧
    ((Graph.build ops).containsEdge u v = false
        → ((Graph.build ops).removeEdge u v).countEdges = (Graph.build ops).countEdges) := by
  have hg := Graph.inv_build ops
  have hg1 := Graph.inv_removeEdge hg u v
  refine ⟨?_, ?_, ?_, ?_, ?_, ?_, ?_⟩
  · cases hc : ((Graph.build ops).removeEdge u v).containsEdge u v with
    | false => rfl
    | true =>
      have := ((Graph.containsEdge_iff _ u v).mp hc).2
      rw [Graph.mem_neighbors_removeEdge _ h] at this
      exact absurd ⟨rfl, rfl⟩ this.2.2
  · cases hc : ((Graph.build ops).removeEdge u v).containsEdge v u with
    | false => rfl
    | true =>
      have := ((Graph.containsEdge_iff _ v u).mp hc).2
      rw [Graph.mem_neighbors_removeEdge _ h] at this
      exact absurd ⟨rfl, rfl⟩ this.2.1
  · rw [Graph.vertices_eq_keys hg1, Graph.vertices_eq_keys hg, Graph.keys_removeEdge]
  · intro x
    rw [Bool.eq_iff_iff, Graph.containsVertex_iff, Graph.containsVertex_iff,
      Graph.keys_removeEdge]
  · intro a b h1 h2
    rw [Bool.eq_iff_iff, Graph.containsEdge_iff, Graph.containsEdge_iff,
      Graph.mem_neighbors_removeEdge _ h]
    constructor
    · rintro ⟨hab, h3, _, _⟩
      exact ⟨hab, h3⟩
    · rintro ⟨hab, h3⟩
      exact ⟨hab, h3, h2, h1⟩
  · intro he
    have hm := ((Graph.containsEdge_iff _ u v).mp he).2
    have hm2 := hg.symm u v hm
    have ht := Graph.total_removeEdge hg h
    simp only [hm, hm2, if_true] at ht
    have c1 := Graph.two_mul_countEdges hg
    have c2 := Graph.two_mul_countEdges hg1
    omega
  · intro he
    rw [Graph.removeEdge_eq_self hg he]

/-- Instance of C19: on the path 1 - 2 - 3, removing the edge 2 - 3. -/
theorem removeEdge_postcondition_witness :
    (2 : Nat) ≠ 3 ∧
    (((Graph.build [Op.addEdge 1 2, Op.addEdge 2 3]).removeEdge 2 3).containsEdge 2 3 = false ∧
    ((Graph.build [Op.addEdge 1 2, Op.addEdge 2 3]).removeEdge 2 3).containsEdge 3 2 = false ∧
    ((Graph.build [Op.addEdge 1 2, Op.addEdge 2 3]).removeEdge 2 3).vertices
        = (Graph.build [Op.addEdge 1 2, Op.addEdge 2 3]).vertices ∧
    (∀ x : Nat, ((Graph.build [Op.addEdge 1 2, Op.addEdge 2 3]).removeEdge 2 3).containsVertex x
        = (Graph.build [Op.addEdge 1 2, Op.addEdge 2 3]).containsVertex x) ∧
    (∀ a b : Nat, ¬ (a = 2 ∧ b = 3) → ¬ (a = 3 ∧ b = 2)
        → ((Graph.build [Op.addEdge 1 2, Op.addEdge 2 3]).removeEdge 2 3).containsEdge a b
            = (Graph.build [Op.addEdge 1 2, Op.addEdge 2 3]).containsEdge a b) ∧
    ((Graph.build [Op.addEdge 1 2, Op.addEdge 2 3]).containsEdge 2 3 = true
        → ((Graph.build [Op.addEdge 1 2, Op.addEdge 2 3]).removeEdge 2 3).countEdges + 1
            = (Graph.build [Op.addEdge 1 2, Op.addEdge 2 3]).countEdges) ∧
    ((Graph.build [Op.addEdge 1 2, Op.addEdge 2 3]).containsEdge 2 3 = false
        → ((Graph.build [Op.addEdge 1 2, Op.addEdge 2 3]).removeEdge 2 3).countEdges
            = (Graph.build [Op.addEdge 1 2, Op.addEdge 2 3]).countEdges)) :=
  ⟨by decide, removeEdge_postcondition [Op.addEdge 1 2, Op.addEdge 2 3] 2 3 (by decide)⟩

/-- C20 (no-op cases of `removeEdge`): in every state built from the empty graph by
a sequence of public mutations, `removeEdge u v` returns the state as it was when
`u == v`, when `u` or `v` is absent, or when `containsEdge u v` is false. -/
theorem removeEdge_noop (ops : List (Op V)) (u v : V)
    (h : u = v ∨ (Graph.build ops).containsVertex u = false
      ∨ (Graph.build ops).containsVertex v = false
      ∨ (Graph.build ops).containsEdge u v = false) :
    (Graph.build ops).removeEdge u v = Graph.build ops := by
  have hg := Graph.inv_build ops
  rcases h with h | h | h | h
  · simp [Graph.removeEdge, h]
  · exact Graph.removeEdge_eq_self hg (Graph.containsEdge_of_absent hg (Or.inl h))
  · exact Graph.removeEdge_eq_self hg (Graph.containsEdge_of_absent hg (Or.inr h))
  · exact Graph.removeEdge_eq_self hg h

/-- Instance of C20: on the path 1 - 2 - 3, removing the edge 1 - 3, which is not
there. -/
theorem removeEdge_noop_witness :
    ((1 : Nat) = 3 ∨ (Graph.build [Op.addEdge 1 2, Op.addEdge 2 3]).containsVertex 1 = false
      ∨ (Graph.build [Op.addEdge 1 2, Op.addEdge 2 3]).containsVertex 3 = false
      ∨ (Graph.build [Op.addEdge 1 2, Op.addEdge 2 3]).containsEdge 1 3 = false) ∧
    (Graph.build [Op.addEdge 1 2, Op.addEdge 2 3]).removeEdge 1 3
      = Graph.build [Op.addEdge 1 2, Op.addEdge 2 3] :=
  ⟨Or.inr (Or.inr (Or.inr (by decide))),
    removeEdge_noop [Op.addEdge 1 2, Op.addEdge 2 3] 1 3 (Or.inr (Or.inr (Or.inr (by decide))))⟩

/-! ## The loop of `bfs` -/

namespace Graph

theorem bfsScan_eq (nbrs seen pending : List V) :
    bfsScan nbrs seen pending = (seen ++ fresh nbrs seen, pending ++ fresh nbrs seen) := by
  induction nbrs generalizing seen pending with
  | nil => simp [bfsScan, fresh]
  | cons n ns ih =>
    by_cases hs : n ∈ seen
    · simp only [bfsScan, fresh, hs, if_true]
      exact ih _ _
    · simp only [bfsScan, fresh, hs, if_false]
      rw [ih]
      simp

theorem bfsLoop_nil (adj : List (V × List V)) (maxv fuel : Nat) (seen result : List V) :
    bfsLoop adj maxv fuel seen [] result = some result := by
  cases fuel <;> rfl

theorem bfsLoop_break (adj : List (V × List V)) (maxv fuel : Nat) (seen : List V) (c : V)
    (p result : List V) (h : 0 < maxv ∧ maxv ≤ result.length) :
    bfsLoop adj maxv (fuel + 1) seen (c :: p) result = some result := by
  rw [bfsLoop, if_pos h]

theorem bfsLoop_step (g : Graph V) (maxv fuel : Nat) (seen : List V) (c : V)
    (p result : List V) (h : ¬ (0 < maxv ∧ maxv ≤ result.length)) :
    bfsLoop g.adj maxv (fuel + 1) seen (c :: p) result
      = bfsLoop g.adj maxv fuel (seen ++ fresh (g.neighbors c) seen)
          (p ++ fresh (g.neighbors c) seen) (result ++ [c]) := by
  rw [bfsLoop, if_neg h]
  cases hf : UMap.find g.adj c with
  | none =>
    have hn : g.neighbors c = [] := by rw [neighbors_eq, hf]; rfl
    simp [hn, fresh]
  | some nbrs =>
    have hn : g.neighbors c = nbrs := by rw [neighbors_eq, hf]; rfl
    simp only [bfsScan_eq, hn]

theorem bfsLoop_prefix (g : Graph V) (maxv fuel : Nat) (seen pending result full : List V)
    (h : bfsLoop g.adj maxv fuel seen pending result = some full) : result <+: full := by
  induction fuel generalizing seen pending result with
  | zero =>
    cases pending with
    | nil =>
      rw [bfsLoop_nil] at h
      cases h
      exact List.prefix_refl _
    | cons c p => simp [bfsLoop] at h
  | succ fuel ih =>
    cases pending with
    | nil =>
      rw [bfsLoop_nil] at h
      cases h
      exact List.prefix_refl _
    | cons c p =>
      by_cases hb : 0 < maxv ∧ maxv ≤ result.length
      · rw [bfsLoop_break _ _ _ _ _ _ _ hb] at h
        cases h
        exact List.prefix_refl _
      · rw [bfsLoop_step g _ _ _ _ _ _ hb] at h
        exact (List.prefix_append result [c]).trans (ih _ _ _ h)

theorem bfsLoop_mono (g : Graph V) (maxv fuel : Nat) (seen pending result full : List V)
    (h : bfsLoop g.adj maxv fuel seen pending result = some full)
    (fuel1 : Nat) (hle : fuel ≤ fuel1) :
    bfsLoop g.adj maxv fuel1 seen pending result = some full := by
  induction fuel generalizing seen pending result fuel1 with
  | zero =>
    cases pending with
    | nil => rw [bfsLoop_nil] at h ⊢; exact h
    | cons c p => simp [bfsLoop] at h
  | succ fuel ih =>
    obtain ⟨k, rfl⟩ : ∃ k, fuel1 = k + 1 := ⟨fuel1 - 1, by omega⟩
    cases pending with
    | nil => rw [bfsLoop_nil] at h ⊢; exact h
    | cons c p =>
      by_cases hb : 0 < maxv ∧ maxv ≤ result.length
      · rw [bfsLoop_break _ _ _ _ _ _ _ hb] at h ⊢
        exact h
      · rw [bfsLoop_step g _ _ _ _ _ _ hb] at h ⊢
        exact ih _ _ _ h k (by omega)

theorem bfsLoop_take (g : Graph V) (maxv fuel : Nat) (seen pending result full : List V)
    (h : bfsLoop g.adj 0 fuel seen pending result = some full)
    (hm : 0 < maxv) (hr : result.length ≤ maxv) :
    bfsLoop g.adj maxv fuel seen pending result = some (full.take maxv) := by
  induction fuel generalizing seen pending result with
  | zero =>
    cases pending with
    | nil =>
      rw [bfsLoop_nil] at h ⊢
      cases h
      rw [List.take_of_length_le hr]
    | cons c p => simp [bfsLoop] at h
  | succ fuel ih =>
    cases pending with
    | nil =>
      rw [bfsLoop_nil] at h ⊢
      cases h
      rw [List.take_of_length_le hr]
    | cons c p =>
      have hpre := bfsLoop_prefix g 0 _ _ _ _ _ h
      have h0 : ¬ (0 < 0 ∧ 0 ≤ result.length) := by omega
      rw [bfsLoop_step g _ _ _ _ _ _ h0] at h
      by_cases hb : 0 < maxv ∧ maxv ≤ result.length
      · rw [bfsLoop_break _ _ _ _ _ _ _ hb]
        have : maxv = result.length := by omega
        rw [this]
        obtain ⟨t, rfl⟩ := hpre
        simp
      · rw [bfsLoop_step g _ _ _ _ _ _ hb]
        apply ih _ _ _ h
        rw [List.length_append, List.length_singleton]
        omega

theorem bfsLoop_total {g : Graph V} (hg : Inv g) (fuel : Nat) (seen pending result : List V)
    (hsplit : seen = result ++ pending) (hn : seen.Nodup)
    (hs : ∀ x, x ∈ seen → x ∈ UMap.keys g.adj)
    (hf : (UMap.keys g.adj).length ≤ result.length + fuel) :
    ∃ full, bfsLoop g.adj 0 fuel seen pending result = some full := by
  have hle : ∀ l : List V, l.Nodup → (∀ x, x ∈ l → x ∈ UMap.keys g.adj)
      → l.length ≤ (UMap.keys g.adj).length :=
    fun l h1 h2 => (List.Nodup.subperm h1 h2).length_le
  induction fuel generalizing seen pending result with
  | zero =>
    cases pending with
    | nil => exact ⟨result, bfsLoop_nil _ _ _ _ _⟩
    | cons c p =>
      have := hle seen hn hs
      rw [hsplit, List.length_append, List.length_cons] at this
      omega
  | succ fuel ih =>
    cases pending with
    | nil => exact ⟨result, bfsLoop_nil _ _ _ _ _⟩
    | cons c p =>
      have h0 : ¬ (0 < 0 ∧ 0 ≤ result.length) := by omega
      rw [bfsLoop_step g _ _ _ _ _ _ h0]
      apply ih
      · rw [hsplit]; simp
      · rw [List.nodup_append]
        refine ⟨hn, nodup_fresh _ _, ?_⟩
        intro a ha hb
        exact ((mem_fresh _ _ a).mp hb).2 ha
      · intro x hx
        rcases List.mem_append.mp hx with h | h
        · exact hs x h
        · exact hg.closed ((mem_fresh _ _ x).mp h).1
      · rw [List.length_append, List.length_singleton]
        omega

end Graph

/-! ## The traversal read level by level -/

namespace Graph

theorem levelInv_init (g : Graph V) (u : V) : LevelInv g u [u] [u] 0 where
  seen_iff := by
    intro x
    constructor
    · intro hx
      rw [List.mem_singleton] at hx
      subst hx
      exact ⟨0, Nat.le_refl 0, Walk.refl⟩
    · rintro ⟨n, hn, hw⟩
      have : n = 0 := by omega
      subst this
      rw [walk_zero hw]
      exact List.mem_singleton_self u
  level_walk := by
    intro x hx
    rw [List.mem_singleton] at hx
    subst hx
    exact Walk.refl
  walk_level := by
    intro x hw
    rw [walk_zero hw]
    exact Or.inl (List.mem_singleton_self u)
  level_min := fun _ _ n _ => Nat.zero_le n
  sorted := List.pairwise_singleton _ _
  nodup := List.nodup_singleton u

theorem LevelInv.level_sub_seen {g : Graph V} {u : V} {seen level : List V} {d : Nat}
    (hI : LevelInv g u seen level d) {c : V} (hc : c ∈ level) : c ∈ seen :=
  (hI.seen_iff c).mpr ⟨d, Nat.le_refl d, hI.level_walk c hc⟩

theorem LevelInv.next_walk {g : Graph V} {u : V} {seen level : List V} {d : Nat}
    (hI : LevelInv g u seen level d) {x : V} (hx : x ∈ levelFresh g level seen) :
    Walk g u x (d + 1) := by
  obtain ⟨hns, c, hc, hxc⟩ := (mem_levelFresh g level seen x).mp hx
  have hne : c ≠ x := by
    rintro rfl
    exact hns (hI.level_sub_seen hc)
  exact Walk.step (hI.level_walk c hc) ((containsEdge_iff g c x).mpr ⟨hne, hxc⟩)

theorem LevelInv.next_min {g : Graph V} {u : V} {seen level : List V} {d : Nat}
    (hI : LevelInv g u seen level d) {x : V} (hx : x ∈ levelFresh g level seen)
    (n : Nat) (hw : Walk g u x n) : d + 1 ≤ n := by
  by_contra hlt
  exact ((mem_levelFresh g level seen x).mp hx).1 ((hI.seen_iff x).mpr ⟨n, by omega, hw⟩)

theorem LevelInv.next_cases {g : Graph V} {u : V} {seen level : List V} {d : Nat}
    (hI : LevelInv g u seen level d) {x : V} (hw : Walk g u x (d + 1)) :
    x ∈ seen ∨ x ∈ levelFresh g level seen := by
  obtain ⟨y, hy, he⟩ := walk_succ hw
  rcases hI.walk_level y hy with hl | ⟨n, hn, hwn⟩
  · by_cases hx : x ∈ seen
    · exact Or.inl hx
    · exact Or.inr ((mem_levelFresh g level seen x).mpr
        ⟨hx, y, hl, ((containsEdge_iff g y x).mp he).2⟩)
  · exact Or.inl ((hI.seen_iff x).mpr ⟨n + 1, by omega, Walk.step hwn he⟩)

theorem levelInv_next {g : Graph V} {u : V} {seen level : List V} {d : Nat}
    (hI : LevelInv g u seen level d) :
    LevelInv g u (seen ++ levelFresh g level seen) (levelFresh g level seen) (d + 1) where
  seen_iff := by
    intro x
    constructor
    · intro hx
      rcases List.mem_append.mp hx with h | h
      · obtain ⟨n, hn, hw⟩ := (hI.seen_iff x).mp h
        exact ⟨n, by omega, hw⟩
      · exact ⟨d + 1, Nat.le_refl _, hI.next_walk h⟩
    · rintro ⟨n, hn, hw⟩
      by_cases hnd : n ≤ d
      · exact List.mem_append_left _ ((hI.seen_iff x).mpr ⟨n, hnd, hw⟩)
      · have : n = d + 1 := by omega
        subst this
        exact List.mem_append.mpr (hI.next_cases hw)
  level_walk := fun x hx => hI.next_walk hx
  walk_level := by
    intro x hw
    rcases hI.next_cases hw with h | h
    · obtain ⟨n, hn, hwn⟩ := (hI.seen_iff x).mp h
      exact Or.inr ⟨n, by omega, hwn⟩
    · exact Or.inl h
  level_min := fun x hx n hw => hI.next_min hx n hw
  sorted := by
    rw [List.pairwise_append]
    refine ⟨hI.sorted, ?_, ?_⟩
    · apply List.pairwise_of_forall_mem_list
      intro a ha b hb n hw
      exact ⟨d + 1, hI.next_min hb n hw, hI.next_walk ha⟩
    · intro a ha b hb n hw
      obtain ⟨m, hm, hwm⟩ := (hI.seen_iff a).mp ha
      have := hI.next_min hb n hw
      exact ⟨m, by omega, hwm⟩
  nodup := by
    rw [List.nodup_append]
    refine ⟨hI.nodup, nodup_levelFresh g level seen, ?_⟩
    intro a ha hb
    exact ((mem_levelFresh g level seen a).mp hb).1 ha

theorem LevelInv.all_seen {g : Graph V} {u : V} {seen : List V} {d : Nat}
    (hI : LevelInv g u seen [] d) (n : Nat) (x : V) (hw : Walk g u x n) : x ∈ seen := by
  have key : ∀ n x, Walk g u x n → ∃ m, m ≤ d ∧ Walk g u x m := by
    intro n
    induction n with
    | zero => intro x hw; exact ⟨0, Nat.zero_le d, hw⟩
    | succ n ih =>
      intro x hw
      obtain ⟨y, hy, he⟩ := walk_succ hw
      obtain ⟨m, hm, hwm⟩ := ih y hy
      by_cases hmd : m < d
      · exact ⟨m + 1, by omega, Walk.step hwm he⟩
      · have : m = d := by omega
        subst this
        rcases hI.walk_level y hwm with hl | ⟨k, hk, hwk⟩
        · simp at hl
        · exact ⟨k + 1, by omega, Walk.step hwk he⟩
  exact (hI.seen_iff x).mpr (key n x hw)

theorem levelFresh_concat (g : Graph V) (done : List V) (c : V) (seen : List V) :
    levelFresh g (done ++ [c]) seen
      = levelFresh g done seen ++ fresh (g.neighbors c) (seen ++ levelFresh g done seen) := by
  induction done generalizing seen with
  | nil => simp [levelFresh]
  | cons a done ih =>
    show levelFresh g (a :: (done ++ [c])) seen = _
    rw [levelFresh, ih, levelFresh]
    simp only [List.append_assoc]

theorem queueInv_init (g : Graph V) (u : V) : QueueInv g u [u] [u] [] :=
  ⟨0, [], [], [u], by simpa using levelInv_init g u, by simp, by simp [levelFresh],
    by simp [levelFresh]⟩

theorem queueInv_split {g : Graph V} {u : V} {seen pending result : List V}
    (h : QueueInv g u seen pending result) : seen = result ++ pending := by
  obtain ⟨d, res0, done, rest, _, hres, hpend, hseen⟩ := h
  rw [hseen, hres, hpend]
  simp

theorem queueInv_step {g : Graph V} {u : V} {seen : List V} {c : V} {p result : List V}
    (h : QueueInv g u seen (c :: p) result) :
    QueueInv g u (seen ++ fresh (g.neighbors c) seen) (p ++ fresh (g.neighbors c) seen)
      (result ++ [c]) := by
  obtain ⟨d, res0, done, rest, hL, hres, hpend, hseen⟩ := h
  cases rest with
  | nil =>
    have hL1 := levelInv_next hL
    simp only [List.append_nil, List.nil_append] at hL hL1 hpend hseen
    rw [← hpend] at hL1 hseen
    refine ⟨d + 1, res0 ++ done, [c], p, ?_, ?_, ?_, ?_⟩
    · simpa using hL1
    · rw [hres]
    · simp only [levelFresh, List.append_nil, List.singleton_append]
      rw [hseen]
    · simp only [levelFresh, List.append_nil, List.singleton_append]
      rw [hseen]
  | cons c1 rest1 =>
    simp only [List.cons_append, List.cons.injEq] at hpend
    obtain ⟨hc, hp⟩ := hpend
    subst hc
    have e : res0 ++ ((done ++ [c]) ++ rest1) = res0 ++ (done ++ c :: rest1) := by simp
    refine ⟨d, res0, done ++ [c], rest1, ?_, ?_, ?_, ?_⟩
    · rw [e]
      simpa using hL
    · rw [hres]; simp
    · rw [e, levelFresh_concat, hp, ← hseen]
      simp
    · rw [e, levelFresh_concat, ← hseen, hseen]
      simp

theorem queueInv_final {g : Graph V} {u : V} {seen result : List V}
    (h : QueueInv g u seen [] result) :
    result = seen ∧ (∀ x, x ∈ seen ↔ ∃ n, Walk g u x n) ∧
      seen.Pairwise (NotFarther g u) ∧ seen.Nodup := by
  obtain ⟨d, res0, done, rest, hL, hres, hpend, hseen⟩ := h
  obtain ⟨hrest, hLF⟩ := List.append_eq_nil.mp hpend.symm
  subst hrest
  have hL1 := levelInv_next hL
  rw [hLF] at hseen
  simp only [List.append_nil] at hL hL1 hLF hseen
  rw [hLF] at hL1
  simp only [List.append_nil] at hL1
  rw [← hseen] at hL hL1
  refine ⟨by rw [hres, hseen], ?_, hL.sorted, hL.nodup⟩
  intro x
  constructor
  · intro hx
    obtain ⟨n, _, hw⟩ := (hL.seen_iff x).mp hx
    exact ⟨n, hw⟩
  · rintro ⟨n, hw⟩
    exact hL1.all_seen n x hw

theorem bfsLoop_unlimited (g : Graph V) (u : V) (fuel : Nat)
    (seen pending result full : List V) (hQ : QueueInv g u seen pending result)
    (h : bfsLoop g.adj 0 fuel seen pending result = some full) :
    QueueInv g u full [] full ∧ seen <+: full := by
  induction fuel generalizing seen pending result with
  | zero =>
    cases pending with
    | nil =>
      rw [bfsLoop_nil] at h
      cases h
      have := (queueInv_final hQ).1
      subst this
      exact ⟨hQ, List.prefix_refl _⟩
    | cons c p => simp [bfsLoop] at h
  | succ fuel ih =>
    cases pending with
    | nil =>
      rw [bfsLoop_nil] at h
      cases h
      have := (queueInv_final hQ).1
      subst this
      exact ⟨hQ, List.prefix_refl _⟩
    | cons c p =>
      have h0 : ¬ (0 < 0 ∧ 0 ≤ result.length) := by omega
      rw [bfsLoop_step g _ _ _ _ _ _ h0] at h
      obtain ⟨h1, h2⟩ := ih _ _ _ (queueInv_step hQ) h
      exact ⟨h1, (List.prefix_append seen _).trans h2⟩

end Graph

/-! ## What `bfs` returns -/

namespace Graph

theorem fresh_eq_self (nbrs seen : List V) (hn : nbrs.Nodup) (hd : ∀ x, x ∈ nbrs → x ∉ seen) :
    fresh nbrs seen = nbrs := by
  induction nbrs generalizing seen with
  | nil => rfl
  | cons n ns ih =>
    obtain ⟨h1, h2⟩ := List.nodup_cons.mp hn
    have hns : n ∉ seen := hd n (List.mem_cons_self _ _)
    simp only [fresh, hns, if_false]
    rw [ih _ h2]
    intro x hx hm
    rcases List.mem_append.mp hm with h | h
    · exact hd x (List.mem_cons_of_mem _ hx) h
    · rw [List.mem_singleton] at h
      subst h
      exact h1 hx

theorem walk_mem_keys {g : Graph V} (hg : Inv g) {u x : V} {n : Nat}
    (hu : u ∈ UMap.keys g.adj) (h : Walk g u x n) : x ∈ UMap.keys g.adj := by
  cases h with
  | refl => exact hu
  | step _ he => exact hg.closed ((containsEdge_iff g _ x).mp he).2

theorem exists_shortest_walk {g : Graph V} {u x : V} (h : ∃ n, Walk g u x n) :
    ∃ d, Walk g u x d ∧ ∀ n, Walk g u x n → d ≤ n := by
  classical
  exact ⟨Nat.find h, Nat.find_spec h, fun n hn => Nat.find_min' h hn⟩

theorem shortestLength_iff (g : Graph V) (u x : V) (d : Nat) :
    g.ShortestLength u x d ↔ Walk g u x d ∧ ∀ n, Walk g u x n → d ≤ n := by
  unfold ShortestLength
  rw [pathOfLength_iff_walk]
  constructor
  · rintro ⟨h1, h2⟩
    exact ⟨h1, fun n hn => h2 n ((pathOfLength_iff_walk g u x n).mpr hn)⟩
  · rintro ⟨h1, h2⟩
    exact ⟨h1, fun n hn => h2 n ((pathOfLength_iff_walk g u x n).mp hn)⟩

theorem NotFarther.le {g : Graph V} {u a b : V} (h : NotFarther g u a b) {da db : Nat}
    (ha : g.ShortestLength u a da) (hb : g.ShortestLength u b db) : da ≤ db := by
  rw [shortestLength_iff] at ha hb
  obtain ⟨m, hm, hw⟩ := h db hb.1
  have := ha.2 m hw
  omega

theorem bfsWithin_absent (g : Graph V) (reserveMax fuel : Nat) (v : V) (maxv : Nat)
    (h : g.containsVertex v = false) :
    g.bfsWithin reserveMax fuel v maxv = some (.value []) := by
  simp [bfsWithin, h]

/-- With a present start and a limit that is 0 (no `reserve`) or that `reserve`
grants, `bfs` returns what its loop computes. -/
theorem bfsWithin_granted (g : Graph V) (reserveMax fuel : Nat) (v : V) (maxv : Nat)
    (h : g.containsVertex v = true) (hm : maxv = 0 ∨ maxv ≤ reserveMax) :
    g.bfsWithin reserveMax fuel v maxv
      = (bfsLoop g.adj maxv fuel [v] [v] []).map BfsOutcome.value := by
  have hn : ¬ (0 < maxv ∧ reserveMax < maxv) := by omega
  simp only [bfsWithin, h, Bool.not_true, Bool.false_eq_true, if_false, if_neg hn]

/-- With a present start and a limit that `reserve` does not grant, `bfs` is left
by the exception before its loop. -/
theorem bfsWithin_refused (g : Graph V) (reserveMax fuel : Nat) (v : V) (maxv : Nat)
    (h : g.containsVertex v = true) (hm : reserveMax < maxv) :
    g.bfsWithin reserveMax fuel v maxv = some .reserveThrew := by
  have hn : 0 < maxv ∧ reserveMax < maxv := by omega
  simp only [bfsWithin, h, Bool.not_true, Bool.false_eq_true, if_false, if_pos hn]

theorem bfs_unlimited_spec {g : Graph V} (hg : Inv g) (start : V)
    (hp : g.containsVertex start = true) :
    ∃ full, bfsLoop g.adj 0 g.countVertices [start] [start] [] = some full ∧
      (∀ fuel, g.countVertices ≤ fuel →
        bfsLoop g.adj 0 fuel [start] [start] [] = some full) ∧
      (∀ x, x ∈ full ↔ ∃ n, Walk g start x n) ∧
      full.Pairwise (NotFarther g start) ∧ full.Nodup ∧
      (start :: g.neighbors start) <+: full := by
  have hk : start ∈ UMap.keys g.adj := (containsVertex_iff g start).mp hp
  have hlen : g.countVertices = (UMap.keys g.adj).length := by
    simp [countVertices, UMap.keys]
  have hpos : 0 < g.countVertices := by
    rw [hlen]; exact List.length_pos_of_mem hk
  obtain ⟨full, hfull⟩ := bfsLoop_total hg g.countVertices [start] [start] [] (by simp)
    (List.nodup_singleton start)
    (fun x hx => by rw [List.mem_singleton.mp hx]; exact hk)
    (by rw [hlen]; simp)
  obtain ⟨hQ, _⟩ := bfsLoop_unlimited g start _ _ _ _ full (queueInv_init g start) hfull
  obtain ⟨_, hmem, hsorted, hnodup⟩ := queueInv_final hQ
  refine ⟨full, hfull, ?_, hmem, hsorted, hnodup, ?_⟩
  · intro fuel hle
    exact bfsLoop_mono g 0 _ _ _ _ full hfull fuel hle
  · obtain ⟨k, hk1⟩ : ∃ k, g.countVertices = k + 1 := ⟨g.countVertices - 1, by omega⟩
    rw [hk1] at hfull
    have h0 : ¬ (0 < 0 ∧ 0 ≤ ([] : List V).length) := by omega
    rw [bfsLoop_step g _ _ _ _ _ _ h0] at hfull
    have h2 := (bfsLoop_unlimited g start _ _ _ _ full
      (queueInv_step (queueInv_init g start)) hfull).2
    have hf : fresh (g.neighbors start) [start] = g.neighbors start := by
      apply fresh_eq_self _ _ (hg.sets_nodup start)
      intro x hx hm
      rw [List.mem_singleton] at hm
      subst hm
      exact hg.irrefl x hx
    rw [hf] at h2
    exact h2

theorem bfs_limited_spec (g : Graph V) (start : V) (full : List V)
    (hfull : bfsLoop g.adj 0 g.countVertices [start] [start] [] = some full)
    (maxv : Nat) (hm : 0 < maxv) :
    bfsLoop g.adj maxv g.countVertices [start] [start] [] = some (full.take maxv) :=
  bfsLoop_take g maxv _ _ _ _ full hfull hm (by simp)

/-- Without a limit `bfs` never calls `reserve`: for a present start its value is
what the loop computes, whatever `reserve` would grant. -/
theorem bfs_unlimited_eq (g : Graph V) (reserveMax : Nat) (start : V) (full : List V)
    (hp : g.containsVertex start = true)
    (hfull : bfsLoop g.adj 0 g.countVertices [start] [start] [] = some full) :
    g.bfs reserveMax start 0 = some (.value full) := by
  show g.bfsWithin reserveMax g.countVertices start 0 = _
  rw [bfsWithin_granted g _ _ start 0 hp (Or.inl rfl), hfull]
  rfl

theorem reachable_ncard (g : Graph V) (start : V) (full : List V) (hn : full.Nodup)
    (hmem : ∀ x, x ∈ full ↔ ∃ n, Walk g start x n) :
    Set.ncard {x : V | ∃ n : Nat, g.PathOfLength start x n} = full.length := by
  have hset : {x : V | ∃ n : Nat, g.PathOfLength start x n} = (↑full.toFinset : Set V) := by
    ext x
    simp only [Set.mem_setOf_eq, Finset.mem_coe, List.mem_toFinset, hmem,
      pathOfLength_iff_walk]
  rw [hset, Set.ncard_coe_Finset, List.toFinset_card_of_nodup hn]

/-- With a limit above 0 that `reserve` grants, `bfs` from a present start returns
the first `maxv` elements of what the loop computes without a limit. -/
theorem bfs_limited_eq (g : Graph V) (reserveMax : Nat) (start : V) (full : List V)
    (hp : g.containsVertex start = true)
    (hfull : bfsLoop g.adj 0 g.countVertices [start] [start] [] = some full)
    (maxv : Nat) (hm : 0 < maxv) (hle : maxv ≤ reserveMax) :
    g.bfs reserveMax start maxv = some (.value (full.take maxv)) := by
  show g.bfsWithin reserveMax g.countVertices start maxv = _
  rw [bfsWithin_granted g _ _ start maxv hp (Or.inr hle),
    bfs_limited_spec g start full hfull maxv hm]
  rfl

/-- A limit above what `reserve` grants: `bfs` from a present start is left by the
exception, with no sequence returned. -/
theorem bfs_refused (g : Graph V) (reserveMax : Nat) (start : V) (maxv : Nat)
    (hp : g.containsVertex start = true) (hm : reserveMax < maxv) :
    g.bfs reserveMax start maxv = some .reserveThrew :=
  bfsWithin_refused g reserveMax g.countVertices start maxv hp hm

/-- For every limit that is 0 or that `reserve` grants, `bfs` returns a sequence
without repetition; for a present start and no limit its length is the number of
vertices reachable from `start`, and `countVertices()` when the graph is
connected. -/
theorem bfs_granted_no_repetition (ops : List (Op V)) (reserveMax : Nat) (start : V)
    (limit : Nat) (hm : limit = 0 ∨ limit ≤ reserveMax) :
    ∃ result : List V, (Graph.build ops).bfs reserveMax start limit = some (.value result) ∧
      result.Nodup ∧
      ((Graph.build ops).containsVertex start = true → limit = 0 →
        result.length
          = Set.ncard {x : V | ∃ n : Nat, (Graph.build ops).PathOfLength start x n} ∧
        ((Graph.build ops).Connected → result.length = (Graph.build ops).countVertices)) := by
  have hg := Graph.inv_build ops
  cases hp : (Graph.build ops).containsVertex start with
  | false =>
    exact ⟨[], Graph.bfsWithin_absent _ _ _ start limit hp, List.nodup_nil,
      fun hc => (by cases hc)⟩
  | true =>
    obtain ⟨full, h1, _, hmem, _, hnodup, _⟩ := Graph.bfs_unlimited_spec hg start hp
    by_cases hl : limit = 0
    · subst hl
      refine ⟨full, Graph.bfs_unlimited_eq _ reserveMax start full hp h1, hnodup, ?_⟩
      intro _ _
      refine ⟨(Graph.reachable_ncard _ start full hnodup hmem).symm, ?_⟩
      intro hc
      have hk : start ∈ UMap.keys (Graph.build ops).adj :=
        (Graph.containsVertex_iff _ start).mp hp
      have hperm : full.Perm (UMap.keys (Graph.build ops).adj) := by
        rw [List.perm_ext_iff_of_nodup hnodup hg.keys_nodup]
        intro x
        rw [hmem]
        constructor
        · rintro ⟨n, hw⟩
          exact Graph.walk_mem_keys hg hk hw
        · intro hx
          obtain ⟨n, hpath⟩ := hc start x hp ((Graph.containsVertex_iff _ x).mpr hx)
          exact ⟨n, (Graph.pathOfLength_iff_walk _ start x n).mp hpath⟩
      rw [hperm.length_eq]
      simp [Graph.countVertices, UMap.keys]
    · refine ⟨full.take limit,
        Graph.bfs_limited_eq _ reserveMax start full hp h1 limit (by omega) (by omega),
        hnodup.sublist (List.take_sublist _ _), ?_⟩
      intro _ h0
      exact absurd h0 hl

/-- For a present `start` and every limit above 0 that `reserve` grants,
`bfs(start, limit)` has as many elements as the smaller of the limit and the
number of vertices reachable from `start`; without a limit the result has as many
elements as there are reachable vertices. -/
theorem bfs_granted_limit (ops : List (Op V)) (reserveMax : Nat) (start : V) (limit : Nat)
    (h : (Graph.build ops).containsVertex start = true) (hl : 0 < limit)
    (hm : limit ≤ reserveMax) :
    (∃ result : List V, (Graph.build ops).bfs reserveMax start limit = some (.value result) ∧
      result.length
        = min limit (Set.ncard {x : V | ∃ n : Nat, (Graph.build ops).PathOfLength start x n})) ∧
    (∃ full : List V, (Graph.build ops).bfs reserveMax start 0 = some (.value full) ∧
      full.length
        = Set.ncard {x : V | ∃ n : Nat, (Graph.build ops).PathOfLength start x n}) := by
  obtain ⟨full, h1, _, hmem, _, hnodup, _⟩ :=
    Graph.bfs_unlimited_spec (Graph.inv_build ops) start h
  have hcard := Graph.reachable_ncard _ start full hnodup hmem
  refine ⟨⟨full.take limit, Graph.bfs_limited_eq _ reserveMax start full h h1 limit hl hm, ?_⟩,
    ⟨full, Graph.bfs_unlimited_eq _ reserveMax start full h h1, hcard.symm⟩⟩
  rw [List.length_take, hcard]

/-- For every limit that is 0 or that `reserve` grants, `bfs` returns the empty
sequence exactly when `start` is not in the graph, and a result whose first
element is `start` when it is. -/
theorem bfs_granted_start (ops : List (Op V)) (reserveMax : Nat) (start : V) (limit : Nat)
    (hm : limit = 0 ∨ limit ≤ reserveMax) :
    ∃ result : List V, (Graph.build ops).bfs reserveMax start limit = some (.value result) ∧
      (result = [] ↔ (Graph.build ops).containsVertex start = false) ∧
      ((Graph.build ops).containsVertex start = true → result.head? = some start) := by
  cases hp : (Graph.build ops).containsVertex start with
  | false =>
    exact ⟨[], Graph.bfsWithin_absent _ _ _ start limit hp, by simp,
      fun hc => (by cases hc)⟩
  | true =>
    obtain ⟨full, h1, _, _, _, _, hpre⟩ :=
      Graph.bfs_unlimited_spec (Graph.inv_build ops) start hp
    obtain ⟨t, ht⟩ := hpre
    by_cases hl : limit = 0
    · subst hl
      refine ⟨full, Graph.bfs_unlimited_eq _ reserveMax start full hp h1, ?_, ?_⟩
      · rw [← ht]; simp
      · intro _; rw [← ht]; simp
    · obtain ⟨k, rfl⟩ : ∃ k, limit = k + 1 := ⟨limit - 1, by omega⟩
      refine ⟨full.take (k + 1),
        Graph.bfs_limited_eq _ reserveMax start full hp h1 (k + 1) (by omega) (by omega),
        ?_, ?_⟩
      · rw [← ht]; simp
      · intro _; rw [← ht]; simp

end Graph

/-! ## Breadth-first search -/

/-- C12 (`bfs` visits exactly the reachable vertices): in every state built from
the empty graph by a sequence of public mutations and for every present `start`,
`bfs(start)` without a limit returns a sequence in which a vertex `x` occurs
exactly when a path of edges leads from `start` to `x` (the path with no edge,
for `start` itself, included).  Without a limit nothing is reserved, so the
sequence is returned whatever `reserve` would grant. -/
theorem bfs_visits_reachable (ops : List (Op V)) (start : V)
    (h : (Graph.build ops).containsVertex start = true) :
    ∃ full : List V,
      (∀ reserveMax : Nat, (Graph.build ops).bfs reserveMax start 0 = some (.value full)) ∧
      ∀ x : V, x ∈ full ↔ ∃ n : Nat, (Graph.build ops).PathOfLength start x n := by
  obtain ⟨full, h1, _, hmem, _⟩ := Graph.bfs_unlimited_spec (Graph.inv_build ops) start h
  refine ⟨full, fun reserveMax => Graph.bfs_unlimited_eq _ reserveMax start full h h1, ?_⟩
  intro x
  rw [hmem]
  simp only [Graph.pathOfLength_iff_walk]

/-- Instance of C12: with the edges 1 - 2, 2 - 3 and 4 - 5, from 1. -/
theorem bfs_visits_reachable_witness :
    (Graph.build [Op.addEdge (1 : Nat) 2, Op.addEdge 2 3, Op.addEdge 4 5]).containsVertex 1 = true ∧
    ∃ full : List Nat,
      (∀ reserveMax : Nat,
        (Graph.build [Op.addEdge (1 : Nat) 2, Op.addEdge 2 3, Op.addEdge 4 5]).bfs reserveMax 1 0
          = some (.value full)) ∧
      ∀ x : Nat, x ∈ full ↔ ∃ n : Nat,
        (Graph.build [Op.addEdge (1 : Nat) 2, Op.addEdge 2 3, Op.addEdge 4 5]).PathOfLength 1 x n :=
  ⟨by decide,
    bfs_visits_reachable [Op.addEdge (1 : Nat) 2, Op.addEdge 2 3, Op.addEdge 4 5] 1 (by decide)⟩

/-- C14 (ordering of `bfs`): in every state built from the empty graph by a
sequence of public mutations and for every present `start`, along `bfs(start)`
the length of a shortest path from `start` never decreases; hence the vertices
at one distance are contiguous, the neighbors of `start` fill the positions 1 to
`degree(start)`, and the last element is at the largest distance reached.  Without
a limit nothing is reserved, so the sequence is returned whatever `reserve` would
grant. -/
theorem bfs_order (ops : List (Op V)) (start : V)
    (h : (Graph.build ops).containsVertex start = true) :
    ∃ full : List V,
      (∀ reserveMax : Nat, (Graph.build ops).bfs reserveMax start 0 = some (.value full)) ∧
      (∀ (i j : Nat) (a b : V) (da db : Nat), i < j → full[i]? = some a → full[j]? = some b →
        (Graph.build ops).ShortestLength start a da →
        (Graph.build ops).ShortestLength start b db → da ≤ db) ∧
      (∀ (i j k : Nat) (a b c : V) (d : Nat), i < j → j < k →
        full[i]? = some a → full[j]? = some b → full[k]? = some c →
        (Graph.build ops).ShortestLength start a d →
        (Graph.build ops).ShortestLength start c d →
        (Graph.build ops).ShortestLength start b d) ∧
      (full.drop 1).take ((Graph.build ops).degree start) = (Graph.build ops).neighbors start ∧
      (∀ (l x : V) (dx dl : Nat), full.getLast? = some l →
        (Graph.build ops).ShortestLength start x dx →
        (Graph.build ops).ShortestLength start l dl → dx ≤ dl) := by
  obtain ⟨full, h1, _, hmem, hsorted, hnodup, hpre⟩ :=
    Graph.bfs_unlimited_spec (Graph.inv_build ops) start h
  have hidx : ∀ (i j : Nat) (a b : V), i < j → full[i]? = some a → full[j]? = some b →
      Graph.NotFarther (Graph.build ops) start a b := by
    intro i j a b hij ha hb
    obtain ⟨hi, rfl⟩ := List.getElem?_eq_some.mp ha
    obtain ⟨hj, rfl⟩ := List.getElem?_eq_some.mp hb
    exact List.pairwise_iff_getElem.mp hsorted i j hi hj hij
  refine ⟨full, fun reserveMax => Graph.bfs_unlimited_eq _ reserveMax start full h h1,
    ?_, ?_, ?_, ?_⟩
  · intro i j a b da db hij ha hb hda hdb
    exact (hidx i j a b hij ha hb).le hda hdb
  · intro i j k a b c d hij hjk ha hb hc hda hdc
    have hbm : b ∈ full := by
      obtain ⟨hj, rfl⟩ := List.getElem?_eq_some.mp hb
      exact List.getElem_mem hj
    obtain ⟨db, hdb⟩ := Graph.exists_shortest_walk ((hmem b).mp hbm)
    have hsb : (Graph.build ops).ShortestLength start b db :=
      (Graph.shortestLength_iff _ start b db).mpr hdb
    have l1 := (hidx i j a b hij ha hb).le hda hsb
    have l2 := (hidx j k b c hjk hb hc).le hsb hdc
    have : db = d := by omega
    rw [← this]
    exact hsb
  · obtain ⟨t, ht⟩ := hpre
    rw [← ht, Graph.degree_eq]
    simp
  · intro l x dx dl hl hx hlast
    have hxm : x ∈ full :=
      (hmem x).mpr ⟨dx, ((Graph.shortestLength_iff _ start x dx).mp hx).1⟩
    have hsplit := List.dropLast_append_getLast? l hl
    rw [← hsplit] at hxm hsorted
    rcases List.mem_append.mp hxm with hin | hin
    · exact ((List.pairwise_append.mp hsorted).2.2 x hin l
        (List.mem_singleton_self l)).le hx hlast
    · rw [List.mem_singleton] at hin
      subst hin
      rw [Graph.shortestLength_iff] at hx hlast
      have a1 := hx.2 dl hlast.1
      have a2 := hlast.2 dx hx.1
      omega

/-- Instance of C14: on the path 2 - 1 - 3 - 4, from 1. -/
theorem bfs_order_witness :
    (Graph.build [Op.addEdge (1 : Nat) 2, Op.addEdge 1 3, Op.addEdge 3 4]).containsVertex 1 = true ∧
    ∃ full : List Nat,
      (∀ reserveMax : Nat,
        (Graph.build [Op.addEdge (1 : Nat) 2, Op.addEdge 1 3, Op.addEdge 3 4]).bfs reserveMax 1 0
          = some (.value full)) ∧
      (∀ (i j : Nat) (a b : Nat) (da db : Nat), i < j → full[i]? = some a → full[j]? = some b →
        (Graph.build [Op.addEdge (1 : Nat) 2, Op.addEdge 1 3, Op.addEdge 3 4]).ShortestLength 1 a da →
        (Graph.build [Op.addEdge (1 : Nat) 2, Op.addEdge 1 3, Op.addEdge 3 4]).ShortestLength 1 b db →
        da ≤ db) ∧
      (∀ (i j k : Nat) (a b c : Nat) (d : Nat), i < j → j < k →
        full[i]? = some a → full[j]? = some b → full[k]? = some c →
        (Graph.build [Op.addEdge (1 : Nat) 2, Op.addEdge 1 3, Op.addEdge 3 4]).ShortestLength 1 a d →
        (Graph.build [Op.addEdge (1 : Nat) 2, Op.addEdge 1 3, Op.addEdge 3 4]).ShortestLength 1 c d →
        (Graph.build [Op.addEdge (1 : Nat) 2, Op.addEdge 1 3, Op.addEdge 3 4]).ShortestLength 1 b d) ∧
      (full.drop 1).take
          ((Graph.build [Op.addEdge (1 : Nat) 2, Op.addEdge 1 3, Op.addEdge 3 4]).degree 1)
        = (Graph.build [Op.addEdge (1 : Nat) 2, Op.addEdge 1 3, Op.addEdge 3 4]).neighbors 1 ∧
      (∀ (l x : Nat) (dx dl : Nat), full.getLast? = some l →
        (Graph.build [Op.addEdge (1 : Nat) 2, Op.addEdge 1 3, Op.addEdge 3 4]).ShortestLength 1 x dx →
        (Graph.build [Op.addEdge (1 : Nat) 2, Op.addEdge 1 3, Op.addEdge 3 4]).ShortestLength 1 l dl →
        dx ≤ dl) :=
  ⟨by decide,
    bfs_order [Op.addEdge (1 : Nat) 2, Op.addEdge 1 3, Op.addEdge 3 4] 1 (by decide)⟩

/-- C15 (limit of `bfs`), on the graph with the one edge 1 - 2, where two vertices
are reachable from 1: `bfs(1, 1)` returns `[1]` and `bfs(1)` returns `[1, 2]`, but
`bfs(1, 18446744073709551615)` does not return the two reachable vertices: the
limit is above what `result.reserve(limit)` grants and the call is left by the
exception before the loop, as with the limit `reserveMax + 1` whatever `reserveMax`
is. -/
theorem bfs_limit_large_limit :
    (Graph.build [Op.addEdge (1 : Nat) 2]).bfs 2305843009213693951 1 1 = some (.value [1]) ∧
    (Graph.build [Op.addEdge (1 : Nat) 2]).bfs 2305843009213693951 1 0 = some (.value [1, 2]) ∧
    (Graph.build [Op.addEdge (1 : Nat) 2]).bfs 2305843009213693951 1 18446744073709551615
      = some .reserveThrew ∧
    (∀ reserveMax : Nat,
      (Graph.build [Op.addEdge (1 : Nat) 2]).bfs reserveMax 1 (reserveMax + 1) = some .reserveThrew) ∧
    ¬ ∃ result : List Nat,
      (Graph.build [Op.addEdge (1 : Nat) 2]).bfs 2305843009213693951 1 18446744073709551615
        = some (.value result) ∧ result.length = min 18446744073709551615 2 := by
  have ht : (Graph.build [Op.addEdge (1 : Nat) 2]).bfs 2305843009213693951 1 18446744073709551615
      = some .reserveThrew := by decide
  refine ⟨by decide, by decide, ht, ?_, ?_⟩
  · intro reserveMax
    exact Graph.bfs_refused _ reserveMax 1 (reserveMax + 1) (by decide) (Nat.lt_succ_self _)
  · rintro ⟨result, h, _⟩
    rw [ht] at h
    cases h

/-- C16 (start handling of `bfs`), on the graph with the one edge 1 - 2 and the
limit 18446744073709551615: for the absent start 9 the presence test returns the
empty sequence before anything is reserved; for the present start 1 no result
with first element 1 is returned: `result.reserve(limit)` is left by the exception
before 1 is appended, as with the limit `reserveMax + 1` whatever `reserveMax`
is. -/
theorem bfs_start_large_limit :
    (Graph.build [Op.addEdge (1 : Nat) 2]).containsVertex 9 = false ∧
    (Graph.build [Op.addEdge (1 : Nat) 2]).bfs 2305843009213693951 9 18446744073709551615
      = some (.value []) ∧
    (Graph.build [Op.addEdge (1 : Nat) 2]).containsVertex 1 = true ∧
    (Graph.build [Op.addEdge (1 : Nat) 2]).bfs 2305843009213693951 1 18446744073709551615
      = some .reserveThrew ∧
    (∀ reserveMax : Nat,
      (Graph.build [Op.addEdge (1 : Nat) 2]).bfs reserveMax 1 (reserveMax + 1) = some .reserveThrew) ∧
    ¬ ∃ result : List Nat,
      (Graph.build [Op.addEdge (1 : Nat) 2]).bfs 2305843009213693951 1 18446744073709551615
        = some (.value result) ∧ result.head? = some 1 := by
  have ht : (Graph.build [Op.addEdge (1 : Nat) 2]).bfs 2305843009213693951 1 18446744073709551615
      = some .reserveThrew := by decide
  refine ⟨by decide, by decide, by decide, ht, ?_, ?_⟩
  · intro reserveMax
    exact Graph.bfs_refused _ reserveMax 1 (reserveMax + 1) (by decide) (Nat.lt_succ_self _)
  · rintro ⟨result, h, _⟩
    rw [ht] at h
    cases h

/-! ## Additions and `clear` -/

namespace USet

theorem insert_of_mem {s : List V} {x : V} (h : x ∈ s) : insert s x = s := by
  simp [insert, h]

end USet

namespace UMap

theorem index_eq_self (m : List (V × List V)) (k : V) (f : List V → List V) (s : List V)
    (h : find m k = some s) (hf : f s = s) : index m k f = m := by
  induction m with
  | nil => simp [find] at h
  | cons e m ih =>
    obtain ⟨a, t⟩ := e
    by_cases hak : a = k
    · simp only [find, hak, if_true, Option.some.injEq] at h
      subst h
      simp [index, hak, hf]
    · simp only [find, hak, if_false] at h
      simp [index, hak, ih h]

theorem length_index (m : List (V × List V)) (k : V) (f : List V → List V) :
    (index m k f).length = m.length + (if k ∈ keys m then 0 else 1) := by
  have h1 : (index m k f).length = (keys (index m k f)).length := by simp [keys]
  have h2 : m.length = (keys m).length := by simp [keys]
  rw [h1, h2, keys_index]
  split <;> simp

theorem mem_keys_index (m : List (V × List V)) (k : V) (f : List V → List V) (x : V) :
    x ∈ keys (index m k f) ↔ x = k ∨ x ∈ keys m := by
  rw [keys_index]
  split
  · rename_i hk
    constructor
    · exact Or.inr
    · rintro (rfl | h)
      · exact hk
      · exact h
  · simp [or_comm]

end UMap

namespace Graph

theorem addVertex_addVertex (g : Graph V) (v : V) :
    (g.addVertex v).addVertex v = g.addVertex v := by
  have hk : v ∈ UMap.keys (g.addVertex v).adj := by
    show v ∈ UMap.keys (UMap.tryEmplace g.adj v)
    rw [UMap.keys_tryEmplace]
    split
    · assumption
    · simp
  show (⟨UMap.tryEmplace (g.addVertex v).adj v⟩ : Graph V) = g.addVertex v
  rw [UMap.tryEmplace_of_mem hk]

theorem addEdge_addEdge (g : Graph V) (u v : V) :
    (g.addEdge u v).addEdge u v = g.addEdge u v := by
  by_cases h : u = v
  · simp [addEdge, h]
  · have hu : UMap.find (g.addEdge u v).adj u = some (USet.insert (g.neighbors u) v) := by
      rw [find_addEdge g h, if_neg h, if_pos rfl]
    have hv : UMap.find (g.addEdge u v).adj v = some (USet.insert (g.neighbors v) u) := by
      rw [find_addEdge g h, if_pos rfl]
    have e1 : UMap.index (g.addEdge u v).adj u (fun s => USet.insert s v)
        = (g.addEdge u v).adj :=
      UMap.index_eq_self _ u _ _ hu
        (USet.insert_of_mem ((USet.mem_insert _ v v).mpr (Or.inl rfl)))
    have e2 : UMap.index (g.addEdge u v).adj v (fun s => USet.insert s u)
        = (g.addEdge u v).adj :=
      UMap.index_eq_self _ v _ _ hv
        (USet.insert_of_mem ((USet.mem_insert _ u u).mpr (Or.inl rfl)))
    have : (g.addEdge u v).addEdge u v
        = ⟨UMap.index (UMap.index (g.addEdge u v).adj u (fun s => USet.insert s v)) v
            (fun s => USet.insert s u)⟩ := by
      simp only [addEdge, h, if_false]
    rw [this, e1, e2]

theorem countVertices_addEdge (g : Graph V) {u v : V} (h : u ≠ v) :
    (g.addEdge u v).countVertices
      = g.countVertices + (if g.containsVertex u = true then 0 else 1)
          + (if g.containsVertex v = true then 0 else 1) := by
  have e : (g.addEdge u v).adj
      = UMap.index (UMap.index g.adj u (fun s => USet.insert s v)) v
          (fun s => USet.insert s u) := by
    simp only [addEdge, h, if_false]
  unfold countVertices
  rw [e, UMap.length_index, UMap.length_index]
  have hv : v ∈ UMap.keys (UMap.index g.adj u (fun s => USet.insert s v))
      ↔ v ∈ UMap.keys g.adj := by
    rw [UMap.mem_keys_index]
    constructor
    · rintro (hvu | hk)
      · exact absurd hvu.symm h
      · exact hk
    · exact Or.inr
  simp only [hv, containsVertex_iff]

end Graph

/-- C21 (idempotence of additions): for every graph, `addVertex v` applied twice
gives the same state as applied once, and so does `addEdge u v`. -/
theorem additions_idempotent (g : Graph V) (u v : V) :
    (g.addVertex v).addVertex v = g.addVertex v ∧
    (g.addEdge u v).addEdge u v = g.addEdge u v :=
  ⟨Graph.addVertex_addVertex g v, Graph.addEdge_addEdge g u v⟩

/-- C22 (postcondition of `addVertex`): for every graph and vertex `v`, after
`addVertex v` the vertex is present; the state is unchanged if `v` was present;
if it was absent it enters with degree 0, `countVertices()` grows by one,
`countEdges()` is unchanged, and every other vertex keeps its neighbor set and
its presence. -/
theorem addVertex_postcondition (g : Graph V) (v : V) :
    (g.addVertex v).containsVertex v = true ∧
    (g.containsVertex v = true → g.addVertex v = g) ∧
    (g.containsVertex v = false →
      (g.addVertex v).degree v = 0 ∧
      (g.addVertex v).countVertices = g.countVertices + 1 ∧
      (g.addVertex v).countEdges = g.countEdges ∧
      ∀ w : V, w ≠ v → (g.addVertex v).neighbors w = g.neighbors w ∧
        (g.addVertex v).containsVertex w = g.containsVertex w) := by
  refine ⟨?_, ?_, ?_⟩
  · rw [Graph.containsVertex_iff]
    show v ∈ UMap.keys (UMap.tryEmplace g.adj v)
    rw [UMap.keys_tryEmplace]
    split
    · assumption
    · simp
  · intro h
    have hk := (Graph.containsVertex_iff g v).mp h
    show (⟨UMap.tryEmplace g.adj v⟩ : Graph V) = g
    rw [UMap.tryEmplace_of_mem hk]
  · intro h
    have hk : v ∉ UMap.keys g.adj := by
      intro hk
      rw [(Graph.containsVertex_iff g v).mpr hk] at h
      cases h
    have hadj : (g.addVertex v).adj = g.adj ++ [(v, [])] := UMap.tryEmplace_of_not_mem hk
    refine ⟨?_, ?_, ?_, ?_⟩
    · rw [Graph.degree_eq, Graph.neighbors_addVertex, Graph.neighbors_eq,
        (UMap.find_eq_none_iff g.adj v).mpr hk]
      rfl
    · simp [Graph.countVertices, hadj]
    · rw [Graph.countEdges_eq, Graph.countEdges_eq]
      show UMap.total (UMap.tryEmplace g.adj v) / 2 = _
      rw [UMap.total_tryEmplace]
    · intro w hw
      refine ⟨Graph.neighbors_addVertex g v w, ?_⟩
      rw [Bool.eq_iff_iff, Graph.containsVertex_iff, Graph.containsVertex_iff, hadj]
      simp [UMap.keys, hw]

/-- C23 (effect of `addEdge` on the counts): in every state built from the empty
graph by a sequence of public mutations and for all `u ≠ v`, if `containsEdge u v`
was false then `addEdge u v` adds one to `countEdges()` and to `countVertices()`
the number of absent endpoints; if it was true both counts are unchanged.  On the
empty graph `addEdge(-1, -5)` gives 2 vertices, 1 edge and `maxDegree()` 1. -/
theorem addEdge_counts (ops : List (Op V)) (u v : V) (h : u ≠ v) :
    ((Graph.build ops).containsEdge u v = false →
      ((Graph.build ops).addEdge u v).countEdges = (Graph.build ops).countEdges + 1 ∧
      ((Graph.build ops).addEdge u v).countVertices
        = (Graph.build ops).countVertices
          + (if (Graph.build ops).containsVertex u = true then 0 else 1)
          + (if (Graph.build ops).containsVertex v = true then 0 else 1)) ∧
    ((Graph.build ops).containsEdge u v = true →
      ((Graph.build ops).addEdge u v).countEdges = (Graph.build ops).countEdges ∧
      ((Graph.build ops).addEdge u v).countVertices = (Graph.build ops).countVertices) ∧
    (((Graph.empty : Graph Int).addEdge (-1) (-5)).countVertices = 2 ∧
      ((Graph.empty : Graph Int).addEdge (-1) (-5)).countEdges = 1 ∧
      ((Graph.empty : Graph Int).addEdge (-1) (-5)).maxDegree = 1) := by
  have hg := Graph.inv_build ops
  have hg1 := Graph.inv_addEdge hg u v
  have c1 := Graph.two_mul_countEdges hg
  have c2 := Graph.two_mul_countEdges hg1
  have ht := Graph.total_addEdge (Graph.build ops) h
  have hcv := Graph.countVertices_addEdge (Graph.build ops) h
  refine ⟨?_, ?_, by decide⟩
  · intro he
    have hm : v ∉ (Graph.build ops).neighbors u := by
      intro hm
      rw [(Graph.containsEdge_iff _ u v).mpr ⟨h, hm⟩] at he
      cases he
    have hm2 : u ∉ (Graph.build ops).neighbors v := fun x => hm (hg.symm v u x)
    simp only [hm, hm2, if_false] at ht
    exact ⟨by omega, hcv⟩
  · intro he
    have hm := ((Graph.containsEdge_iff _ u v).mp he).2
    have hm2 := hg.symm u v hm
    simp only [hm, hm2, if_true] at ht
    have hu : (Graph.build ops).containsVertex u = true :=
      (Graph.containsVertex_iff _ u).mpr (hg.closed hm2)
    have hv : (Graph.build ops).containsVertex v = true :=
      (Graph.containsVertex_iff _ v).mpr (hg.closed hm)
    rw [hu, hv] at hcv
    simp only [if_true] at hcv
    exact ⟨by omega, by omega⟩

/-- Instance of C23: on the graph with the single edge 1 - 2, adding the edge 2 - 3. -/
theorem addEdge_counts_witness :
    (2 : Nat) ≠ 3 ∧
    (((Graph.build [Op.addEdge 1 2]).containsEdge 2 3 = false →
      ((Graph.build [Op.addEdge 1 2]).addEdge 2 3).countEdges
        = (Graph.build [Op.addEdge 1 2]).countEdges + 1 ∧
      ((Graph.build [Op.addEdge 1 2]).addEdge 2 3).countVertices
        = (Graph.build [Op.addEdge 1 2]).countVertices
          + (if (Graph.build [Op.addEdge 1 2]).containsVertex 2 = true then 0 else 1)
          + (if (Graph.build [Op.addEdge 1 2]).containsVertex 3 = true then 0 else 1)) ∧
    ((Graph.build [Op.addEdge 1 2]).containsEdge 2 3 = true →
      ((Graph.build [Op.addEdge 1 2]).addEdge 2 3).countEdges
        = (Graph.build [Op.addEdge 1 2]).countEdges ∧
      ((Graph.build [Op.addEdge 1 2]).addEdge 2 3).countVertices
        = (Graph.build [Op.addEdge 1 2]).countVertices) ∧
    (((Graph.empty : Graph Int).addEdge (-1) (-5)).countVertices = 2 ∧
      ((Graph.empty : Graph Int).addEdge (-1) (-5)).countEdges = 1 ∧
      ((Graph.empty : Graph Int).addEdge (-1) (-5)).maxDegree = 1)) :=
  ⟨by decide, addEdge_counts [Op.addEdge 1 2] 2 3 (by decide)⟩

/-- C24 (postcondition of `clear`): for every graph, after `clear()` there is no
vertex and no edge: `countVertices()`, `countEdges()` and `maxDegree()` are 0, and
`containsVertex` and `containsEdge` are false everywhere. -/
theorem clear_postcondition (g : Graph V) (u v : V) :
    g.clear.countVertices = 0 ∧ g.clear.countEdges = 0 ∧ g.clear.maxDegree = 0 ∧
    g.clear.containsVertex v = false ∧ g.clear.containsEdge u v = false := by
  refine ⟨rfl, by simp [Graph.countEdges, Graph.clear], rfl, rfl, ?_⟩
  unfold Graph.containsEdge
  split
  · rfl
  · rfl

/-! ## Statistics, vertices and iteration -/

namespace UMap

theorem mem_of_find_eq_some {m : List (V × List V)} {k : V} {s : List V}
    (h : find m k = some s) : (k, s) ∈ m := by
  induction m with
  | nil => simp [find] at h
  | cons e m ih =>
    obtain ⟨a, t⟩ := e
    by_cases hak : a = k
    · simp only [find, hak, if_true, Option.some.injEq] at h
      subst h; subst hak
      exact List.mem_cons_self _ _
    · simp only [find, hak, if_false] at h
      exact List.mem_cons_of_mem _ (ih h)

theorem find_eq_some_of_mem {m : List (V × List V)} (hn : (keys m).Nodup) {k : V}
    {s : List V} (h : (k, s) ∈ m) : find m k = some s := by
  induction m with
  | nil => simp at h
  | cons e m ih =>
    obtain ⟨a, t⟩ := e
    have hn1 : a ∉ keys m ∧ (keys m).Nodup := List.nodup_cons.mp hn
    rcases List.mem_cons.mp h with h1 | h1
    · cases h1
      simp [find]
    · have hk : k ∈ keys m := List.mem_map.mpr ⟨(k, s), h1, rfl⟩
      have hak : ¬ a = k := by rintro rfl; exact hn1.1 hk
      simp only [find, hak, if_false]
      exact ih hn1.2 h1

theorem foldl_max_spec (m : List (V × List V)) (acc : Nat) :
    acc ≤ m.foldl (fun max_d e => if e.2.length > max_d then e.2.length else max_d) acc ∧
    (∀ e, e ∈ m → e.2.length
      ≤ m.foldl (fun max_d e => if e.2.length > max_d then e.2.length else max_d) acc) ∧
    (m.foldl (fun max_d e => if e.2.length > max_d then e.2.length else max_d) acc = acc ∨
      ∃ e, e ∈ m ∧ e.2.length
        = m.foldl (fun max_d e => if e.2.length > max_d then e.2.length else max_d) acc) := by
  induction m generalizing acc with
  | nil => simp
  | cons a m ih =>
    simp only [List.foldl_cons]
    by_cases hc : a.2.length > acc
    · rw [if_pos hc]
      obtain ⟨h1, h2, h3⟩ := ih a.2.length
      refine ⟨by omega, ?_, ?_⟩
      · intro e he
        rcases List.mem_cons.mp he with h | h
        · rw [h]; exact h1
        · exact h2 e h
      · rcases h3 with h3 | ⟨e, he, h3⟩
        · exact Or.inr ⟨a, List.mem_cons_self _ _, h3.symm⟩
        · exact Or.inr ⟨e, List.mem_cons_of_mem _ he, h3⟩
    · rw [if_neg hc]
      obtain ⟨h1, h2, h3⟩ := ih acc
      refine ⟨h1, ?_, ?_⟩
      · intro e he
        rcases List.mem_cons.mp he with h | h
        · rw [h]; omega
        · exact h2 e h
      · rcases h3 with h3 | ⟨e, he, h3⟩
        · exact Or.inl h3
        · exact Or.inr ⟨e, List.mem_cons_of_mem _ he, h3⟩

end UMap

namespace Graph

theorem mem_vertices_iff {g : Graph V} (hg : Inv g) (v : V) :
    v ∈ g.vertices ↔ g.containsVertex v = true := by
  rw [vertices_eq_keys hg, containsVertex_iff]

theorem iterateLoop_eq (rest : List (V × List V)) (out : List V) (fuel : Nat)
    (h : rest.length ≤ fuel) :
    iterateLoop (⟨[]⟩ : Iterator V) fuel ⟨rest⟩ out = some (out ++ UMap.keys rest) := by
  induction rest generalizing out fuel with
  | nil =>
    rw [iterateLoop.eq_def]
    simp [UMap.keys]
  | cons e rest ih =>
    obtain ⟨k, rfl⟩ : ∃ k, fuel = k + 1 := ⟨fuel - 1, by simp at h; omega⟩
    rw [iterateLoop.eq_def]
    have hne : ¬ ((⟨e :: rest⟩ : Iterator V) = ⟨[]⟩) := by
      intro hc
      cases hc
    simp only [if_neg hne, Iterator.deref, Iterator.next, List.tail_cons]
    rw [ih _ k (by simp at h; omega)]
    simp [UMap.keys]

theorem degree_of_absent {g : Graph V} {v : V} (h : g.containsVertex v = false) :
    g.degree v = 0 := by
  have hk : v ∉ UMap.keys g.adj := by
    intro hk
    rw [(containsVertex_iff g v).mpr hk] at h
    cases h
  simp [degree, (UMap.find_eq_none_iff g.adj v).mpr hk]

theorem degree_eq_ncard {g : Graph V} (hg : Inv g) (v : V) :
    g.degree v = Set.ncard {w : V | g.containsEdge v w = true} := by
  have hset : {w : V | g.containsEdge v w = true} = (↑(g.neighbors v).toFinset : Set V) := by
    ext w
    simp only [Set.mem_setOf_eq, Finset.mem_coe, List.mem_toFinset, containsEdge_iff]
    constructor
    · exact fun h => h.2
    · intro h
      refine ⟨?_, h⟩
      rintro rfl
      exact hg.irrefl v h
  rw [hset, Set.ncard_coe_Finset, List.toFinset_card_of_nodup (hg.sets_nodup v), degree_eq]

end Graph

/-- C27 (iteration consistency): in every state built from the empty graph by a
sequence of public mutations, the iteration from `begin()` to `end()` ends and
yields a sequence without repetition, of length `countVertices()`, whose elements
are exactly those of `vertices()`. -/
theorem iteration_consistent (ops : List (Op V)) :
    ∃ out : List V, (Graph.build ops).iterate = some out ∧ out.Nodup ∧
      out.length = (Graph.build ops).countVertices ∧
      ∀ x : V, x ∈ out ↔ x ∈ (Graph.build ops).vertices := by
  have hg := Graph.inv_build ops
  refine ⟨UMap.keys (Graph.build ops).adj, ?_, hg.keys_nodup, ?_, ?_⟩
  · have := Graph.iterateLoop_eq (Graph.build ops).adj [] (Graph.build ops).countVertices
      (Nat.le_refl _)
    rw [List.nil_append] at this
    exact this
  · simp [Graph.countVertices, UMap.keys]
  · intro x
    rw [Graph.vertices_eq_keys hg]

/-- C28 (`vertices()` and `countVertices()`): in every state built from the empty
graph by a sequence of public mutations, `v` belongs to `vertices()` exactly when
`containsVertex v`, and `vertices()` has `countVertices()` elements. -/
theorem vertices_spec (ops : List (Op V)) (v : V) :
    (v ∈ (Graph.build ops).vertices ↔ (Graph.build ops).containsVertex v = true) ∧
    ((Graph.build ops).vertices).length = (Graph.build ops).countVertices := by
  have hg := Graph.inv_build ops
  refine ⟨Graph.mem_vertices_iff hg v, ?_⟩
  rw [Graph.vertices_eq_keys hg]
  simp [Graph.countVertices, UMap.keys]

/-- C29 (`degree`): in every state built from the empty graph by a sequence of
public mutations, `degree v` is the number of vertices `w` with `containsEdge v w`,
which is the size of `neighbors v`, and it is 0 when `v` is absent. -/
theorem degree_spec (ops : List (Op V)) (v : V) :
    (Graph.build ops).degree v
        = Set.ncard {w : V | (Graph.build ops).containsEdge v w = true} ∧
    (Graph.build ops).degree v = ((Graph.build ops).neighbors v).length ∧
    ((Graph.build ops).containsVertex v = false → (Graph.build ops).degree v = 0) :=
  ⟨Graph.degree_eq_ncard (Graph.inv_build ops) v, Graph.degree_eq _ v,
    fun h => Graph.degree_of_absent h⟩

/-- C30 (`maxDegree`): in every state built from the empty graph by a sequence of
public mutations, `maxDegree()` is 0 when the graph has no vertex; no vertex has a
degree above `maxDegree()`, and when the graph has a vertex one of them has degree
`maxDegree()`. -/
theorem maxDegree_spec (ops : List (Op V)) :
    ((Graph.build ops).countVertices = 0 → (Graph.build ops).maxDegree = 0) ∧
    (∀ v : V, (Graph.build ops).degree v ≤ (Graph.build ops).maxDegree) ∧
    ((Graph.build ops).countVertices ≠ 0 →
      ∃ v : V, (Graph.build ops).containsVertex v = true ∧
        (Graph.build ops).degree v = (Graph.build ops).maxDegree) := by
  have hg := Graph.inv_build ops
  obtain ⟨_, h2, h3⟩ := UMap.foldl_max_spec (Graph.build ops).adj 0
  have hdeg : ∀ e, e ∈ (Graph.build ops).adj → (Graph.build ops).degree e.1 = e.2.length := by
    intro e he
    have := UMap.find_eq_some_of_mem hg.keys_nodup (k := e.1) (s := e.2) he
    simp [Graph.degree, this]
  have hle : ∀ v : V, (Graph.build ops).degree v ≤ (Graph.build ops).maxDegree := by
    intro v
    cases hf : UMap.find (Graph.build ops).adj v with
    | none => simp [Graph.degree, hf]
    | some s =>
      have := h2 (v, s) (UMap.mem_of_find_eq_some hf)
      simpa [Graph.degree, hf] using this
  refine ⟨?_, hle, ?_⟩
  · intro h0
    have : (Graph.build ops).adj = [] := List.length_eq_zero.mp h0
    simp [Graph.maxDegree, this]
  · intro hne
    rcases h3 with h3 | ⟨e, he, h3⟩
    · cases hadj : (Graph.build ops).adj with
      | nil => simp [Graph.countVertices, hadj] at hne
      | cons e rest =>
        have he : e ∈ (Graph.build ops).adj := by rw [hadj]; exact List.mem_cons_self _ _
        refine ⟨e.1, (Graph.containsVertex_iff _ e.1).mpr (List.mem_map.mpr ⟨e, he, rfl⟩), ?_⟩
        have := hle e.1
        have h0 : (Graph.build ops).maxDegree = 0 := h3
        omega
    · exact ⟨e.1, (Graph.containsVertex_iff _ e.1).mpr (List.mem_map.mpr ⟨e, he, rfl⟩),
        (hdeg e he).trans h3⟩

/-! ## The set of edges -/

namespace USet

theorem mem_foldl_insert (l acc : List V) (x : V) :
    x ∈ l.foldl insert acc ↔ x ∈ acc ∨ x ∈ l := by
  induction l generalizing acc with
  | nil => simp
  | cons a l ih =>
    rw [List.foldl_cons, ih, mem_insert, List.mem_cons]
    constructor
    · rintro ((h | h) | h)
      · exact Or.inr (Or.inl h)
      · exact Or.inl h
      · exact Or.inr (Or.inr h)
    · rintro (h | h | h)
      · exact Or.inl (Or.inr h)
      · exact Or.inl (Or.inl h)
      · exact Or.inr h

theorem foldl_insert_eq (l acc : List V) (h : (acc ++ l).Nodup) :
    l.foldl insert acc = acc ++ l := by
  induction l generalizing acc with
  | nil => simp
  | cons a l ih =>
    have ha : a ∉ acc := by
      intro hm
      exact (List.nodup_append.mp h).2.2 hm (List.mem_cons_self _ _)
    have e1 : insert acc a = acc ++ [a] := by simp [insert, ha]
    rw [List.foldl_cons, e1, ih (acc ++ [a]) (by simpa using h)]
    simp

end USet

namespace UMap

theorem mem_pairs (m : List (V × List V)) (a b : V) :
    (a, b) ∈ pairs m ↔ ∃ s, (a, s) ∈ m ∧ b ∈ s := by
  induction m with
  | nil => simp [pairs]
  | cons e m ih =>
    obtain ⟨k, t⟩ := e
    simp only [pairs, List.mem_append, List.mem_map, Prod.mk.injEq, ih, List.mem_cons]
    constructor
    · rintro (⟨v, hv, rfl, rfl⟩ | ⟨s, hs, hb⟩)
      · exact ⟨t, Or.inl ⟨rfl, rfl⟩, hv⟩
      · exact ⟨s, Or.inr hs, hb⟩
    · rintro ⟨s, ⟨rfl, rfl⟩ | hs, hb⟩
      · exact Or.inl ⟨b, hb, rfl, rfl⟩
      · exact Or.inr ⟨s, hs, hb⟩

theorem length_pairs (m : List (V × List V)) : (pairs m).length = total m := by
  induction m with
  | nil => simp [pairs, total]
  | cons e m ih =>
    obtain ⟨k, t⟩ := e
    simp only [total] at ih
    simp [pairs, total, ih]

theorem nodup_pairs (m : List (V × List V)) (hk : (keys m).Nodup)
    (hs : ∀ e, e ∈ m → e.2.Nodup) : (pairs m).Nodup := by
  induction m with
  | nil => simp [pairs]
  | cons e m ih =>
    obtain ⟨k, t⟩ := e
    have hk1 : k ∉ keys m ∧ (keys m).Nodup := List.nodup_cons.mp hk
    simp only [pairs]
    rw [List.nodup_append]
    refine ⟨?_, ih hk1.2 (fun e he => hs e (List.mem_cons_of_mem _ he)), ?_⟩
    · apply List.Nodup.map
      · intro x y hxy
        simpa using hxy
      · exact hs (k, t) (List.mem_cons_self _ _)
    · intro p hp hq
      obtain ⟨a, b⟩ := p
      obtain ⟨v, _, hv⟩ := List.mem_map.mp hp
      simp only [Prod.mk.injEq] at hv
      obtain ⟨s, hs1, _⟩ := (mem_pairs m a b).mp hq
      apply hk1.1
      rw [hv.1]
      exact List.mem_map.mpr ⟨(a, s), hs1, rfl⟩

end UMap

namespace Graph

theorem edges_inner [LT V] [DecidableRel (fun a b : V => a < b)] (k : V) (s : List V)
    (res : List (V × V)) :
    s.foldl (fun res v => if k < v then USet.insert res (k, v) else res) res
      = ((s.map (fun v => (k, v))).filter (fun p => decide (p.1 < p.2))).foldl
          USet.insert res := by
  induction s generalizing res with
  | nil => rfl
  | cons v s ih =>
    rw [List.foldl_cons, ih, List.map_cons, List.filter_cons]
    by_cases h : k < v
    · simp [h]
    · simp [h]

theorem edges_eq_foldl [LT V] [DecidableRel (fun a b : V => a < b)] (m : List (V × List V))
    (res : List (V × V)) :
    m.foldl
        (fun res entry =>
          entry.2.foldl
            (fun res v => if entry.1 < v then USet.insert res (entry.1, v) else res) res)
        res
      = ((UMap.pairs m).filter (fun p => decide (p.1 < p.2))).foldl USet.insert res := by
  induction m generalizing res with
  | nil => rfl
  | cons e m ih =>
    obtain ⟨k, t⟩ := e
    rw [List.foldl_cons, ih, edges_inner]
    simp only [UMap.pairs, List.filter_append, List.foldl_append]

theorem mem_pairs_iff {g : Graph V} (hg : Inv g) (a b : V) :
    (a, b) ∈ UMap.pairs g.adj ↔ b ∈ g.neighbors a := by
  rw [UMap.mem_pairs, mem_neighbors_iff]
  constructor
  · rintro ⟨s, hs, hb⟩
    exact ⟨s, UMap.find_eq_some_of_mem hg.keys_nodup hs, hb⟩
  · rintro ⟨s, hs, hb⟩
    exact ⟨s, UMap.mem_of_find_eq_some hs, hb⟩

theorem nodup_pairs_of_inv {g : Graph V} (hg : Inv g) : (UMap.pairs g.adj).Nodup := by
  apply UMap.nodup_pairs _ hg.keys_nodup
  intro e he
  have hf := UMap.find_eq_some_of_mem hg.keys_nodup (k := e.1) (s := e.2) he
  have := hg.sets_nodup e.1
  rw [neighbors_eq, hf] at this
  exact this

theorem edges_eq_filter [LT V] [DecidableRel (fun a b : V => a < b)] {g : Graph V}
    (hg : Inv g) :
    g.edges = (UMap.pairs g.adj).filter (fun p => decide (p.1 < p.2)) := by
  unfold edges
  rw [edges_eq_foldl, USet.foldl_insert_eq]
  · simp
  · simpa using (nodup_pairs_of_inv hg).filter _

theorem mem_edges_iff [LinearOrder V] {g : Graph V} (hg : Inv g) (a b : V) :
    (a, b) ∈ g.edges ↔ a < b ∧ g.containsEdge a b = true := by
  rw [edges_eq_filter hg, List.mem_filter, mem_pairs_iff hg, containsEdge_iff]
  simp only [decide_eq_true_eq]
  constructor
  · rintro ⟨h1, h2⟩
    exact ⟨h2, ne_of_lt h2, h1⟩
  · rintro ⟨h1, _, h2⟩
    exact ⟨h2, h1⟩

theorem two_mul_length_edges [LinearOrder V] {g : Graph V} (hg : Inv g) :
    g.edges.length * 2 = UMap.total g.adj := by
  have hP := nodup_pairs_of_inv hg
  have hne : ∀ p, p ∈ UMap.pairs g.adj → p.1 ≠ p.2 := by
    rintro ⟨a, b⟩ hp hab
    simp only at hab
    subst hab
    exact hg.irrefl a ((mem_pairs_iff hg a a).mp hp)
  have hsplit := List.length_eq_length_filter_add (l := UMap.pairs g.adj)
    (fun p => decide (p.1 < p.2))
  have hB : (UMap.pairs g.adj).filter (fun p => !decide (p.1 < p.2))
      = (UMap.pairs g.adj).filter (fun p => decide (p.2 < p.1)) := by
    apply List.filter_congr
    intro p hp
    have := hne p hp
    rcases lt_trichotomy p.1 p.2 with h | h | h
    · simp [h, not_lt_of_lt h]
    · exact absurd h this
    · simp [h, not_lt_of_lt h]
  have hperm : (((UMap.pairs g.adj).filter (fun p => decide (p.2 < p.1))).map Prod.swap).Perm
      ((UMap.pairs g.adj).filter (fun p => decide (p.1 < p.2))) := by
    rw [List.perm_ext_iff_of_nodup ((hP.filter _).map Prod.swap_injective) (hP.filter _)]
    rintro ⟨a, b⟩
    simp only [List.mem_map, List.mem_filter, decide_eq_true_eq, Prod.exists, Prod.swap_prod_mk,
      Prod.mk.injEq]
    constructor
    · rintro ⟨x, y, ⟨hxy, hlt⟩, rfl, rfl⟩
      exact ⟨(mem_pairs_iff hg _ _).mpr (hg.symm _ _ ((mem_pairs_iff hg _ _).mp hxy)), hlt⟩
    · rintro ⟨hab, hlt⟩
      exact ⟨b, a, ⟨(mem_pairs_iff hg _ _).mpr (hg.symm _ _ ((mem_pairs_iff hg _ _).mp hab)),
        hlt⟩, rfl, rfl⟩
  have hlen := hperm.length_eq
  rw [List.length_map] at hlen
  rw [edges_eq_filter hg, ← UMap.length_pairs]
  rw [hB] at hsplit
  omega

end Graph

/-- C25 (canonical form of `edges()`): for a vertex type with a total order, in
every state built from the empty graph by a sequence of public mutations, `(a, b)`
belongs to `edges()` exactly when `a < b` and `containsEdge a b`; no pair occurs
twice; an edge between `u` and `v` is represented by the pair
`(min u v, max u v)` and by no other, and the pairs are the same whether the edge
was added as `addEdge u v` or as `addEdge v u`. -/
theorem edges_canonical [LinearOrder V] (ops : List (Op V)) (a b : V) :
    ((a, b) ∈ (Graph.build ops).edges ↔ a < b ∧ (Graph.build ops).containsEdge a b = true) ∧
    ((Graph.build ops).edges).Nodup ∧
    (∀ u v : V, (Graph.build ops).containsEdge u v = true →
      (min u v, max u v) ∈ (Graph.build ops).edges ∧
      ∀ p : V × V, p ∈ (Graph.build ops).edges → p = (u, v) ∨ p = (v, u) →
        p = (min u v, max u v)) ∧
    (∀ (u v : V) (p : V × V), p ∈ ((Graph.build ops).addEdge u v).edges
      ↔ p ∈ ((Graph.build ops).addEdge v u).edges) := by
  have hg := Graph.inv_build ops
  refine ⟨Graph.mem_edges_iff hg a b, ?_, ?_, ?_⟩
  · rw [Graph.edges_eq_filter hg]
    exact (Graph.nodup_pairs_of_inv hg).filter _
  · intro u v he
    have hne : u ≠ v := ((Graph.containsEdge_iff _ u v).mp he).1
    have he2 : (Graph.build ops).containsEdge v u = true := by
      rw [← hg.containsEdge_comm]; exact he
    rcases lt_or_gt_of_ne hne with hlt | hgt
    · rw [min_eq_left (le_of_lt hlt), max_eq_right (le_of_lt hlt)]
      refine ⟨(Graph.mem_edges_iff hg u v).mpr ⟨hlt, he⟩, ?_⟩
      rintro p hp (rfl | rfl)
      · rfl
      · exact absurd ((Graph.mem_edges_iff hg v u).mp hp).1 (not_lt_of_lt hlt)
    · rw [min_eq_right (le_of_lt hgt), max_eq_left (le_of_lt hgt)]
      refine ⟨(Graph.mem_edges_iff hg v u).mpr ⟨hgt, he2⟩, ?_⟩
      rintro p hp (rfl | rfl)
      · exact absurd ((Graph.mem_edges_iff hg u v).mp hp).1 (not_lt_of_lt hgt)
      · rfl
  · rintro u v ⟨x, y⟩
    rw [Graph.mem_edges_iff (Graph.inv_addEdge hg u v),
      Graph.mem_edges_iff (Graph.inv_addEdge hg v u)]
    by_cases huv : u = v
    · subst huv; rfl
    · rw [Graph.containsEdge_iff, Graph.containsEdge_iff,
        Graph.mem_neighbors_addEdge _ huv, Graph.mem_neighbors_addEdge _ (Ne.symm huv)]
      constructor
      · rintro ⟨h1, h2, h3 | h3 | h3⟩
        · exact ⟨h1, h2, Or.inr (Or.inl h3)⟩
        · exact ⟨h1, h2, Or.inl h3⟩
        · exact ⟨h1, h2, Or.inr (Or.inr h3)⟩
      · rintro ⟨h1, h2, h3 | h3 | h3⟩
        · exact ⟨h1, h2, Or.inr (Or.inl h3)⟩
        · exact ⟨h1, h2, Or.inl h3⟩
        · exact ⟨h1, h2, Or.inr (Or.inr h3)⟩

/-- C26 (the edge count agrees with the edge set): for a vertex type with a total
order, in every state built from the empty graph by a sequence of public
mutations, `edges()` has `countEdges()` elements. -/
theorem edges_length_eq_countEdges [LinearOrder V] (ops : List (Op V)) :
    ((Graph.build ops).edges).length = (Graph.build ops).countEdges := by
  have hg := Graph.inv_build ops
  have h1 := Graph.two_mul_length_edges hg
  have h2 := Graph.two_mul_countEdges hg
  omega

/-! ## Neighbor sets -/

/-- C31 (`neighbors`): for every graph and all `v ≠ w`, `w` belongs to
`neighbors v` exactly when `containsEdge v w`, and `neighbors v` is empty when `v`
is absent. -/
theorem neighbors_spec (g : Graph V) (v w : V) (h : v ≠ w) :
    (w ∈ g.neighbors v ↔ g.containsEdge v w = true) ∧
    (g.containsVertex v = false → g.neighbors v = []) := by
  refine ⟨?_, ?_⟩
  · rw [Graph.containsEdge_iff]
    exact ⟨fun hm => ⟨h, hm⟩, fun hm => hm.2⟩
  · intro hc
    have hk : v ∉ UMap.keys g.adj := by
      intro hk
      rw [(Graph.containsVertex_iff g v).mpr hk] at hc
      cases hc
    rw [Graph.neighbors_eq, (UMap.find_eq_none_iff g.adj v).mpr hk]
    rfl

/-- Instance of C31: on the path 1 - 2 - 3, the vertices 2 and 3. -/
theorem neighbors_spec_witness :
    (2 : Nat) ≠ 3 ∧
    ((3 ∈ (Graph.build [Op.addEdge 1 2, Op.addEdge 2 3]).neighbors 2
        ↔ (Graph.build [Op.addEdge 1 2, Op.addEdge 2 3]).containsEdge 2 3 = true) ∧
    ((Graph.build [Op.addEdge 1 2, Op.addEdge 2 3]).containsVertex 2 = false
        → (Graph.build [Op.addEdge 1 2, Op.addEdge 2 3]).neighbors 2 = [])) :=
  ⟨by decide, neighbors_spec (Graph.build [Op.addEdge 1 2, Op.addEdge 2 3]) 2 3 (by decide)⟩

/-- C32 (`closedNeighbors`): for every graph and every vertex `v`, when `v` is in
the graph `closedNeighbors v` is `neighbors v` with `v` inserted, so that it holds
`v` and the neighbors of `v` and nothing else; when `v` is absent it is empty and
does not hold `v`. -/
theorem closedNeighbors_spec (g : Graph V) (v : V) :
    (g.containsVertex v = true →
      g.closedNeighbors v = USet.insert (g.neighbors v) v ∧
      ∀ x : V, x ∈ g.closedNeighbors v ↔ x = v ∨ x ∈ g.neighbors v) ∧
    (g.containsVertex v = false → g.closedNeighbors v = [] ∧ v ∉ g.closedNeighbors v) := by
  refine ⟨?_, ?_⟩
  · intro hc
    obtain ⟨s, hs⟩ := (Graph.containsVertex_iff_find g v).mp hc
    have e : g.closedNeighbors v = USet.insert (g.neighbors v) v := by
      simp [Graph.closedNeighbors, Graph.neighbors, hs]
    refine ⟨e, ?_⟩
    intro x
    rw [e, USet.mem_insert]
  · intro hc
    have hk : v ∉ UMap.keys g.adj := by
      intro hk
      rw [(Graph.containsVertex_iff g v).mpr hk] at hc
      cases hc
    have e : g.closedNeighbors v = [] := by
      simp [Graph.closedNeighbors, (UMap.find_eq_none_iff g.adj v).mpr hk]
    rw [e]
    exact ⟨rfl, List.not_mem_nil v⟩

/-! ## Further properties of the traversals -/

namespace Graph

/-- The loop of `bfs`, entered from a present start with any limit, ends within
`countVertices()` entries into its body, more of them giving the same result: a
sequence without repetition of at most `countVertices()` vertices, the first
`limit` elements of the sequence computed without a limit when `limit > 0`. -/
theorem bfsLoop_limit_total {g : Graph V} (hg : Inv g) (start : V)
    (hp : g.containsVertex start = true) (limit : Nat) :
    ∃ result full, bfsLoop g.adj limit g.countVertices [start] [start] [] = some result ∧
      (∀ fuel, g.countVertices ≤ fuel →
        bfsLoop g.adj limit fuel [start] [start] [] = some result) ∧
      result.Nodup ∧ (∀ x, x ∈ result → x ∈ UMap.keys g.adj) ∧
      bfsLoop g.adj 0 g.countVertices [start] [start] [] = some full ∧
      (limit = 0 → result = full) ∧ (0 < limit → result = full.take limit) := by
  obtain ⟨full, h1, h1m, hmem, _, hnodup, _⟩ := bfs_unlimited_spec hg start hp
  have hk : start ∈ UMap.keys g.adj := (containsVertex_iff g start).mp hp
  have hkeys : ∀ x, x ∈ full → x ∈ UMap.keys g.adj := by
    intro x hx
    obtain ⟨n, hw⟩ := (hmem x).mp hx
    exact walk_mem_keys hg hk hw
  by_cases hl : limit = 0
  · subst hl
    exact ⟨full, full, h1, h1m, hnodup, hkeys, h1, fun _ => rfl, fun h => absurd h (by omega)⟩
  · have hlim := bfs_limited_spec g start full h1 limit (by omega)
    refine ⟨full.take limit, full, hlim, ?_, hnodup.sublist (List.take_sublist _ _),
      fun x hx => hkeys x (List.mem_of_mem_take hx), h1, fun h => absurd h hl, fun _ => rfl⟩
    intro fuel hle
    exact bfsLoop_mono g limit _ _ _ _ _ hlim fuel hle

/-- In a state that satisfies the invariant `bfs` never reaches the bound on its
loop: it is left by the exception of `reserve` exactly when the start is present
and the limit is above what `reserve` grants, and returns a sequence otherwise. -/
theorem bfs_ends {g : Graph V} (hg : Inv g) (reserveMax : Nat) (start : V) (limit : Nat) :
    (g.bfs reserveMax start limit = some .reserveThrew ∧
      g.containsVertex start = true ∧ reserveMax < limit) ∨
    (∃ result, g.bfs reserveMax start limit = some (.value result) ∧
      ¬ (g.containsVertex start = true ∧ reserveMax < limit)) := by
  cases hp : g.containsVertex start with
  | false =>
    exact Or.inr ⟨[], bfsWithin_absent g _ _ start limit hp, fun h => (by cases h.1)⟩
  | true =>
    by_cases hm : reserveMax < limit
    · exact Or.inl ⟨bfs_refused g reserveMax start limit hp hm, rfl, hm⟩
    · obtain ⟨result, _, h1, _⟩ := bfsLoop_limit_total hg start hp limit
      refine Or.inr ⟨result, ?_, fun h => hm h.2⟩
      show g.bfsWithin reserveMax g.countVertices start limit = _
      rw [bfsWithin_granted g _ _ start limit hp (Or.inr (by omega)), h1]
      rfl

/-- For every limit that is 0 or that `reserve` grants, `bfs` returns a sequence
within `countVertices()` entries into the body of its loop, more of them giving
the same sequence; it holds no vertex twice, only vertices of the graph, and is
the sequence of the first `min(limit, n)` elements of `bfs(start)` when
`limit > 0`, `n` being the length of `bfs(start)`. -/
theorem bfs_total {g : Graph V} (hg : Inv g) (reserveMax : Nat) (start : V) (limit : Nat)
    (hm : limit = 0 ∨ limit ≤ reserveMax) :
    ∃ result, g.bfs reserveMax start limit = some (.value result) ∧
      (∀ fuel, g.countVertices ≤ fuel →
        g.bfsWithin reserveMax fuel start limit = some (.value result)) ∧
      result.Nodup ∧ (∀ x, x ∈ result → x ∈ UMap.keys g.adj) ∧
      result.length ≤ g.countVertices ∧
      ∃ full, g.bfs reserveMax start 0 = some (.value full) ∧
        (limit = 0 → result = full) ∧
        (0 < limit → result = full.take (min limit full.length)) := by
  cases hp : g.containsVertex start with
  | false =>
    refine ⟨[], bfsWithin_absent g _ _ start limit hp,
      fun fuel _ => bfsWithin_absent g _ fuel start limit hp, List.nodup_nil,
      fun x hx => (by simp at hx), by simp, [], bfsWithin_absent g _ _ start 0 hp,
      fun _ => rfl, fun _ => by simp⟩
  | true =>
    obtain ⟨result, full, h1, h2, h3, h4, h5, h6, h7⟩ := bfsLoop_limit_total hg start hp limit
    have hlen : result.length ≤ g.countVertices := by
      have := (List.Nodup.subperm h3 h4).length_le
      simpa [countVertices, UMap.keys] using this
    refine ⟨result, ?_, ?_, h3, h4, hlen, full, bfs_unlimited_eq g reserveMax start full hp h5,
      h6, ?_⟩
    · show g.bfsWithin reserveMax g.countVertices start limit = _
      rw [bfsWithin_granted g _ _ start limit hp hm, h1]
      rfl
    · intro fuel hle
      rw [bfsWithin_granted g _ _ start limit hp hm, h2 fuel hle]
      rfl
    · intro hl
      rw [h7 hl]
      by_cases hle : limit ≤ full.length
      · rw [Nat.min_eq_left hle]
      · rw [Nat.min_eq_right (by omega), List.take_of_length_le (by omega),
          List.take_of_length_le (Nat.le_refl _)]

theorem degree_succ_le {g : Graph V} (hg : Inv g) {v : V} (h : g.containsVertex v = true) :
    g.degree v + 1 ≤ g.countVertices := by
  have hk : v ∈ UMap.keys g.adj := (containsVertex_iff g v).mp h
  have hsub : ∀ w, w ∈ g.neighbors v → w ∈ (UMap.keys g.adj).erase v := by
    intro w hw
    have hne : w ≠ v := by
      rintro rfl
      exact hg.irrefl w hw
    exact (List.mem_erase_of_ne hne).mpr (hg.closed hw)
  have h1 := (List.Nodup.subperm (hg.sets_nodup v) hsub).length_le
  rw [List.length_erase_of_mem hk] at h1
  have h2 : 0 < (UMap.keys g.adj).length := List.length_pos_of_mem hk
  have h3 : g.countVertices = (UMap.keys g.adj).length := by simp [countVertices, UMap.keys]
  rw [degree_eq, h3]
  omega

theorem maxDegree_le {g : Graph V} (b : Nat) (h : ∀ e, e ∈ g.adj → e.2.length ≤ b) :
    g.maxDegree ≤ b := by
  obtain ⟨_, _, h3⟩ := UMap.foldl_max_spec g.adj 0
  rcases h3 with h3 | ⟨e, he, h3⟩
  · have : g.maxDegree = 0 := h3
    omega
  · have : g.maxDegree = e.2.length := h3.symm
    rw [this]
    exact h e he

theorem degree_of_mem {g : Graph V} (hg : Inv g) {e : V × List V} (he : e ∈ g.adj) :
    g.degree e.1 = e.2.length := by
  have := UMap.find_eq_some_of_mem hg.keys_nodup (k := e.1) (s := e.2) he
  simp [degree, this]

end Graph

/-- C35 (a limited `bfs` is a prefix of the full one), on the graph with the one
edge 1 - 2: `bfs(1)` returns `[1, 2]` and `bfs(1, 1)` its first element, but
`bfs(1, 18446744073709551615)` is not the sequence of the first
`min(18446744073709551615, 2)` elements of `bfs(1)`: the limit is above what
`result.reserve(limit)` grants and the call is left by the exception before the
loop, as with the limit `reserveMax + 1` whatever `reserveMax` is. -/
theorem bfs_limited_is_prefix_large_limit :
    (Graph.build [Op.addEdge (1 : Nat) 2]).bfs 2305843009213693951 1 0 = some (.value [1, 2]) ∧
    (Graph.build [Op.addEdge (1 : Nat) 2]).bfs 2305843009213693951 1 1
      = some (.value (List.take (min 1 2) [1, 2])) ∧
    (Graph.build [Op.addEdge (1 : Nat) 2]).bfs 2305843009213693951 1 18446744073709551615
      = some .reserveThrew ∧
    (∀ reserveMax : Nat,
      (Graph.build [Op.addEdge (1 : Nat) 2]).bfs reserveMax 1 (reserveMax + 1) = some .reserveThrew) ∧
    (Graph.build [Op.addEdge (1 : Nat) 2]).bfs 2305843009213693951 1 18446744073709551615
      ≠ some (.value (List.take (min 18446744073709551615 2) [1, 2])) := by
  have ht : (Graph.build [Op.addEdge (1 : Nat) 2]).bfs 2305843009213693951 1 18446744073709551615
      = some .reserveThrew := by decide
  refine ⟨by decide, by decide, ht, ?_, ?_⟩
  · intro reserveMax
    exact Graph.bfs_refused _ reserveMax 1 (reserveMax + 1) (by decide) (Nat.lt_succ_self _)
  · intro h
    rw [ht] at h
    cases h

/-- C36 (adjacency is distance one): in every state built from the empty graph by a
sequence of public mutations and for all `u`, `v`, `distance u v` returns 1
exactly when `containsEdge u v`. -/
theorem distance_one_iff_edge (ops : List (Op V)) (u v : V) :
    (Graph.build ops).distance u v = some (some 1)
      ↔ (Graph.build ops).containsEdge u v = true := by
  have hg := Graph.inv_build ops
  constructor
  · intro h
    have hw := ((Graph.distanceWithin_sound _ _ u v (some 1) h).1 1 rfl).1
    obtain ⟨y, hy, he⟩ := Graph.walk_succ hw
    rw [Graph.walk_zero hy] at he
    exact he
  · intro he
    obtain ⟨hne, hm⟩ := (Graph.containsEdge_iff _ u v).mp he
    have hu : (Graph.build ops).containsVertex u = true :=
      (Graph.containsVertex_iff _ u).mpr (Graph.mem_keys_of_neighbors_ne_nil hm)
    have hv : (Graph.build ops).containsVertex v = true :=
      (Graph.containsVertex_iff _ v).mpr (hg.closed hm)
    obtain ⟨r, hr, _⟩ := Graph.distanceWithin_total hg u v
    have hs := Graph.distanceWithin_sound _ _ u v r hr
    have hw : Graph.Walk (Graph.build ops) u v 1 := Graph.Walk.step Graph.Walk.refl he
    show Graph.distanceWithin _ _ u v = some (some 1)
    rw [hr]
    cases r with
    | none => exact absurd hw (hs.2 rfl hu hv 1)
    | some k =>
      obtain ⟨hk, hmin⟩ := hs.1 k rfl
      have hle := hmin 1 hw
      have : k ≠ 0 := by
        rintro rfl
        exact hne (Graph.walk_zero hk).symm
      have : k = 1 := by omega
      rw [this]

/-- C38 (degree bound of a simple graph): in every state built from the empty graph
by a sequence of public mutations, every vertex `v` of the graph has
`degree v ≤ countVertices() - 1` (indeed `degree v + 1 ≤ countVertices()`), hence
`maxDegree() ≤ countVertices() - 1` when the graph is not empty. -/
theorem degree_bound (ops : List (Op V)) :
    (∀ v : V, (Graph.build ops).containsVertex v = true →
      (Graph.build ops).degree v + 1 ≤ (Graph.build ops).countVertices ∧
      (Graph.build ops).degree v ≤ (Graph.build ops).countVertices - 1) ∧
    ((Graph.build ops).countVertices ≠ 0 →
      (Graph.build ops).maxDegree + 1 ≤ (Graph.build ops).countVertices ∧
      (Graph.build ops).maxDegree ≤ (Graph.build ops).countVertices - 1) := by
  have hg := Graph.inv_build ops
  refine ⟨?_, ?_⟩
  · intro v hv
    have := Graph.degree_succ_le hg hv
    exact ⟨this, by omega⟩
  · intro hne
    have h := Graph.maxDegree_le (g := Graph.build ops) ((Graph.build ops).countVertices - 1) (by
      intro e he
      have hv : (Graph.build ops).containsVertex e.1 = true :=
        (Graph.containsVertex_iff _ e.1).mpr (List.mem_map.mpr ⟨e, he, rfl⟩)
      have := Graph.degree_succ_le hg hv
      rw [Graph.degree_of_mem hg he] at this
      omega)
    exact ⟨by omega, h⟩

namespace USet

theorem erase_insert_of_not_mem {s : List V} {x : V} (h : x ∉ s) :
    erase (insert s x) x = s := by
  have e : insert s x = s ++ [x] := by simp [insert, h]
  rw [e]
  unfold erase
  rw [List.filter_append]
  have h1 : s.filter (fun y => decide (y ≠ x)) = s := erase_of_not_mem h
  rw [h1]
  simp

end USet

namespace UMap

theorem index_eq_modify {m : List (V × List V)} {k : V} (h : k ∈ keys m)
    (f : List V → List V) : index m k f = modify m k f := by
  induction m with
  | nil => simp [keys] at h
  | cons e m ih =>
    obtain ⟨a, s⟩ := e
    by_cases hak : a = k
    · simp [index, modify, hak]
    · have hk : k ∈ keys m := by
        simp only [keys, List.map_cons, List.mem_cons] at h
        rcases h with h | h
        · exact absurd h.symm hak
        · exact h
      simp [index, modify, hak, ih hk]

theorem modify_modify_same (m : List (V × List V)) (k : V) (f f1 : List V → List V) :
    modify (modify m k f) k f1 = modify m k (fun s => f1 (f s)) := by
  induction m with
  | nil => rfl
  | cons e m ih =>
    obtain ⟨a, s⟩ := e
    by_cases hak : a = k
    · simp [modify, hak]
    · simp [modify, hak, ih]

theorem modify_comm (m : List (V × List V)) {k k1 : V} (h : k ≠ k1)
    (f f1 : List V → List V) :
    modify (modify m k f) k1 f1 = modify (modify m k1 f1) k f := by
  induction m with
  | nil => rfl
  | cons e m ih =>
    obtain ⟨a, s⟩ := e
    by_cases hak : a = k
    · have hak1 : ¬ a = k1 := by rintro rfl; exact h hak.symm
      subst hak
      simp [modify, hak1]
    · by_cases hak1 : a = k1
      · subst hak1
        simp [modify, hak]
      · simp [modify, hak, hak1, ih]

end UMap

namespace Graph

theorem addEdge_removeEdge {g : Graph V} (hg : Inv g) {u v : V} (h : u ≠ v)
    (hu : g.containsVertex u = true) (hv : g.containsVertex v = true)
    (he : g.containsEdge u v = false) : (g.addEdge u v).removeEdge u v = g := by
  have hku : u ∈ UMap.keys g.adj := (containsVertex_iff g u).mp hu
  have hkv : v ∈ UMap.keys g.adj := (containsVertex_iff g v).mp hv
  have hm1 : v ∉ g.neighbors u := by
    intro hm
    rw [(containsEdge_iff g u v).mpr ⟨h, hm⟩] at he
    cases he
  have hm2 : u ∉ g.neighbors v := fun hm => hm1 (hg.symm v u hm)
  have hkv1 : v ∈ UMap.keys (UMap.index g.adj u (fun s => USet.insert s v)) :=
    (UMap.mem_keys_index _ _ _ _).mpr (Or.inr hkv)
  have e : (g.addEdge u v).removeEdge u v
      = ⟨UMap.modify (UMap.modify
          (UMap.index (UMap.index g.adj u (fun s => USet.insert s v)) v
            (fun s => USet.insert s u)) u (fun s => USet.erase s v)) v
          (fun s => USet.erase s u)⟩ := by
    simp only [addEdge, removeEdge, h, if_false]
  rw [e, UMap.index_eq_modify hkv1, UMap.index_eq_modify hku,
    UMap.modify_comm _ (Ne.symm h), UMap.modify_modify_same, UMap.modify_modify_same]
  have e1 : UMap.modify g.adj u (fun s => USet.erase (USet.insert s v) v) = g.adj := by
    apply UMap.modify_eq_self
    intro s hs
    apply USet.erase_insert_of_not_mem
    rw [neighbors_eq, hs] at hm1
    exact hm1
  rw [e1]
  have e2 : UMap.modify g.adj v (fun s => USet.erase (USet.insert s u) u) = g.adj := by
    apply UMap.modify_eq_self
    intro s hs
    apply USet.erase_insert_of_not_mem
    rw [neighbors_eq, hs] at hm2
    exact hm2
  rw [e2]

theorem removeEdge_addEdge {g : Graph V} (hg : Inv g) {u v : V} (h : u ≠ v)
    (he : g.containsEdge u v = true) :
    SameState ((g.removeEdge u v).addEdge u v) g ∧
    UMap.keys ((g.removeEdge u v).addEdge u v).adj = UMap.keys g.adj ∧
    ∀ x : V, (((g.removeEdge u v).addEdge u v).neighbors x).Perm (g.neighbors x) := by
  have hm1 : v ∈ g.neighbors u := ((containsEdge_iff g u v).mp he).2
  have hm2 : u ∈ g.neighbors v := hg.symm u v hm1
  have hku : u ∈ UMap.keys g.adj := hg.closed hm2
  have hkv : v ∈ UMap.keys g.adj := hg.closed hm1
  have hg2 : Inv ((g.removeEdge u v).addEdge u v) := inv_addEdge (inv_removeEdge hg u v) u v
  have hmem : ∀ x w : V, w ∈ ((g.removeEdge u v).addEdge u v).neighbors x ↔ w ∈ g.neighbors x := by
    intro x w
    rw [mem_neighbors_addEdge _ h, mem_neighbors_removeEdge _ h]
    constructor
    · rintro (⟨rfl, rfl⟩ | ⟨rfl, rfl⟩ | ⟨h1, _, _⟩)
      · exact hm2
      · exact hm1
      · exact h1
    · intro hw
      by_cases c1 : x = v ∧ w = u
      · exact Or.inl c1
      · by_cases c2 : x = u ∧ w = v
        · exact Or.inr (Or.inl c2)
        · exact Or.inr (Or.inr ⟨hw, c1, c2⟩)
  have hkeys : UMap.keys ((g.removeEdge u v).addEdge u v).adj = UMap.keys g.adj := by
    have e : ((g.removeEdge u v).addEdge u v).adj
        = UMap.index (UMap.index (g.removeEdge u v).adj u (fun s => USet.insert s v)) v
            (fun s => USet.insert s u) := by
      simp only [addEdge, h, if_false]
    have k1 : UMap.keys (UMap.index (g.removeEdge u v).adj u (fun s => USet.insert s v))
        = UMap.keys g.adj := by
      rw [UMap.keys_index, keys_removeEdge, if_pos hku]
    rw [e, UMap.keys_index, k1, if_pos hkv]
  refine ⟨⟨?_, hmem⟩, hkeys, ?_⟩
  · intro x
    rw [Bool.eq_iff_iff, containsVertex_iff, containsVertex_iff, hkeys]
  · intro x
    rw [List.perm_ext_iff_of_nodup (hg2.sets_nodup x) (hg.sets_nodup x)]
    exact hmem x

end Graph

/-- C37 (round trip of `addEdge` and `removeEdge`): in every state built from the
empty graph by a sequence of public mutations and for `u ≠ v`: if both are present
and `containsEdge u v` is false, `addEdge u v` followed by `removeEdge u v` gives
back the store as it was; if `containsEdge u v` is true, `removeEdge u v` followed
by `addEdge u v` gives back the same state: the same vertices in the same order
and for every vertex the same neighbor set. -/
theorem addEdge_removeEdge_round_trip (ops : List (Op V)) (u v : V) (h : u ≠ v) :
    ((Graph.build ops).containsVertex u = true → (Graph.build ops).containsVertex v = true →
      (Graph.build ops).containsEdge u v = false →
      ((Graph.build ops).addEdge u v).removeEdge u v = Graph.build ops) ∧
    ((Graph.build ops).containsEdge u v = true →
      Graph.SameState (((Graph.build ops).removeEdge u v).addEdge u v) (Graph.build ops) ∧
      UMap.keys (((Graph.build ops).removeEdge u v).addEdge u v).adj
        = UMap.keys (Graph.build ops).adj ∧
      ∀ x : V, ((((Graph.build ops).removeEdge u v).addEdge u v).neighbors x).Perm
        ((Graph.build ops).neighbors x)) :=
  ⟨fun hu hv he => Graph.addEdge_removeEdge (Graph.inv_build ops) h hu hv he,
    fun he => Graph.removeEdge_addEdge (Graph.inv_build ops) h he⟩

/-- Instance of C37: with the edges 1 - 2 and 1 - 3, the pair 2, 3 (not joined) and
the pair 1, 2 (joined). -/
theorem addEdge_removeEdge_round_trip_witness :
    (2 : Nat) ≠ 3 ∧
    (((Graph.build [Op.addEdge 1 2, Op.addEdge 1 3]).containsVertex 2 = true →
      (Graph.build [Op.addEdge 1 2, Op.addEdge 1 3]).containsVertex 3 = true →
      (Graph.build [Op.addEdge 1 2, Op.addEdge 1 3]).containsEdge 2 3 = false →
      ((Graph.build [Op.addEdge 1 2, Op.addEdge 1 3]).addEdge 2 3).removeEdge 2 3
        = Graph.build [Op.addEdge 1 2, Op.addEdge 1 3]) ∧
    ((Graph.build [Op.addEdge 1 2, Op.addEdge 1 3]).containsEdge 2 3 = true →
      Graph.SameState
        (((Graph.build [Op.addEdge 1 2, Op.addEdge 1 3]).removeEdge 2 3).addEdge 2 3)
        (Graph.build [Op.addEdge 1 2, Op.addEdge 1 3]) ∧
      UMap.keys (((Graph.build [Op.addEdge 1 2, Op.addEdge 1 3]).removeEdge 2 3).addEdge 2 3).adj
        = UMap.keys (Graph.build [Op.addEdge 1 2, Op.addEdge 1 3]).adj ∧
      ∀ x : Nat,
        ((((Graph.build [Op.addEdge 1 2, Op.addEdge 1 3]).removeEdge 2 3).addEdge 2 3).neighbors
          x).Perm ((Graph.build [Op.addEdge 1 2, Op.addEdge 1 3]).neighbors x))) :=
  ⟨by decide, addEdge_removeEdge_round_trip [Op.addEdge 1 2, Op.addEdge 1 3] 2 3 (by decide)⟩

/-! ## The complete graph of the tests and the removal of its even vertices -/

namespace Graph

theorem run_append (g : Graph V) (ops1 ops2 : List (Op V)) :
    g.run (ops1 ++ ops2) = (g.run ops1).run ops2 := by
  simp [run, List.foldl_append]

theorem mem_neighbors_run_addEdges (ops : List (Op V))
    (hops : ∀ op, op ∈ ops → ∃ i j, op = Op.addEdge i j) (g : Graph V) (a b : V) :
    b ∈ (g.run ops).neighbors a
      ↔ b ∈ g.neighbors a ∨ (a ≠ b ∧ (Op.addEdge a b ∈ ops ∨ Op.addEdge b a ∈ ops)) := by
  induction ops generalizing g with
  | nil => simp [run]
  | cons op rest ih =>
    obtain ⟨i, j, rfl⟩ := hops _ (List.mem_cons_self _ _)
    have hrest : ∀ op, op ∈ rest → ∃ i j, op = Op.addEdge i j :=
      fun op h => hops op (List.mem_cons_of_mem _ h)
    have e : g.run (Op.addEdge i j :: rest) = (g.addEdge i j).run rest := rfl
    rw [e, ih hrest]
    simp only [List.mem_cons, Op.addEdge.injEq]
    by_cases hij : i = j
    · subst hij
      have : g.addEdge i i = g := by simp [addEdge]
      rw [this]
      constructor
      · rintro (h | ⟨h1, h2 | h2⟩)
        · exact Or.inl h
        · exact Or.inr ⟨h1, Or.inl (Or.inr h2)⟩
        · exact Or.inr ⟨h1, Or.inr (Or.inr h2)⟩
      · rintro (h | ⟨h1, (⟨h2, h3⟩ | h2) | (⟨h2, h3⟩ | h2)⟩)
        · exact Or.inl h
        · exact absurd (h2.trans h3.symm) h1
        · exact Or.inr ⟨h1, Or.inl h2⟩
        · exact absurd (h3.trans h2.symm) h1
        · exact Or.inr ⟨h1, Or.inr h2⟩
    · rw [mem_neighbors_addEdge g hij]
      constructor
      · rintro ((⟨h1, h2⟩ | ⟨h1, h2⟩ | h) | ⟨h1, h2 | h2⟩)
        · refine Or.inr ⟨?_, Or.inr (Or.inl ⟨h2, h1⟩)⟩
          rw [h1, h2]; exact Ne.symm hij
        · refine Or.inr ⟨?_, Or.inl (Or.inl ⟨h1, h2⟩)⟩
          rw [h1, h2]; exact hij
        · exact Or.inl h
        · exact Or.inr ⟨h1, Or.inl (Or.inr h2)⟩
        · exact Or.inr ⟨h1, Or.inr (Or.inr h2)⟩
      · rintro (h | ⟨h1, (⟨h2, h3⟩ | h2) | (⟨h2, h3⟩ | h2)⟩)
        · exact Or.inl (Or.inr (Or.inr h))
        · exact Or.inl (Or.inr (Or.inl ⟨h2, h3⟩))
        · exact Or.inr ⟨h1, Or.inl h2⟩
        · exact Or.inl (Or.inl ⟨h3, h2⟩)
        · exact Or.inr ⟨h1, Or.inr h2⟩

theorem mem_keys_run_addEdges (ops : List (Op V))
    (hops : ∀ op, op ∈ ops → ∃ i j, op = Op.addEdge i j) (g : Graph V) (x : V) :
    x ∈ UMap.keys (g.run ops).adj
      ↔ x ∈ UMap.keys g.adj ∨ ∃ i j, i ≠ j ∧ Op.addEdge i j ∈ ops ∧ (x = i ∨ x = j) := by
  induction ops generalizing g with
  | nil => simp [run]
  | cons op rest ih =>
    obtain ⟨i, j, rfl⟩ := hops _ (List.mem_cons_self _ _)
    have hrest : ∀ op, op ∈ rest → ∃ i j, op = Op.addEdge i j :=
      fun op h => hops op (List.mem_cons_of_mem _ h)
    have e : g.run (Op.addEdge i j :: rest) = (g.addEdge i j).run rest := rfl
    rw [e, ih hrest]
    by_cases hij : i = j
    · subst hij
      have : g.addEdge i i = g := by simp [addEdge]
      rw [this]
      constructor
      · rintro (h | ⟨a, b, h1, h2, h3⟩)
        · exact Or.inl h
        · exact Or.inr ⟨a, b, h1, List.mem_cons_of_mem _ h2, h3⟩
      · rintro (h | ⟨a, b, h1, h2, h3⟩)
        · exact Or.inl h
        · rcases List.mem_cons.mp h2 with h4 | h4
          · simp only [Op.addEdge.injEq] at h4
            exact absurd (h4.1.trans h4.2.symm) h1
          · exact Or.inr ⟨a, b, h1, h4, h3⟩
    · rw [mem_keys_addEdge g hij]
      constructor
      · rintro ((h | h | h) | ⟨a, b, h1, h2, h3⟩)
        · exact Or.inr ⟨i, j, hij, List.mem_cons_self _ _, Or.inl h⟩
        · exact Or.inr ⟨i, j, hij, List.mem_cons_self _ _, Or.inr h⟩
        · exact Or.inl h
        · exact Or.inr ⟨a, b, h1, List.mem_cons_of_mem _ h2, h3⟩
      · rintro (h | ⟨a, b, h1, h2, h3⟩)
        · exact Or.inl (Or.inr (Or.inr h))
        · rcases List.mem_cons.mp h2 with h4 | h4
          · simp only [Op.addEdge.injEq] at h4
            obtain ⟨rfl, rfl⟩ := h4
            rcases h3 with h3 | h3
            · exact Or.inl (Or.inl h3)
            · exact Or.inl (Or.inr (Or.inl h3))
          · exact Or.inr ⟨a, b, h1, h4, h3⟩

theorem run_removeVertices (removed : List V) {g : Graph V} (hg : Inv g) :
    Inv (g.run (removed.map Op.removeVertex)) ∧
    (∀ a b : V, b ∈ (g.run (removed.map Op.removeVertex)).neighbors a
      ↔ b ∈ g.neighbors a ∧ a ∉ removed ∧ b ∉ removed) ∧
    (∀ x : V, x ∈ UMap.keys (g.run (removed.map Op.removeVertex)).adj
      ↔ x ∈ UMap.keys g.adj ∧ x ∉ removed) := by
  induction removed generalizing g with
  | nil => simp [run, hg]
  | cons v rest ih =>
    have e : g.run ((v :: rest).map Op.removeVertex)
        = (g.removeVertex v).run (rest.map Op.removeVertex) := rfl
    obtain ⟨h1, h2, h3⟩ := ih (inv_removeVertex hg v)
    rw [e]
    refine ⟨h1, ?_, ?_⟩
    · intro a b
      rw [h2, mem_neighbors_removeVertex hg]
      simp only [List.mem_cons, not_or]
      constructor
      · rintro ⟨⟨c1, c2, c3⟩, c4, c5⟩
        exact ⟨c1, ⟨c2, c4⟩, c3, c5⟩
      · rintro ⟨c1, ⟨c2, c4⟩, c3, c5⟩
        exact ⟨⟨c1, c2, c3⟩, c4, c5⟩
    · intro x
      rw [h3, keys_removeVertex hg, List.Nodup.mem_erase_iff hg.keys_nodup]
      simp only [List.mem_cons, not_or]
      constructor
      · rintro ⟨⟨c1, c2⟩, c3⟩
        exact ⟨c2, c1, c3⟩
      · rintro ⟨c2, c1, c3⟩
        exact ⟨⟨c1, c2⟩, c3⟩

theorem mem_completeOps (n : Nat) (op : Op Nat) :
    op ∈ completeOps n ↔ ∃ i j, i < n ∧ j < n ∧ i ≠ j ∧ op = Op.addEdge i j := by
  simp only [completeOps, List.mem_flatMap, List.mem_range]
  constructor
  · rintro ⟨i, hi, j, hj, h⟩
    by_cases hij : i = j
    · simp [hij] at h
    · simp only [hij, ne_eq, not_false_eq_true, if_true, List.mem_singleton] at h
      exact ⟨i, j, hi, hj, hij, h⟩
  · rintro ⟨i, j, hi, hj, hij, rfl⟩
    exact ⟨i, hi, j, hj, by simp [hij]⟩

theorem sum_map_const (l : List V) (f : V → Nat) (c : Nat) (h : ∀ x, x ∈ l → f x = c) :
    (l.map f).sum = l.length * c := by
  induction l with
  | nil => simp
  | cons a l ih =>
    rw [List.map_cons, List.sum_cons, h a (List.mem_cons_self _ _),
      ih (fun x hx => h x (List.mem_cons_of_mem _ hx)), List.length_cons]
    ring

theorem degree_le_maxDegree (g : Graph V) (v : V) : g.degree v ≤ g.maxDegree := by
  obtain ⟨_, h2, _⟩ := UMap.foldl_max_spec g.adj 0
  cases hf : UMap.find g.adj v with
  | none => simp [degree, hf]
  | some s =>
    have := h2 (v, s) (UMap.mem_of_find_eq_some hf)
    simpa [degree, hf] using this

end Graph

namespace Graph

set_option maxRecDepth 100000 in
theorem odd_others_count : ∀ v : Nat, v < 100 → v % 2 = 1 →
    ((List.range 100).filter (fun b => decide (b % 2 = 1 ∧ b ≠ v))).length = 49 := by
  decide

theorem odd_count :
    ((List.range 100).filter (fun b => decide (b % 2 = 1))).length = 50 := by
  decide

theorem k50_inv : Inv (build (completeOps 100 ++ evenRemovals 100)) :=
  inv_build _

theorem k50_neighbors (a b : Nat) :
    b ∈ (build (completeOps 100 ++ evenRemovals 100)).neighbors a
      ↔ a ≠ b ∧ a < 100 ∧ b < 100 ∧ a % 2 = 1 ∧ b % 2 = 1 := by
  have hops : ∀ op, op ∈ completeOps 100 → ∃ i j, op = Op.addEdge i j := by
    intro op hop
    obtain ⟨i, j, _, _, _, h⟩ := (mem_completeOps 100 op).mp hop
    exact ⟨i, j, h⟩
  have e : build (completeOps 100 ++ evenRemovals 100)
      = ((empty : Graph Nat).run (completeOps 100)).run
          (((List.range 100).filter (fun i => i % 2 = 0)).map Op.removeVertex) := by
    unfold build evenRemovals
    exact run_append _ _ _
  rw [e, (run_removeVertices _ (inv_run inv_empty (completeOps 100))).2.1,
    mem_neighbors_run_addEdges _ hops]
  simp only [mem_completeOps, Op.addEdge.injEq, List.mem_filter, List.mem_range,
    decide_eq_true_eq]
  have hemp : b ∉ (empty : Graph Nat).neighbors a := by simp [empty, neighbors, UMap.find]
  constructor
  · rintro ⟨h1 | ⟨hne, ⟨i, j, hi, hj, _, rfl, rfl⟩ | ⟨i, j, hi, hj, _, rfl, rfl⟩⟩, ha, hb⟩
    · exact absurd h1 hemp
    · refine ⟨hne, hi, hj, ?_, ?_⟩ <;> omega
    · refine ⟨hne, hj, hi, ?_, ?_⟩ <;> omega
  · rintro ⟨hne, ha, hb, hao, hbo⟩
    refine ⟨Or.inr ⟨hne, Or.inl ⟨a, b, ha, hb, hne, rfl, rfl⟩⟩, ?_, ?_⟩ <;> omega

theorem k50_keys (x : Nat) :
    x ∈ UMap.keys (build (completeOps 100 ++ evenRemovals 100)).adj
      ↔ x < 100 ∧ x % 2 = 1 := by
  have hops : ∀ op, op ∈ completeOps 100 → ∃ i j, op = Op.addEdge i j := by
    intro op hop
    obtain ⟨i, j, _, _, _, h⟩ := (mem_completeOps 100 op).mp hop
    exact ⟨i, j, h⟩
  have e : build (completeOps 100 ++ evenRemovals 100)
      = ((empty : Graph Nat).run (completeOps 100)).run
          (((List.range 100).filter (fun i => i % 2 = 0)).map Op.removeVertex) := by
    unfold build evenRemovals
    exact run_append _ _ _
  rw [e, (run_removeVertices _ (inv_run inv_empty (completeOps 100))).2.2,
    mem_keys_run_addEdges _ hops]
  simp only [mem_completeOps, Op.addEdge.injEq, List.mem_filter, List.mem_range,
    decide_eq_true_eq]
  have hemp : x ∉ UMap.keys (empty : Graph Nat).adj := by simp [empty, UMap.keys]
  constructor
  · rintro ⟨h1 | ⟨i, j, _, ⟨i1, j1, hi, hj, _, rfl, rfl⟩, h2⟩, hx⟩
    · exact absurd h1 hemp
    · rcases h2 with rfl | rfl
      · exact ⟨hi, by omega⟩
      · exact ⟨hj, by omega⟩
  · rintro ⟨hx, hxo⟩
    refine ⟨Or.inr ⟨x, 0, by omega, ⟨x, 0, hx, by omega, by omega, rfl, rfl⟩, Or.inl rfl⟩, ?_⟩
    omega

theorem k50_degree (v : Nat) (hv : v < 100) (ho : v % 2 = 1) :
    (build (completeOps 100 ++ evenRemovals 100)).degree v = 49 := by
  have hperm : ((build (completeOps 100 ++ evenRemovals 100)).neighbors v).Perm
      ((List.range 100).filter (fun b => decide (b % 2 = 1 ∧ b ≠ v))) := by
    rw [List.perm_ext_iff_of_nodup (k50_inv.sets_nodup v) ((List.nodup_range 100).filter _)]
    intro b
    rw [k50_neighbors]
    simp only [List.mem_filter, List.mem_range, decide_eq_true_eq]
    constructor
    · rintro ⟨h1, _, h3, _, h5⟩
      exact ⟨h3, h5, Ne.symm h1⟩
    · rintro ⟨h3, h5, h1⟩
      exact ⟨Ne.symm h1, hv, h3, ho, h5⟩
  rw [degree_eq, hperm.length_eq, odd_others_count v hv ho]

theorem k50_counts :
    (build (completeOps 100 ++ evenRemovals 100)).countVertices = 50 ∧
    (build (completeOps 100 ++ evenRemovals 100)).countEdges = 1225 ∧
    (build (completeOps 100 ++ evenRemovals 100)).maxDegree = 49 := by
  have hg := k50_inv
  have hkeys : (UMap.keys (build (completeOps 100 ++ evenRemovals 100)).adj).length = 50 := by
    have hperm : (UMap.keys (build (completeOps 100 ++ evenRemovals 100)).adj).Perm
        ((List.range 100).filter (fun b => decide (b % 2 = 1))) := by
      rw [List.perm_ext_iff_of_nodup hg.keys_nodup ((List.nodup_range 100).filter _)]
      intro x
      rw [k50_keys]
      simp only [List.mem_filter, List.mem_range, decide_eq_true_eq]
    rw [hperm.length_eq, odd_count]
  have hcv : (build (completeOps 100 ++ evenRemovals 100)).countVertices = 50 := by
    rw [← hkeys]
    simp [countVertices, UMap.keys]
  have htotal : UMap.total (build (completeOps 100 ++ evenRemovals 100)).adj = 50 * 49 := by
    rw [← UMap.sum_degrees _ hg.keys_nodup, ← hkeys]
    apply sum_map_const
    intro x hx
    obtain ⟨h1, h2⟩ := (k50_keys x).mp hx
    rw [← neighbors_eq, ← degree_eq]
    exact k50_degree x h1 h2
  refine ⟨hcv, ?_, ?_⟩
  · rw [countEdges_eq, htotal]
  · apply Nat.le_antisymm
    · apply maxDegree_le
      intro e he
      have hk : e.1 ∈ UMap.keys (build (completeOps 100 ++ evenRemovals 100)).adj :=
        List.mem_map.mpr ⟨e, he, rfl⟩
      obtain ⟨h1, h2⟩ := (k50_keys e.1).mp hk
      rw [← degree_of_mem hg he, k50_degree e.1 h1 h2]
    · have := degree_le_maxDegree (build (completeOps 100 ++ evenRemovals 100)) 1
      rw [k50_degree 1 (by omega) (by omega)] at this
      exact this

end Graph

/-- C33 (`removeVertex` removes exactly the incident edges): in every state built
from the empty graph by a sequence of public mutations and for every vertex `v`,
present or not (the degree of an absent vertex is 0), `removeVertex v` lowers
`countEdges()` by `degree v` and leaves `containsEdge a b` unchanged for all `a`,
`b` other than `v`.  Removing the 50 even vertices of the complete graph on 0..99
leaves 50 vertices, 1225 edges and `maxDegree()` 49. -/
theorem removeVertex_edge_count (ops : List (Op V)) (v : V) :
    ((Graph.build ops).removeVertex v).countEdges + (Graph.build ops).degree v
        = (Graph.build ops).countEdges ∧
    (∀ a b : V, a ≠ v → b ≠ v →
      ((Graph.build ops).removeVertex v).containsEdge a b
        = (Graph.build ops).containsEdge a b) ∧
    ((Graph.build (Graph.completeOps 100 ++ Graph.evenRemovals 100)).countVertices = 50 ∧
      (Graph.build (Graph.completeOps 100 ++ Graph.evenRemovals 100)).countEdges = 1225 ∧
      (Graph.build (Graph.completeOps 100 ++ Graph.evenRemovals 100)).maxDegree = 49) := by
  have hg := Graph.inv_build ops
  have hg1 := Graph.inv_removeVertex hg v
  refine ⟨?_, ?_, Graph.k50_counts⟩
  · have ht := Graph.total_removeVertex hg v
    have c1 := Graph.two_mul_countEdges hg
    have c2 := Graph.two_mul_countEdges hg1
    omega
  · intro a b ha hb
    rw [Bool.eq_iff_iff, Graph.containsEdge_iff, Graph.containsEdge_iff,
      Graph.mem_neighbors_removeVertex hg]
    constructor
    · rintro ⟨h1, h2, _, _⟩
      exact ⟨h1, h2⟩
    · rintro ⟨h1, h2⟩
      exact ⟨h1, h2, ha, hb⟩

/-! ## Sanity checks on the tests of the repository -/

example : Graph.k32.countVertices = 5 ∧ Graph.k32.countEdges = 6 := by decide

example : (Graph.k32.removeVertex 4).countVertices = 4 ∧ (Graph.k32.removeVertex 4).countEdges = 4
    ∧ (Graph.k32.removeVertex 4).containsEdge 1 4 = false := by decide

example : (Graph.build [Op.addEdge (-1 : Int) (-5)]).countVertices = 2
    ∧ (Graph.build [Op.addEdge (-1 : Int) (-5)]).countEdges = 1 := by decide

example : (Graph.build [Op.addEdge (11 : Nat) 12, .addEdge 12 13, .addEdge 998 999]).distance 999 11
    = some none := by decide

example : (Graph.build [Op.addEdge (11 : Nat) 12, .addEdge 12 13, .addEdge 998 999,
    .addEdge 998 11]).distance 999 11 = some (some 2) := by decide

example : (Graph.build [Op.addEdge (11 : Nat) 12]).distance 11 11 = some (some 0)
    ∧ (Graph.build [Op.addEdge (11 : Nat) 12]).distance 999 11 = some none := by decide

example : Graph.grid43.countVertices = 12 ∧ Graph.grid43.countEdges = 17
    ∧ Graph.grid43.degree 11 = 2 ∧ Graph.grid43.degree 22 = 4 := by decide

example : Graph.grid43.bfs 2305843009213693951 11 0
    = some (.value [11, 21, 12, 31, 22, 13, 41, 32, 23, 42, 33, 43]) := by
  decide

example : Graph.grid43.bfs 2305843009213693951 43 3 = some (.value [43, 33, 42]) := by decide

example : Graph.grid43.bfs 2305843009213693951 999 0 = some (.value []) ∧
    Graph.grid43.bfs 2305843009213693951 999 5 = some (.value []) := by decide

example : Graph.grid43.bfs 2305843009213693951 43 18446744073709551615
    = some .reserveThrew := by decide

example : Graph.grid43.distance 11 32 = some (some 3)
    ∧ Graph.grid43.distance 32 11 = some (some 3) := by decide

example : Graph.grid43.maxDegree = 4 ∧ Graph.grid43.edges.length = 17
    ∧ Graph.k32.maxDegree = 3 ∧ (Graph.k32.removeVertex 4).maxDegree = 2 := by decide

example : (Graph.build [Op.addEdge (5 : Nat) 1, .addEdge 1 5, .addEdge 7 5]).edges
    = [(5, 7), (1, 5)] := by decide

example : Graph.grid43.iterate = some Graph.grid43.vertices := by decide

example : (Graph.k32.removeVertex 4).countEdges + Graph.k32.degree 4 = Graph.k32.countEdges
    ∧ Graph.k32.degree 4 = 2 := by decide

example : Graph.grid43.closedNeighbors 11 = [21, 12, 11]
    ∧ Graph.grid43.closedNeighbors 22 = [12, 21, 32, 23, 22]
    ∧ Graph.grid43.closedNeighbors 999 = [] := by decide

example : Graph.grid43.neighbors 11 = [21, 12] ∧ Graph.grid43.neighbors 22 = [12, 21, 32, 23]
    ∧ Graph.grid43.neighbors 999 = [] := by decide

end GraphLib
